import Mathlib

/-!
# A verification model of the okra merkle search tree

This file is a shallow embedding, in Lean 4, of the okra merkle-search-tree
core as implemented in `packages/okra-pg/src/index.ts` (the incremental
`Tree` mutation engine backed by a `nodes(level, key, hash, value)` table)
and `packages/okra/src/Builder.ts` (the bulk `Builder`).

Modelling conventions:

* Byte strings (`Uint8Array` / postgres `bytea`) are `List Nat`, with the
  predicate `ByteString` recording that every element is `< 256` where a
  claim needs genuine bytes.
* The hash function (blake3 with digest length `K`, declared out of scope
  by the specification, which only requires a fixed-output-length hasher
  with incremental update) is an abstract parameter `H : List Nat → List Nat`;
  an incremental `create/update/.../digest` sequence is modelled as `H`
  applied to the concatenation of the updates.
* The postgres table with its unique index on `(level, key)` is modelled as
  a list of nodes sorted by `(level, key)` with `NULL` (the anchor key,
  `Option.none`) ordered first, which is the canonical representation of
  the table contents; SQL queries become filters over that sorted list.
* The asynchronous methods of `Tree` are rendered as sequential state
  transformers `Store → Option Store`; `Option.none` models a thrown
  assertion (`assert` in the source) or recursion that does not terminate
  (the recursive protocol has no structural termination measure, so the
  embedding threads explicit fuel; every real terminating run is reproduced
  by every sufficiently large fuel).
-/

namespace Okra

/-- Byte strings (`Uint8Array` values and postgres `bytea`) as lists of
naturals. -/
abbrev Bytes := List Nat

/-- All elements of the list are genuine bytes. -/
def ByteString (b : Bytes) : Prop := ∀ x ∈ b, x < 256

instance : DecidablePred ByteString := fun b =>
  inferInstanceAs (Decidable (∀ x ∈ b, x < 256))

/-- Lexicographic (memcmp-style) strict order on byte strings: postgres
`bytea` comparison, under which a strict prefix sorts before its
extensions. -/
def byteaLt : Bytes → Bytes → Bool
  | [], [] => false
  | [], _ :: _ => true
  | _ :: _, [] => false
  | a :: as, b :: bs => if a < b then true else if b < a then false else byteaLt as bs

/-- Non-strict `bytea` comparison. -/
def byteaLe (a b : Bytes) : Bool := byteaLt a b || a == b

/-- Keys: a real byte-string key, or `none` for the anchor (SQL `NULL`). -/
abbrev NodeKey := Option Bytes

/-- Strict order on keys with the anchor (`none`) smallest, matching
`ORDER BY key ... NULLS FIRST` / the reverse of `... DESC NULLS LAST`. -/
def keyLt : NodeKey → NodeKey → Bool
  | none, none => false
  | none, some _ => true
  | some _, none => false
  | some a, some b => byteaLt a b

/-- Non-strict order on keys, anchor first. -/
def keyLe (a b : NodeKey) : Bool := keyLt a b || a == b

/-- `new DataView(hash...).getUint32(0)`: the first four bytes of a digest
read as a big-endian unsigned 32-bit integer.  The source would throw on a
digest shorter than four bytes (the specification requires `K ≥ 4`); the
embedding returns 0 there and every statement about it carries a
`4 ≤ hash.length` hypothesis. -/
def readUInt32BE : Bytes → Nat
  | h0 :: h1 :: h2 :: h3 :: _ => ((h0 * 256 + h1) * 256 + h2) * 256 + h3
  | _ => 0

/-- `LIMIT = Number((1n << 32n) / BigInt(Q))`: BigInt division truncates and
the quotient is at most `2^32`, hence exactly representable, so this is
floor division. -/
def limit (Q : Nat) : Nat := 2 ^ 32 / Q

/-- `DataView.setUint32(0, n)` big-endian: the argument is reduced mod
`2^32` (JavaScript `ToUint32`) and stored as four bytes. -/
def toBE4 (n : Nat) : Bytes :=
  [n % 2 ^ 32 / 2 ^ 24, n % 2 ^ 24 / 2 ^ 16, n % 2 ^ 16 / 2 ^ 8, n % 2 ^ 8]

/-- `LIMIT_KEY`: the four-byte buffer holding `setUint32(0, LIMIT)`. -/
def limitKey (Q : Nat) : Bytes := toBE4 (limit Q)

/-- A row of the `nodes` table / a `Node` of the okra interface: `value` is
`some _` only for real level-0 entries. -/
structure Node where
  level : Nat
  key : NodeKey
  hash : Bytes
  value : Option Bytes
  deriving DecidableEq, Repr

/-- `Tree.isBoundary` (= `Builder.isBoundary`): the first four bytes of the
node's hash, read as a big-endian `u32`, are strictly below `LIMIT`. -/
def isBoundary (Q : Nat) (n : Node) : Bool := readUInt32BE n.hash < limit Q

/-- Big-endian value of a byte string (most significant byte first). -/
def beNat (b : Bytes) : Nat := b.foldl (fun acc x => acc * 256 + x) 0

/-- On a digest of length at least four, `readUInt32BE` is the big-endian
value of the first four bytes. -/
theorem readUInt32BE_eq_beNat_take (h : Bytes) (hl : 4 ≤ h.length) :
    readUInt32BE h = beNat (h.take 4) := by
  match h, hl with
  | h0 :: h1 :: h2 :: h3 :: rest, _ =>
    simp only [readUInt32BE, beNat, List.take, List.foldl]
    ring

/-! ## The node store

The postgres table `nodes(level, key, hash, value)` with its unique index on
`(level, key)` is modelled as a list of nodes kept sorted by `(level, key)`,
the anchor key (`NULL`) first within a level.  SQL queries are filters over
this list; `ORDER BY key ASC NULLS FIRST` is the list order itself within a
level, and `DESC NULLS LAST` is its reverse. -/

/-- Strict order on `(level, key)` pairs: by level, then by key with the
anchor first. -/
def nkLt (a b : Nat × NodeKey) : Bool :=
  a.1 < b.1 || (a.1 == b.1 && keyLt a.2 b.2)

/-- The node table, as its canonical sorted representation. -/
abbrev Store := List Node

/-- `Tree.getNode` / the `SELECT` by `(level, key)`. -/
def getNode (s : Store) (level : Nat) (key : NodeKey) : Option Node :=
  s.find? (fun n => n.level == level && n.key == key)

/-- `Tree.setNode`: upsert by `(level, key)` (an `UPDATE` when the row
exists, otherwise an `INSERT`), maintaining the sorted representation. -/
def setNode (s : Store) (m : Node) : Store :=
  match s with
  | [] => [m]
  | n :: rest =>
    if n.level == m.level && n.key == m.key then m :: rest
    else if nkLt (m.level, m.key) (n.level, n.key) then m :: n :: rest
    else n :: setNode rest m

/-- `Tree.deleteNode` / the `deletenode` procedure: delete the row with
this `(level, key)` if present. -/
def deleteNode (s : Store) (level : Nat) (key : NodeKey) : Store :=
  s.filter (fun n => !(n.level == level && n.key == key))

/-- All nodes of one level, ascending by key with the anchor first
(the `nodes(level)` iteration of the NodeStore contract). -/
def levelNodes (s : Store) (level : Nat) : List Node :=
  s.filter (fun n => n.level == level)

/-- The greatest level appearing in the store. -/
def topLevel (s : Store) : Nat := s.foldr (fun n acc => max n.level acc) 0

/-- `Tree.getRoot`: `SELECT * FROM nodes ORDER BY level DESC LIMIT 1`.
Postgres breaks ties within the top level arbitrarily; the model picks the
first node of the top level in key order (in every well-formed state the
top level holds exactly the anchor, so the tie never matters). -/
def getRoot (s : Store) : Option Node := (levelNodes s (topLevel s)).head?

/-- Rows matching the `WHERE` clause of `Tree.getFirstSibling`:
`key ISNULL OR (key <= $2 AND hash < $3)` at the node's level, in
ascending (`NULLS FIRST`) key order. -/
def fsCandidates (Q : Nat) (s : Store) (n : Node) : List Node :=
  (levelNodes s n.level).filter
    (fun c => c.key == none || (keyLe c.key n.key && byteaLt c.hash (limitKey Q)))

/-- `Tree.getFirstSibling`: the anchor itself for an anchor node, otherwise
the `ORDER BY key DESC NULLS LAST LIMIT 1` row of `fsCandidates` (i.e. the
last candidate in ascending anchor-first order); `none` models the failed
`assert` when the query returns no row. -/
def getFirstSibling (Q : Nat) (s : Store) (n : Node) : Option Node :=
  match n.key with
  | none => some n
  | some _ => (fsCandidates Q s n).getLast?

/-- The inner subquery of `Tree.getHash`: the first (ascending) node at
level `l` with a non-null key, key strictly greater than `key` (or any key
when `key` is null), and `hash < LIMIT_KEY`. -/
def nextBoundary (Q : Nat) (s : Store) (l : Nat) (key : NodeKey) : Option Node :=
  ((levelNodes s l).filter
    (fun c => c.key != none && keyLt key c.key && byteaLt c.hash (limitKey Q))).head?

/-- The rows hashed by `Tree.getHash(level, key)`: nodes of `level - 1`
from `key` (inclusive; all of them when `key` is null) up to, but
excluding, the next boundary key strictly after `key` (to the end of the
level when there is none), in ascending anchor-first order. -/
def chunkChildren (Q : Nat) (s : Store) (level : Nat) (key : NodeKey) : List Node :=
  let l := level - 1
  let nb := nextBoundary Q s l key
  (levelNodes s l).filter (fun c =>
    (key == none || (c.key != none && keyLe key c.key)) &&
    (c.key == none ||
      (match nb with
       | some b => keyLt c.key b.key
       | none => true)))

/-- `Tree.getHash`: the digest of the concatenated hashes of the chunk's
members (an incremental `create/update*/digest` run is `H` of the
concatenation). -/
def getHash (H : Bytes → Bytes) (Q : Nat) (s : Store) (level : Nat) (key : NodeKey) : Bytes :=
  H (((chunkChildren Q s level key).map Node.hash).flatten)

/-- The `SELECT key FROM nodes WHERE level = $1 AND key NOTNULL ORDER BY key
LIMIT 1` probe of `Tree.updateAnchor`. -/
def firstRealKey (s : Store) (level : Nat) : Option Node :=
  ((levelNodes s level).filter (fun c => c.key != none)).head?

/-- `Tree.hashEntry`: `H(len(key) || key || len(value) || value)` with
4-byte big-endian length prefixes. -/
def hashEntry (H : Bytes → Bytes) (key value : Bytes) : Bytes :=
  H (toBE4 key.length ++ key ++ toBE4 value.length ++ value)

/-- `LEAF_ANCHOR_HASH = blake3([], { dkLen: K })`: the digest of the empty
byte string. -/
def leafAnchorHash (H : Bytes → Bytes) : Bytes := H []

/-- The static `Tree` initializer with `clear: true`: the store holding
exactly the level-0 anchor with the empty-input digest. -/
def initTree (H : Bytes → Bytes) : Store := [⟨0, none, leafAnchorHash H, none⟩]

/-! ## The incremental mutation protocol

The recursive protocol (`update` / `replace` / `replaceBoundary` /
`updateAnchor` / `createParents` / `deleteParents`) has no structural
termination measure, so each function threads explicit fuel and returns
`none` on exhaustion; `none` also models a thrown `assert`.  The source's
un-`await`ed calls (`deleteParents`/`deleteNode` inside `delete`) still
execute in program order on the single queued connection, so the embedding
is sequential. -/

/-- `Tree.deleteParents(level, key)`: while a node with this key exists one
level up, delete it and continue upward. -/
def deleteParents : Nat → Store → Nat → NodeKey → Option Store
  | 0, _, _, _ => none
  | fuel + 1, s, level, key =>
    match getNode s (level + 1) key with
    | none => some s
    | some _ => deleteParents fuel (deleteNode s (level + 1) key) (level + 1) key

/-- `Tree.createParents(level, key)`: write the aggregate node for the
chunk starting at `key` one level up; recurse while the written node is
itself a boundary. -/
def createParents (H : Bytes → Bytes) (Q : Nat) : Nat → Store → Nat → NodeKey → Option Store
  | 0, _, _, _ => none
  | fuel + 1, s, level, key =>
    let node : Node := ⟨level + 1, key, getHash H Q s (level + 1) key, none⟩
    let s' := setNode s node
    if isBoundary Q node then createParents H Q fuel s' (level + 1) key else some s'

/-- `Tree.updateAnchor(level)`: rewrite the level's anchor from the first
chunk of the level below; if no keyed node remains at this level the
levels above are pruned (`deleteParents(level, null)`), otherwise the
anchor change propagates upward. -/
def updateAnchor (H : Bytes → Bytes) (Q : Nat) : Nat → Store → Nat → Option Store
  | 0, _, _ => none
  | fuel + 1, s, level =>
    let s' := setNode s ⟨level, none, getHash H Q s level none, none⟩
    match firstRealKey s' level with
    | none => deleteParents fuel s' level none
    | some _ => updateAnchor H Q fuel s' (level + 1)

mutual

/-- `Tree.update(level, key)`: recompute the aggregate hash of the chunk
starting at `key` over `level - 1` and `replace` the node at `(level, key)`
with it. -/
def update (H : Bytes → Bytes) (Q : Nat) : Nat → Store → Nat → NodeKey → Option Store
  | 0, _, _, _ => none
  | fuel + 1, s, level, key =>
    replace H Q fuel s (getNode s level key) ⟨level, key, getHash H Q s level key, none⟩

/-- `Tree.replace(oldNode, newNode)`. -/
def replace (H : Bytes → Bytes) (Q : Nat) : Nat → Store → Option Node → Node → Option Store
  | 0, _, _, _ => none
  | fuel + 1, s, oldNode, newNode =>
    match oldNode with
    | some o => if isBoundary Q o then replaceBoundary H Q fuel s newNode
                else replaceDefault H Q fuel s newNode
    | none => replaceDefault H Q fuel s newNode

/-- The non-boundary branch of `Tree.replace`: read the first sibling,
store the node, cascade `createParents` when it is a boundary, then
propagate into the parent chunk. -/
def replaceDefault (H : Bytes → Bytes) (Q : Nat) : Nat → Store → Node → Option Store
  | 0, _, _ => none
  | fuel + 1, s, newNode =>
    match getFirstSibling Q s newNode with
    | none => none
    | some fs =>
      let s1 := setNode s newNode
      let s2? := if isBoundary Q newNode then createParents H Q fuel s1 newNode.level newNode.key
                 else some s1
      match s2? with
      | none => none
      | some s2 =>
        match fs.key with
        | none => updateAnchor H Q fuel s2 (newNode.level + 1)
        | some k => update H Q fuel s2 (newNode.level + 1) (some k)

/-- `Tree.replaceBoundary(node)`: the previous node at this position was a
boundary.  If the new node still is, only its hash changed; otherwise its
parent chain is torn down and the surrounding chunk re-aggregated. -/
def replaceBoundary (H : Bytes → Bytes) (Q : Nat) : Nat → Store → Node → Option Store
  | 0, _, _ => none
  | fuel + 1, s, node =>
    if isBoundary Q node then
      update H Q fuel (setNode s node) (node.level + 1) node.key
    else
      let s1 := setNode s node
      match deleteParents fuel s1 node.level node.key with
      | none => none
      | some s2 =>
        match getFirstSibling Q s2 node with
        | none => none
        | some fs =>
          match fs.key with
          | none => updateAnchor H Q fuel s2 (node.level + 1)
          | some k => update H Q fuel s2 (node.level + 1) (some k)

end

/-- `Tree.set(key, value)`: hash the entry and `replace` the level-0 leaf. -/
def set (H : Bytes → Bytes) (Q : Nat) (fuel : Nat) (s : Store) (key value : Bytes) : Option Store :=
  replace H Q fuel s (getNode s 0 (some key))
    ⟨0, some key, hashEntry H key value, some value⟩

/-- `Tree.delete(key)`: a no-op when the key is absent; otherwise tear down
the leaf's parent chain when it was a boundary, delete the leaf, and
re-aggregate the chunk that contained it. -/
def delete (H : Bytes → Bytes) (Q : Nat) (fuel : Nat) (s : Store) (key : Bytes) : Option Store :=
  match getNode s 0 (some key) with
  | none => some s
  | some node =>
    let s1? := if node.key != none && isBoundary Q node
               then deleteParents fuel s 0 (some key)
               else some s
    match s1? with
    | none => none
    | some s1 =>
      let s2 := deleteNode s1 0 (some key)
      match getFirstSibling Q s2 node with
      | none => none
      | some fs =>
        match fs.key with
        | none => updateAnchor H Q fuel s2 1
        | some k => update H Q fuel s2 1 (some k)

/-! ## The bulk Builder -/

/-- The in-memory state of a `Builder`: its NodeStore contents and the
`nodeCount` field. -/
structure BuilderState where
  store : Store
  nodeCount : Nat
  deriving Repr

/-- Modelled from the spec: the NodeStore `initialize` consumed by a fresh
`Builder` (the NodeStore implementation is not under `src/`); per §6 it
writes the initial empty-leaf anchor `{level: 0, key: anchor,
hash: H(empty)}`, and `Builder.nodeCount` starts at 1. -/
def builderInit (H : Bytes → Bytes) : BuilderState :=
  ⟨[⟨0, none, leafAnchorHash H, none⟩], 1⟩

/-- Modelled from the spec: the `hashEntry` helper of `okra/src/utils.js`
used by `Builder.set` is not under `src/`; per §4.1 it is the same
`H(len(key) || key || len(value) || value)` digest as `Tree.hashEntry`. -/
def builderHashEntry (H : Bytes → Bytes) (key value : Bytes) : Bytes :=
  hashEntry H key value

/-- `Builder.set(key, value)`: write the level-0 leaf and count it. -/
def builderSet (H : Bytes → Bytes) (st : BuilderState) (key value : Bytes) : BuilderState :=
  ⟨setNode st.store ⟨0, some key, builderHashEntry H key value, some value⟩,
   st.nodeCount + 1⟩

/-- The chunking loop of `Builder.buildLevel`, over the nodes after the
anchor: `key` and `acc` are the current chunk's starting key and the
concatenation of the member hashes fed to the running digest; a boundary
closes the chunk and starts a new one; the end of the level always closes
the final chunk. -/
def buildChunks (H : Bytes → Bytes) (Q : Nat) (level : Nat) :
    NodeKey → Bytes → List Node → List Node
  | key, acc, [] => [⟨level + 1, key, H acc, none⟩]
  | key, acc, n :: ns =>
    if isBoundary Q n then ⟨level + 1, key, H acc, none⟩ :: buildChunks H Q level n.key n.hash ns
    else buildChunks H Q level key (acc ++ n.hash) ns

/-- `Builder.buildLevel(level)`: one forward pass over the level, writing
one parent node per chunk and returning the new store and the emitted
count; `none` models a failed `assert` (empty level, or a first node that
is not the anchor). -/
def buildLevel (H : Bytes → Bytes) (Q : Nat) (s : Store) (level : Nat) : Option (Store × Nat) :=
  match levelNodes s level with
  | [] => none
  | first :: rest =>
    if first.key != none then none
    else
      let parents := buildChunks H Q level first.key first.hash rest
      some (parents.foldl setNode s, parents.length)

/-- The `while (this.nodeCount > 1)` loop of `Builder.finalize`, returning
the final store and the level the loop stopped at. -/
def finalizeLoop (H : Bytes → Bytes) (Q : Nat) : Nat → Store → Nat → Nat → Option (Store × Nat)
  | 0, _, _, _ => none
  | fuel + 1, s, level, count =>
    if count > 1 then
      match buildLevel H Q s level with
      | none => none
      | some (s', c') => finalizeLoop H Q fuel s' (level + 1) c'
    else some (s, level)

/-- `Builder.finalize()`: build levels until the running `nodeCount` drops
to one, then read the top level's anchor as the root (`none` models the
failed `assert root !== null`). -/
def finalize (H : Bytes → Bytes) (Q : Nat) (fuel : Nat) (st : BuilderState) : Option Node :=
  match finalizeLoop H Q fuel st.store 0 st.nodeCount with
  | none => none
  | some (s, level) => getNode s level none

/-! ## Order lemmas for `bytea` comparison and store keys -/

theorem byteaLt_irrefl (a : Bytes) : byteaLt a a = false := by
  induction a with
  | nil => rfl
  | cons x xs ih => simp [byteaLt, ih]

theorem byteaLt_trans {a b c : Bytes} (hab : byteaLt a b = true)
    (hbc : byteaLt b c = true) : byteaLt a c = true := by
  induction a generalizing b c with
  | nil =>
    cases b with
    | nil => simp [byteaLt] at hab
    | cons y ys => cases c with
      | nil => simp [byteaLt] at hbc
      | cons z zs => rfl
  | cons x xs ih =>
    cases b with
    | nil => simp [byteaLt] at hab
    | cons y ys =>
      cases c with
      | nil => simp [byteaLt] at hbc
      | cons z zs =>
        simp only [byteaLt] at hab hbc ⊢
        split_ifs at hab hbc ⊢ with h1 h2 h3 h4 h5 h6 <;>
          first
          | rfl
          | omega
          | (exact ih hab hbc)
          | (exfalso; omega)

theorem byteaLt_total {a b : Bytes} (hne : a ≠ b) :
    byteaLt a b = true ∨ byteaLt b a = true := by
  induction a generalizing b with
  | nil =>
    cases b with
    | nil => exact absurd rfl hne
    | cons y ys => left; rfl
  | cons x xs ih =>
    cases b with
    | nil => right; rfl
    | cons y ys =>
      by_cases hxy : x = y
      · subst hxy
        have hne' : xs ≠ ys := fun h => hne (by rw [h])
        rcases ih hne' with h | h
        · left; simp [byteaLt, h]
        · right; simp [byteaLt, h]
      · rcases Nat.lt_or_ge x y with h | h
        · left; simp [byteaLt, h]
        · have h' : y < x := by omega
          right; simp [byteaLt, h']

theorem keyLt_irrefl (a : NodeKey) : keyLt a a = false := by
  cases a with
  | none => rfl
  | some b => simp [keyLt, byteaLt_irrefl]

theorem keyLt_trans {a b c : NodeKey} (hab : keyLt a b = true)
    (hbc : keyLt b c = true) : keyLt a c = true := by
  cases a <;> cases b <;> cases c <;>
    simp_all [keyLt] <;> exact byteaLt_trans hab hbc

theorem keyLt_total {a b : NodeKey} (hne : a ≠ b) :
    keyLt a b = true ∨ keyLt b a = true := by
  cases a with
  | none => cases b with
    | none => exact absurd rfl hne
    | some y => left; rfl
  | some x =>
    cases b with
    | none => right; rfl
    | some y =>
      have : x ≠ y := fun h => hne (by rw [h])
      exact byteaLt_total this

theorem keyLt_asymm {a b : NodeKey} (h : keyLt a b = true) : keyLt b a = false := by
  by_contra hc
  have hba : keyLt b a = true := by
    cases hh : keyLt b a
    · exact absurd hh hc
    · rfl
  have := keyLt_trans h hba
  rw [keyLt_irrefl] at this
  exact Bool.false_ne_true this

/-- The store invariant: the table representation is strictly sorted by
`(level, key)` — in particular `(level, key)` is unique, which is the
unique index of the schema. -/
def StoreWF (s : Store) : Prop :=
  List.Pairwise (fun a b => nkLt (a.level, a.key) (b.level, b.key) = true) s

instance : DecidablePred StoreWF := fun s =>
  inferInstanceAs (Decidable (List.Pairwise _ s))

/-! ## C2: the boundary predicate -/

/-- Helper for C2: `isBoundary` in terms of the big-endian value of the
first four bytes of the hash. -/
theorem isBoundary_eq_beNat (Q : Nat) (n : Node) (hl : 4 ≤ n.hash.length) :
    isBoundary Q n = true ↔ beNat (n.hash.take 4) < 2 ^ 32 / Q := by
  unfold isBoundary limit
  rw [readUInt32BE_eq_beNat_take n.hash hl]
  simp

/-- **C2** For every node whose hash field is at least 4 bytes, the
boundary test (shared by `Tree.isBoundary` and `Builder.isBoundary`)
returns true iff the first 4 bytes of the node's hash, read as an unsigned
big-endian 32-bit integer, are strictly less than
`LIMIT = floor(2^32 / Q)`. -/
theorem C2_isBoundary_first_four_bytes (Q : Nat) (n : Node)
    (hQ : 1 ≤ Q) (hl : 4 ≤ n.hash.length) :
    isBoundary Q n = true ↔ beNat (n.hash.take 4) < 2 ^ 32 / Q :=
  isBoundary_eq_beNat Q n hl

/-- Witness for C2 at a concrete node: hash `80 00 00 00 ...`, `Q = 32`,
`LIMIT = 2^27`; the node is not a boundary and its leading word is
`2^31 ≥ 2^27`. -/
theorem C2_isBoundary_first_four_bytes_witness :
    (1 ≤ 32 ∧ 4 ≤ ([128, 0, 0, 0, 9] : Bytes).length) ∧
      (isBoundary 32 ⟨0, some [1], [128, 0, 0, 0, 9], none⟩ = true ↔
        beNat (([128, 0, 0, 0, 9] : Bytes).take 4) < 2 ^ 32 / 32) :=
  ⟨⟨by decide, by decide⟩,
    C2_isBoundary_first_four_bytes 32 ⟨0, some [1], [128, 0, 0, 0, 9], none⟩
      (by decide) (by decide)⟩

/-! ## C10: the SQL `hash < LIMIT_KEY` test against `isBoundary` -/

theorem byteaLt_nil_right (rest : Bytes) : byteaLt rest [] = false := by
  cases rest <;> rfl

/-- Lexicographic comparison of a (≥ 4)-byte string against a 4-byte
string is numeric comparison of the leading 32-bit words: if the first
four bytes tie, the left side is at least as long, hence not smaller. -/
theorem byteaLt_four {h0 h1 h2 h3 b0 b1 b2 b3 : Nat} (rest : Bytes)
    (hh0 : h0 < 256) (hh1 : h1 < 256) (hh2 : h2 < 256) (hh3 : h3 < 256)
    (hc0 : b0 < 256) (hc1 : b1 < 256) (hc2 : b2 < 256) (hc3 : b3 < 256) :
    byteaLt (h0 :: h1 :: h2 :: h3 :: rest) [b0, b1, b2, b3] = true ↔
      ((h0 * 256 + h1) * 256 + h2) * 256 + h3 <
        ((b0 * 256 + b1) * 256 + b2) * 256 + b3 := by
  simp only [byteaLt, byteaLt_nil_right]
  split_ifs <;> simp_all <;> omega

theorem toBE4_byteString (n : Nat) : ByteString (toBE4 n) := by
  intro x hx
  simp only [toBE4, List.mem_cons, List.mem_singleton] at hx
  rcases hx with h | h | h | h | h
  · subst h; omega
  · subst h; omega
  · subst h; omega
  · subst h; omega
  · simp at h

theorem beNat_toBE4 (n : Nat) : beNat (toBE4 n) = n % 2 ^ 32 := by
  simp only [toBE4, beNat, List.foldl]
  omega

/-- For `Q ≥ 2` the limit fits in 31 bits. -/
theorem limit_lt (Q : Nat) (hQ : 2 ≤ Q) : limit Q < 2 ^ 32 := by
  unfold limit
  have : 2 ^ 32 / Q ≤ 2 ^ 32 / 2 := Nat.div_le_div_left hQ (by omega)
  omega

/-- Helper for C10: for `Q ≥ 2`, the postgres comparison `hash < LIMIT_KEY`
agrees with the `u32`-prefix boundary test on genuine digests of length at
least four. -/
theorem byteaLt_limitKey_iff (Q : Nat) (h : Bytes) (hQ : 2 ≤ Q)
    (hbs : ByteString h) (hl : 4 ≤ h.length) :
    byteaLt h (limitKey Q) = true ↔ readUInt32BE h < limit Q := by
  match h, hl with
  | h0 :: h1 :: h2 :: h3 :: rest, _ =>
    have hh0 : h0 < 256 := hbs h0 (by simp)
    have hh1 : h1 < 256 := hbs h1 (by simp)
    have hh2 : h2 < 256 := hbs h2 (by simp)
    have hh3 : h3 < 256 := hbs h3 (by simp)
    have hlim := limit_lt Q hQ
    have hkey : limitKey Q = [limit Q % 2 ^ 32 / 2 ^ 24, limit Q % 2 ^ 24 / 2 ^ 16,
        limit Q % 2 ^ 16 / 2 ^ 8, limit Q % 2 ^ 8] := rfl
    rw [hkey, byteaLt_four rest hh0 hh1 hh2 hh3 (by omega) (by omega) (by omega) (by omega)]
    simp only [readUInt32BE]
    omega

/-- The node-level form of `byteaLt_limitKey_iff`: for `Q ≥ 2` the SQL
test and `isBoundary` agree. -/
theorem byteaLt_limitKey_iff_isBoundary (Q : Nat) (n : Node)
    (hbs : ByteString n.hash) (hl : 4 ≤ n.hash.length) (hQ : 2 ≤ Q) :
    byteaLt n.hash (limitKey Q) = true ↔ isBoundary Q n = true := by
  rw [byteaLt_limitKey_iff Q n.hash hQ hbs hl]
  unfold isBoundary
  simp

/-- Counterexample to C10 as stated: with `Q = 1` the code's `LIMIT` is
`2^32`, which `setUint32` wraps to the four zero bytes, so the SQL test
`hash < LIMIT_KEY` rejects the all-zero digest while `isBoundary` accepts
it: the two tests do not select the same nodes. -/
theorem C10_counterexample :
    ByteString ([0, 0, 0, 0] : Bytes) ∧ 4 ≤ ([0, 0, 0, 0] : Bytes).length ∧
      ¬ (byteaLt ([0, 0, 0, 0] : Bytes) (limitKey 1) = true ↔
          isBoundary 1 ⟨0, some [1], [0, 0, 0, 0], none⟩ = true) := by
  refine ⟨by decide, by decide, ?_⟩
  intro hiff
  have : byteaLt ([0, 0, 0, 0] : Bytes) (limitKey 1) = true := by
    rw [hiff]
    decide
  revert this
  decide

/-- **C10 (amended: for `Q ≥ 2`)** For every node whose hash is a byte
string of length at least 4, the lexicographic `bytea` comparison
`hash < LIMIT_KEY` used in the SQL of `getFirstSibling` and `getHash`
holds iff `Tree.isBoundary` holds of the node; for `Q = 1` the two tests
disagree (`C10_counterexample`), since `LIMIT = 2^32` overflows the 4-byte
`LIMIT_KEY`. -/
theorem C10_bytea_test_matches_isBoundary (Q : Nat) (n : Node) (hQ : 2 ≤ Q)
    (hbs : ByteString n.hash) (hl : 4 ≤ n.hash.length) :
    byteaLt n.hash (limitKey Q) = true ↔ isBoundary Q n = true :=
  byteaLt_limitKey_iff_isBoundary Q n hbs hl hQ

/-- Witness for C10 at `Q = 32` and a concrete five-byte digest
`07 ff ff ff 00`, which is a boundary (`2^27 - 1 < 2^27`). -/
theorem C10_bytea_test_matches_isBoundary_witness :
    (2 ≤ 32 ∧ ByteString ([7, 255, 255, 255, 0] : Bytes) ∧
        4 ≤ ([7, 255, 255, 255, 0] : Bytes).length) ∧
      (byteaLt ([7, 255, 255, 255, 0] : Bytes) (limitKey 32) = true ↔
        isBoundary 32 ⟨0, some [1], [7, 255, 255, 255, 0], none⟩ = true) :=
  ⟨⟨by decide, by decide, by decide⟩,
    C10_bytea_test_matches_isBoundary 32 ⟨0, some [1], [7, 255, 255, 255, 0], none⟩
      (by decide) (by decide) (by decide)⟩

/-! ## A concrete hasher instance

The hash function is an out-of-scope collaborator (§1 of the spec): the
core only requires fixed-length digests.  Witnesses and counterexamples
instantiate `H` with this executable 32-bit mixer of digest length 4. -/

/-- A toy hasher: multiply-xor mixing of the input bytes into one 32-bit
word, emitted big-endian (`K = 4`). -/
def mixHash (b : Bytes) : Bytes :=
  let x := b.foldl (fun a c => ((a ^^^ c) * 2654435761 + 2654435769) % 2 ^ 32) 305419896
  let y := ((x >>> 16) ^^^ x) * 73244475 % 2 ^ 32
  let z := ((y >>> 16) ^^^ y) * 73244475 % 2 ^ 32
  let w := ((z >>> 16) ^^^ z) % 2 ^ 32
  [w / 2 ^ 24 % 256, w / 2 ^ 16 % 256, w / 2 ^ 8 % 256, w % 256]

/-! ## C9: deleting an absent key -/

/-- **C9** For every key `k` not present as a level-0 entry, `Tree.delete(k)`
returns without error and leaves the node store completely unchanged. -/
theorem C9_delete_absent_key_noop (H : Bytes → Bytes) (Q fuel : Nat) (s : Store)
    (key : Bytes) (habsent : getNode s 0 (some key) = none) :
    delete H Q fuel s key = some s := by
  unfold delete
  rw [habsent]

/-- Witness for C9: deleting key `05` from a freshly initialized tree. -/
theorem C9_delete_absent_key_noop_witness :
    getNode (initTree mixHash) 0 (some [5]) = none ∧
      delete mixHash 2 9 (initTree mixHash) [5] = some (initTree mixHash) :=
  ⟨by decide, C9_delete_absent_key_noop mixHash 2 9 (initTree mixHash) [5] (by decide)⟩

/-! ## Store lemmas -/

theorem getNode_mem {s : Store} {l : Nat} {k : NodeKey} {n : Node}
    (h : getNode s l k = some n) : n ∈ s ∧ n.level = l ∧ n.key = k := by
  unfold getNode at h
  have hmem := List.mem_of_find?_eq_some h
  have hp := List.find?_some h
  simp only [Bool.and_eq_true, beq_iff_eq] at hp
  exact ⟨hmem, hp.1, hp.2⟩

/-- Deleting one `(level, key)` slot does not change lookups at any other
slot. -/
theorem getNode_deleteNode {s : Store} {l l' : Nat} {k k' : NodeKey}
    (hne : ¬(l' = l ∧ k' = k)) :
    getNode (deleteNode s l k) l' k' = getNode s l' k' := by
  induction s with
  | nil => rfl
  | cons n rest ih =>
    unfold deleteNode at ih ⊢
    by_cases h1 : n.level = l ∧ n.key = k
    · have hfalse : (n.level == l' && n.key == k') = false := by
        rcases h1 with ⟨hl, hk⟩
        by_cases hll : l' = l
        · have : ¬ k' = k := fun hkk => hne ⟨hll, hkk⟩
          subst hl hk
          simp [this, hll]
          intro h'
          exact absurd h'.symm this
        · subst hl hk
          simp
          intro h'
          exact absurd h'.symm hll
      have hskip : (!(n.level == l && n.key == k)) = false := by
        simp [h1.1, h1.2]
      unfold getNode
      simp only [List.filter_cons, hskip, Bool.false_eq_true, if_false,
        List.find?, hfalse]
      exact ih
    · have hkeep : (!(n.level == l && n.key == k)) = true := by
        rcases Decidable.not_and_iff_or_not.mp h1 with h | h <;> simp [h]
      unfold getNode
      simp only [List.filter_cons, hkeep, if_true]
      by_cases hmatch : (n.level == l' && n.key == k') = true
      · simp only [List.find?, hmatch]
      · have hmatch' : (n.level == l' && n.key == k') = false :=
          Bool.not_eq_true _ ▸ (Bool.eq_false_iff.mpr (fun h => hmatch h))
        simp only [List.find?, hmatch']
        exact ih

/-! ## C4: deletion of a boundary leaf -/

/-- The row filter that removes the parent chain of `key` strictly above
`level`, up to and including level `level + c`. -/
def chainFilter (level c : Nat) (key : NodeKey) (m : Node) : Bool :=
  !(m.key == key && decide (level < m.level) && decide (m.level ≤ level + c))

theorem chainFilter_step (lv c : Nat) (key : NodeKey) (m : Node) :
    (chainFilter (lv + 1) c key m && !(m.level == lv + 1 && m.key == key)) =
      chainFilter lv (c + 1) key m := by
  unfold chainFilter
  by_cases hk : m.key = key
  · have hkb : (m.key == key) = true := beq_iff_eq.mpr hk
    by_cases h1 : m.level = lv + 1
    · have h1b : (m.level == lv + 1) = true := beq_iff_eq.mpr h1
      have h2 : decide (lv < m.level) = true := decide_eq_true (by omega)
      have h3 : decide (m.level ≤ lv + (c + 1)) = true := decide_eq_true (by omega)
      rw [hkb, h1b, h2, h3]
      simp
    · have h1b : (m.level == lv + 1) = false := beq_eq_false_iff_ne.mpr h1
      by_cases h2 : lv + 1 < m.level
      · have h2a : decide (lv + 1 < m.level) = true := decide_eq_true h2
        have h2b : decide (lv < m.level) = true := decide_eq_true (by omega)
        by_cases h3 : m.level ≤ lv + 1 + c
        · have h3a : decide (m.level ≤ lv + 1 + c) = true := decide_eq_true h3
          have h3b : decide (m.level ≤ lv + (c + 1)) = true := decide_eq_true (by omega)
          rw [hkb, h1b, h2a, h2b, h3a, h3b]
          simp
        · have h3a : decide (m.level ≤ lv + 1 + c) = false := decide_eq_false h3
          have h3b : decide (m.level ≤ lv + (c + 1)) = false := decide_eq_false (by omega)
          rw [hkb, h1b, h2a, h2b, h3a, h3b]
          simp
      · have h2a : decide (lv + 1 < m.level) = false := decide_eq_false h2
        have h2b : decide (lv < m.level) = false := decide_eq_false (by omega)
        rw [hkb, h1b, h2a, h2b]
        simp
  · have hkb : (m.key == key) = false := beq_eq_false_iff_ne.mpr hk
    rw [hkb]
    simp

/-- Characterization of `Tree.deleteParents(level, key)`: when the maximal
contiguous run of levels above `level` holding `key` has length `c`
(levels `level+1 … level+c` hold the key and `level+c+1` does not) and the
fuel exceeds `c`, it succeeds and removes exactly the rows with that key
at those levels — rows with the same key above a gap survive. -/
theorem deleteParents_eq_filter (fuel : Nat) (s : Store) (level : Nat) (key : NodeKey)
    (c : Nat)
    (hchain : ∀ l, level < l → l ≤ level + c → getNode s l key ≠ none)
    (hstop : getNode s (level + c + 1) key = none)
    (hfuel : c < fuel) :
    deleteParents fuel s level key = some (s.filter (chainFilter level c key)) := by
  induction c generalizing fuel s level with
  | zero =>
    match fuel, hfuel with
    | f + 1, _ =>
      unfold deleteParents
      rw [show getNode s (level + 1) key = none from by simpa using hstop]
      have hall : ∀ m ∈ s, chainFilter level 0 key m = true := by
        intro m _
        unfold chainFilter
        have : (decide (level < m.level) && decide (m.level ≤ level + 0)) = false := by
          rw [← Bool.decide_and, decide_eq_false_iff_not]
          omega
        rw [Bool.and_assoc, this, Bool.and_false, Bool.not_false]
      rw [List.filter_eq_self.mpr hall]
  | succ c ih =>
    have hget : getNode s (level + 1) key ≠ none := hchain (level + 1) (by omega) (by omega)
    match fuel, hfuel with
    | f + 1, hf =>
      obtain ⟨m, hg⟩ : ∃ m, getNode s (level + 1) key = some m := by
        cases hgg : getNode s (level + 1) key
        · exact absurd hgg hget
        · exact ⟨_, rfl⟩
      have hchain' : ∀ l, level + 1 < l → l ≤ level + 1 + c →
          getNode (deleteNode s (level + 1) key) l key ≠ none := by
        intro l h1 h2
        rw [getNode_deleteNode (by omega)]
        exact hchain l (by omega) (by omega)
      have hstop' : getNode (deleteNode s (level + 1) key) (level + 1 + c + 1) key = none := by
        rw [getNode_deleteNode (by omega)]
        have : level + 1 + c + 1 = level + (c + 1) + 1 := by omega
        rw [this]
        exact hstop
      unfold deleteParents
      rw [hg]
      show deleteParents f (deleteNode s (level + 1) key) (level + 1) key = _
      rw [ih f (deleteNode s (level + 1) key) (level + 1) hchain' hstop' (by omega)]
      unfold deleteNode
      rw [List.filter_filter]
      congr 1
      apply List.filter_congr
      intro m' _
      exact chainFilter_step level c key m'

/-- **C4** For a key `k` present as a level-0 boundary node, `Tree.delete(k)`
removes the entire contiguous parent chain of `k` (the node keyed `k` at
each successive level above, as long as one exists) via `deleteParents`,
then deletes the level-0 node itself, and then recomputes and propagates
the aggregate of the chunk containing `k`'s former position: `update` on
the first sibling's key, or `updateAnchor` when that chunk is the anchor
chunk. -/
theorem C4_delete_boundary_leaf (H : Bytes → Bytes) (Q fuel : Nat) (s : Store)
    (key : Bytes) (n : Node) (c : Nat)
    (hn : getNode s 0 (some key) = some n) (hb : isBoundary Q n = true)
    (hchain : ∀ l, 0 < l → l ≤ c → getNode s l (some key) ≠ none)
    (hstop : getNode s (c + 1) (some key) = none)
    (hfuel : c < fuel) :
    delete H Q fuel s key =
      (let s2 := deleteNode (s.filter (chainFilter 0 c (some key))) 0 (some key)
       match getFirstSibling Q s2 n with
       | none => none
       | some fs =>
         match fs.key with
         | none => updateAnchor H Q fuel s2 1
         | some j => update H Q fuel s2 1 (some j)) := by
  have hkey : n.key = some key := (getNode_mem hn).2.2
  have hcond : (n.key != none && isBoundary Q n) = true := by
    rw [hkey, hb]
    rfl
  unfold delete
  simp only [hn, hcond, if_true]
  rw [deleteParents_eq_filter fuel s 0 (some key) c
    (by intro l h1 h2; exact hchain l h1 (by omega)) (by simpa using hstop) hfuel]

/-- The boundary leaf of the C4 witness store. -/
def w4Leaf : Node := ⟨0, some [3], [0, 0, 0, 1], some [9]⟩

/-- A small (hand-built, well-formed) store for the C4 witness: key `03`
is a boundary leaf (`Q = 2`) with a one-level parent chain. -/
def w4Store : Store :=
  [⟨0, none, mixHash [], none⟩, w4Leaf,
   ⟨1, none, [200, 0, 0, 0], none⟩, ⟨1, some [3], [0, 0, 0, 2], none⟩,
   ⟨2, none, [220, 0, 0, 0], none⟩]

/-- Witness for C4 at the concrete store `w4Store`, key `03`, chain length
one, fuel three. -/
theorem C4_delete_boundary_leaf_witness :
    (getNode w4Store 0 (some [3]) = some w4Leaf ∧ isBoundary 2 w4Leaf = true ∧
        getNode w4Store 2 (some [3]) = none ∧ 1 < 3) ∧
      delete mixHash 2 3 w4Store [3] =
        (let s2 := deleteNode (w4Store.filter (chainFilter 0 1 (some [3]))) 0 (some [3])
         match getFirstSibling 2 s2 w4Leaf with
         | none => none
         | some fs =>
           match fs.key with
           | none => updateAnchor mixHash 2 3 s2 1
           | some j => update mixHash 2 3 s2 1 (some j)) :=
  ⟨⟨by decide, by decide, by decide, by decide⟩,
    C4_delete_boundary_leaf mixHash 2 3 w4Store [3] w4Leaf 1 (by decide) (by decide)
      (by intro l h1 h2; interval_cases l; decide) (by decide) (by decide)⟩

/-! ## C8: the first-sibling query -/

theorem mem_levelNodes {s : Store} {l : Nat} {c : Node} :
    c ∈ levelNodes s l ↔ c ∈ s ∧ c.level = l := by
  unfold levelNodes
  rw [List.mem_filter]
  simp

/-- Within one level of a well-formed store, keys are strictly increasing
(anchor first). -/
theorem levelNodes_pairwise {s : Store} (hwf : StoreWF s) (l : Nat) :
    List.Pairwise (fun a b => keyLt a.key b.key = true) (levelNodes s l) := by
  have h := List.Pairwise.filter (fun n => n.level == l) hwf
  apply List.Pairwise.imp_of_mem ?_ h
  intro a b ha hb hr
  have hal : a.level = l := (mem_levelNodes.mp ha).2
  have hbl : b.level = l := (mem_levelNodes.mp hb).2
  unfold nkLt at hr
  rw [hal, hbl] at hr
  simpa using hr

/-- The last element of a `Pairwise R` list is related to every other
element. -/
theorem pairwise_getLast?_max {α : Type} {R : α → α → Prop} (l : List α)
    (hp : l.Pairwise R) (m : α) (hm : l.getLast? = some m) :
    ∀ c ∈ l, c = m ∨ R c m := by
  obtain ⟨ys, rfl⟩ := List.getLast?_eq_some_iff.mp hm
  rw [List.pairwise_append] at hp
  intro c hc
  rcases List.mem_append.mp hc with h | h
  · exact Or.inr (hp.2.2 c h m (by simp))
  · simp at h
    exact Or.inl h

/-- The property C8 ascribes to `firstSibling(n)` for keyed `n` — the
spec's words: a node of the same level that is the anchor or a boundary,
with key at most `n.key`, and the greatest such key (the anchor counting
as smaller than every real key). -/
def FirstSiblingSpec (Q : Nat) (s : Store) (n m : Node) : Prop :=
  m ∈ s ∧ m.level = n.level ∧ (m.key = none ∨ isBoundary Q m = true) ∧
    keyLe m.key n.key = true ∧
    ∀ c ∈ s, c.level = n.level → (c.key = none ∨ isBoundary Q c = true) →
      keyLe c.key n.key = true → keyLe c.key m.key = true

/-- The anchor of the C8 counterexample store. -/
def cex8Anchor : Node := ⟨0, none, [200, 0, 0, 0], none⟩

/-- The keyed node of the C8 counterexample store: its hash is the all-zero
digest, a boundary for every `Q ≥ 1`. -/
def cex8Node : Node := ⟨0, some [5], [0, 0, 0, 0], some [1]⟩

/-- The C8 counterexample store: a well-formed level 0 holding the anchor
and one boundary leaf. -/
def cex8Store : Store := [cex8Anchor, cex8Node]

/-- Counterexample to C8 as stated: at `Q = 1` (where `LIMIT_KEY` wraps to
zero) `getFirstSibling` of the boundary leaf `05` returns the anchor, not
the greatest boundary key at most `05` — which is the leaf itself. -/
theorem C8_counterexample :
    getFirstSibling 1 cex8Store cex8Node = some cex8Anchor ∧
      ¬ FirstSiblingSpec 1 cex8Store cex8Node cex8Anchor := by
  constructor
  · decide
  · intro hspec
    have := hspec.2.2.2.2 cex8Node (by decide) (by decide) (by decide) (by decide)
    revert this
    decide

/-- **C8 (amended: for `Q ≥ 2`)** Over a well-formed store of genuine
digests with an anchor at the node's level, `getFirstSibling` of an anchor
node returns the node itself, and of a keyed node returns the node at the
same level that is the anchor or a boundary, has key at most `n.key`, and
has the greatest such key (anchor smallest).  For `Q = 1` the SQL boundary
test degenerates (`C8_counterexample`). -/
theorem C8_getFirstSibling_greatest (Q : Nat) (s : Store) (n : Node) (hQ : 2 ≤ Q)
    (hwf : StoreWF s)
    (hhash : ∀ m ∈ s, ByteString m.hash ∧ 4 ≤ m.hash.length)
    (hanchor : ∃ a ∈ s, a.level = n.level ∧ a.key = none) :
    (n.key = none → getFirstSibling Q s n = some n) ∧
    (n.key ≠ none → ∃ m, getFirstSibling Q s n = some m ∧ FirstSiblingSpec Q s n m) := by
  constructor
  · intro h
    unfold getFirstSibling
    rw [h]
  · intro hkeyed
    obtain ⟨k, hk⟩ : ∃ k, n.key = some k := by
      cases h : n.key
      · exact absurd h hkeyed
      · exact ⟨_, rfl⟩
    -- the candidate predicate agrees with the spec's side condition
    have hpred : ∀ c ∈ levelNodes s n.level,
        ((c.key == none || (keyLe c.key n.key && byteaLt c.hash (limitKey Q))) = true ↔
          ((c.key = none ∨ isBoundary Q c = true) ∧ keyLe c.key n.key = true)) := by
      intro c hc
      have hcs : c ∈ s := (mem_levelNodes.mp hc).1
      have hbd := byteaLt_limitKey_iff_isBoundary Q c (hhash c hcs).1 (hhash c hcs).2 hQ
      constructor
      · intro h
        rcases Bool.or_eq_true_iff.mp h with h | h
        · have hcnone : c.key = none := by simpa using h
          refine ⟨Or.inl hcnone, ?_⟩
          rw [hcnone, hk]
          rfl
        · rcases Bool.and_eq_true_iff.mp h with ⟨h1, h2⟩
          exact ⟨Or.inr (hbd.mp h2), h1⟩
      · rintro ⟨h1 | h1, h2⟩
        · simp [h1]
        · rw [Bool.or_eq_true_iff]
          exact Or.inr (Bool.and_eq_true_iff.mpr ⟨h2, hbd.mpr h1⟩)
    -- the anchor is always a candidate, so the query returns a row
    obtain ⟨a, has, hal, hak⟩ := hanchor
    have hacand : a ∈ fsCandidates Q s n := by
      unfold fsCandidates
      rw [List.mem_filter]
      exact ⟨mem_levelNodes.mpr ⟨has, hal⟩, by simp [hak]⟩
    have hne : fsCandidates Q s n ≠ [] := fun h => by
      rw [h] at hacand
      exact absurd hacand (List.not_mem_nil a)
    obtain ⟨m, hm⟩ : ∃ m, (fsCandidates Q s n).getLast? = some m := by
      cases h : (fsCandidates Q s n).getLast?
      · exact absurd (List.getLast?_eq_none_iff.mp h) hne
      · exact ⟨_, rfl⟩
    have hmmem : m ∈ fsCandidates Q s n := by
      obtain ⟨ys, hys⟩ := List.getLast?_eq_some_iff.mp hm
      rw [hys]
      simp
    have hmlvl : m ∈ levelNodes s n.level := (List.mem_filter.mp hmmem).1
    have hmpred := (hpred m hmlvl).mp (List.mem_filter.mp hmmem).2
    have hcand_pairwise : List.Pairwise (fun a b => keyLt a.key b.key = true)
        (fsCandidates Q s n) :=
      List.Pairwise.filter _ (levelNodes_pairwise hwf n.level)
    have hmax := pairwise_getLast?_max _ hcand_pairwise m hm
    refine ⟨m, ?_, ?_⟩
    · unfold getFirstSibling
      rw [hk]
      exact hm
    · refine ⟨(mem_levelNodes.mp hmlvl).1, (mem_levelNodes.mp hmlvl).2, hmpred.1,
        hmpred.2, ?_⟩
      intro c hcs hclvl hcb hcle
      have hccand : c ∈ fsCandidates Q s n := by
        unfold fsCandidates
        rw [List.mem_filter]
        exact ⟨mem_levelNodes.mpr ⟨hcs, hclvl⟩,
          (hpred c (mem_levelNodes.mpr ⟨hcs, hclvl⟩)).mpr ⟨hcb, hcle⟩⟩
      rcases hmax c hccand with rfl | hlt
      · unfold keyLe
        simp
      · unfold keyLe
        rw [hlt]
        rfl

/-- The keyed boundary node of the C8 witness store. -/
def w8Boundary : Node := ⟨0, some [2], [0, 0, 0, 7], some [1]⟩

/-- The C8 witness store: anchor (not a boundary), a boundary at key `02`,
a non-boundary at key `04`. -/
def w8Store : Store :=
  [⟨0, none, [255, 0, 0, 0], none⟩, w8Boundary,
   ⟨0, some [4], [255, 255, 255, 255], some [2]⟩]

/-- The query node of the C8 witness. -/
def w8Node : Node := ⟨0, some [4], [255, 255, 255, 255], some [2]⟩

/-- Witness for C8 at `Q = 2` on `w8Store`. -/
theorem C8_getFirstSibling_greatest_witness :
    (2 ≤ 2 ∧ StoreWF w8Store ∧
        (∀ m ∈ w8Store, ByteString m.hash ∧ 4 ≤ m.hash.length) ∧
        (∃ a ∈ w8Store, a.level = w8Node.level ∧ a.key = none)) ∧
      ((w8Node.key = none → getFirstSibling 2 w8Store w8Node = some w8Node) ∧
        (w8Node.key ≠ none → ∃ m, getFirstSibling 2 w8Store w8Node = some m ∧
          FirstSiblingSpec 2 w8Store w8Node m)) :=
  ⟨⟨by decide, by decide, by decide, by decide⟩,
    C8_getFirstSibling_greatest 2 w8Store w8Node (by decide) (by decide) (by decide)
      (by decide)⟩

/-! ## C6: the Builder's level pass

`levelChunks` is the specification-side decomposition of one level into
chunks: the running chunk collects nodes until the next boundary, which
starts a new chunk; the final chunk always closes. -/

/-- The chunk decomposition of a level: `start` is the current chunk's
starting node, the remaining nodes follow.  Each chunk is its starting
node paired with its (non-boundary) members; a boundary starts a new
chunk; the final chunk always closes. -/
def levelChunks (Q : Nat) (start : Node) : List Node -> List (Node × List Node)
  | [] => [(start, [])]
  | n :: ns =>
    if isBoundary Q n then (start, []) :: levelChunks Q n ns
    else
      match levelChunks Q start ns with
      | [] => []
      | (st, mem) :: cs => (st, n :: mem) :: cs

/-- The parent node a chunk emits: the chunk's starting key, the digest of
the concatenated member hashes. -/
def chunkParent (H : Bytes -> Bytes) (level : Nat) (c : Node × List Node) : Node :=
  ⟨level + 1, c.1.key, H (((c.1 :: c.2).map Node.hash).flatten), none⟩

/-- `levelChunks` always produces at least the chunk of its starting node,
and that chunk starts at `start`. -/
theorem levelChunks_head (Q : Nat) : ∀ (ns : List Node) (start : Node),
    ∃ mem cs, levelChunks Q start ns = (start, mem) :: cs := by
  intro ns
  induction ns with
  | nil => intro start; exact ⟨[], [], rfl⟩
  | cons n ns ih =>
    intro start
    by_cases hb : isBoundary Q n = true
    · exact ⟨[], levelChunks Q n ns, by simp [levelChunks, hb]⟩
    · have hb0 : isBoundary Q n = false := by
        cases h : isBoundary Q n
        · rfl
        · exact absurd h hb
      obtain ⟨mem, cs, hlc⟩ := ih start
      refine ⟨n :: mem, cs, ?_⟩
      simp only [levelChunks, hb0, Bool.false_eq_true, if_false, hlc]

/-- The chunking loop computes exactly the chunk decomposition, one parent
node per chunk; `pre` carries the members already folded into the running
digest. -/
theorem buildChunks_eq_levelChunks (H : Bytes -> Bytes) (Q level : Nat) :
    ∀ (ns : List Node) (start : Node) (pre mem : List Node) (cs : List (Node × List Node)),
      levelChunks Q start ns = (start, mem) :: cs ->
      buildChunks H Q level start.key (((start :: pre).map Node.hash).flatten) ns =
        chunkParent H level (start, pre ++ mem) :: cs.map (chunkParent H level) := by
  intro ns
  induction ns with
  | nil =>
    intro start pre mem cs hlc
    have hlc' : [((start : Node), ([] : List Node))] = (start, mem) :: cs := by
      rw [← hlc]
      simp [levelChunks]
    simp only [List.cons.injEq, Prod.mk.injEq] at hlc'
    obtain ⟨⟨-, hmem⟩, hcs⟩ := hlc'
    subst hmem hcs
    simp [buildChunks, chunkParent]
  | cons n ns ih =>
    intro start pre mem cs hlc
    by_cases hb : isBoundary Q n = true
    · have hlc' : (start, ([] : List Node)) :: levelChunks Q n ns = (start, mem) :: cs := by
        rw [← hlc]
        simp only [levelChunks, hb, if_true]
      simp only [List.cons.injEq, Prod.mk.injEq] at hlc'
      obtain ⟨⟨-, hmem⟩, hcs⟩ := hlc'
      subst hmem hcs
      simp only [buildChunks, hb, if_true]
      obtain ⟨mem', cs', hlc'⟩ := levelChunks_head Q ns n
      have hstart : n.hash = ((n :: ([] : List Node)).map Node.hash).flatten := by simp
      rw [hstart, ih n [] mem' cs' hlc', hlc']
      simp [chunkParent]
    · have hb0 : isBoundary Q n = false := by
        cases h : isBoundary Q n
        · rfl
        · exact absurd h hb
      obtain ⟨mem0, cs0, hlc0⟩ := levelChunks_head Q ns start
      have hlc' : (start, n :: mem0) :: cs0 = (start, mem) :: cs := by
        rw [← hlc]
        simp only [levelChunks, hb0, Bool.false_eq_true, if_false, hlc0]
      simp only [List.cons.injEq, Prod.mk.injEq] at hlc'
      obtain ⟨⟨-, hmem⟩, hcs⟩ := hlc'
      subst hmem hcs
      simp only [buildChunks, hb0, Bool.false_eq_true, if_false]
      have hacc : ((start :: pre).map Node.hash).flatten ++ n.hash =
          ((start :: (pre ++ [n])).map Node.hash).flatten := by
        simp
      rw [hacc, ih start (pre ++ [n]) mem0 cs0 hlc0]
      simp [chunkParent]

/-- The chunks of a level concatenate back to the level itself. -/
theorem levelChunks_flatten (Q : Nat) : ∀ (ns : List Node) (start : Node),
    ((levelChunks Q start ns).map (fun c => c.1 :: c.2)).flatten = start :: ns := by
  intro ns
  induction ns with
  | nil => intro start; simp [levelChunks]
  | cons n ns ih =>
    intro start
    by_cases hb : isBoundary Q n = true
    · simp only [levelChunks, hb, if_true, List.map_cons, List.flatten_cons, ih n]
      simp
    · have hb0 : isBoundary Q n = false := by
        cases h : isBoundary Q n
        · rfl
        · exact absurd h hb
      obtain ⟨mem0, cs0, hlc0⟩ := levelChunks_head Q ns start
      have hih := ih start
      rw [hlc0] at hih
      simp only [List.map_cons, List.flatten_cons, List.cons_append] at hih
      have hih' : mem0 ++ (List.map (fun c => c.1 :: c.2) cs0).flatten = ns := by
        exact (List.cons.injEq .. ▸ hih).2
      simp only [levelChunks, hb0, Bool.false_eq_true, if_false, hlc0, List.map_cons,
        List.flatten_cons, List.cons_append]
      rw [hih']

/-- Every member (non-start node) of a chunk is a non-boundary. -/
theorem levelChunks_members_not_boundary (Q : Nat) : ∀ (ns : List Node) (start : Node),
    ∀ c ∈ levelChunks Q start ns, ∀ m ∈ c.2, isBoundary Q m = false := by
  intro ns
  induction ns with
  | nil =>
    intro start c hc m hm
    rw [show levelChunks Q start [] = [(start, [])] from rfl] at hc
    simp at hc
    subst hc
    exact absurd hm (List.not_mem_nil m)
  | cons n ns ih =>
    intro start c hc m hm
    by_cases hb : isBoundary Q n = true
    · simp only [levelChunks, hb, if_true] at hc
      rcases List.mem_cons.mp hc with rfl | hc'
      · exact absurd hm (List.not_mem_nil m)
      · exact ih n c hc' m hm
    · have hb0 : isBoundary Q n = false := by
        cases h : isBoundary Q n
        · rfl
        · exact absurd h hb
      obtain ⟨mem0, cs0, hlc0⟩ := levelChunks_head Q ns start
      simp only [levelChunks, hb0, Bool.false_eq_true, if_false, hlc0] at hc
      rcases List.mem_cons.mp hc with rfl | hc'
      · rcases List.mem_cons.mp hm with rfl | hm'
        · exact hb0
        · exact ih start (start, mem0) (hlc0 ▸ List.mem_cons_self _ _) m hm'
      · exact ih start c (hlc0 ▸ List.mem_cons_of_mem _ hc') m hm

/-- Every chunk start after the first is a boundary. -/
theorem levelChunks_starts_boundary (Q : Nat) : ∀ (ns : List Node) (start : Node),
    ∀ c ∈ (levelChunks Q start ns).drop 1, isBoundary Q c.1 = true := by
  intro ns
  induction ns with
  | nil =>
    intro start c hc
    rw [show levelChunks Q start [] = [(start, [])] from rfl] at hc
    exact absurd hc (List.not_mem_nil c)
  | cons n ns ih =>
    intro start c hc
    by_cases hb : isBoundary Q n = true
    · simp only [levelChunks, hb, if_true, List.drop_one, List.tail_cons] at hc
      obtain ⟨mem', cs', hlc'⟩ := levelChunks_head Q ns n
      rw [hlc'] at hc
      rcases List.mem_cons.mp hc with rfl | hc'
      · exact hb
      · have := ih n c
        rw [hlc'] at this
        simp only [List.drop_one, List.tail_cons] at this
        exact this hc'
    · have hb0 : isBoundary Q n = false := by
        cases h : isBoundary Q n
        · rfl
        · exact absurd h hb
      obtain ⟨mem0, cs0, hlc0⟩ := levelChunks_head Q ns start
      simp only [levelChunks, hb0, Bool.false_eq_true, if_false, hlc0, List.drop_one,
        List.tail_cons] at hc
      have := ih start c
      rw [hlc0] at this
      simp only [List.drop_one, List.tail_cons] at this
      exact this hc

/-- The `buildLevel` equation: one parent per chunk, written in order, and
the chunk count returned. -/
theorem buildLevel_eq (H : Bytes -> Bytes) (Q : Nat) (s : Store) (level : Nat)
    (first : Node) (rest : List Node)
    (hlv : levelNodes s level = first :: rest) (hfirst : first.key = none) :
    buildLevel H Q s level = some
      (((levelChunks Q first rest).map (chunkParent H level)).foldl setNode s,
        ((levelChunks Q first rest).map (chunkParent H level)).length) := by
  have hkeyfalse : (first.key != none) = false := by
    rw [hfirst]
    rfl
  unfold buildLevel
  simp only [hlv, hkeyfalse, Bool.false_eq_true, if_false]
  obtain ⟨mem, cs, hlc⟩ := levelChunks_head Q rest first
  have hstart : first.hash = ((first :: ([] : List Node)).map Node.hash).flatten := by simp
  rw [hstart, buildChunks_eq_levelChunks H Q level rest first [] mem cs hlc, hlc]
  simp [chunkParent]

/-- **C6** For every level whose ordered node sequence starts with the
anchor, `Builder.buildLevel(level)` performs one forward pass computing
the chunk decomposition (`levelChunks`): every boundary closes the running
chunk — emitting a `level+1` node keyed by the chunk's starting key whose
hash is the digest of the concatenated member hashes — and starts a new
chunk; the end of the sequence always closes the final chunk; the returned
count equals the number of chunks, which is the number of parent nodes
written at `level+1`. -/
theorem C6_buildLevel_chunks (H : Bytes -> Bytes) (Q : Nat) (s : Store) (level : Nat)
    (first : Node) (rest : List Node)
    (hlv : levelNodes s level = first :: rest) (hfirst : first.key = none) :
    ((levelChunks Q first rest).map (fun c => c.1 :: c.2)).flatten = first :: rest ∧
      (∀ c ∈ levelChunks Q first rest, ∀ m ∈ c.2, isBoundary Q m = false) ∧
      (∀ c ∈ (levelChunks Q first rest).drop 1, isBoundary Q c.1 = true) ∧
      buildLevel H Q s level = some
        (((levelChunks Q first rest).map (chunkParent H level)).foldl setNode s,
          ((levelChunks Q first rest).map (chunkParent H level)).length) :=
  ⟨levelChunks_flatten Q rest first, levelChunks_members_not_boundary Q rest first,
    levelChunks_starts_boundary Q rest first, buildLevel_eq H Q s level first rest hlv hfirst⟩

/-- The anchor heading the C6/C7 witness store. -/
def w8First : Node := ⟨0, none, [255, 0, 0, 0], none⟩

/-- The two keyed nodes following the anchor in the C6/C7 witness store. -/
def w8Rest : List Node := [w8Boundary, ⟨0, some [4], [255, 255, 255, 255], some [2]⟩]

/-- Witness for C6 on the concrete three-node level of `w8Store`. -/
theorem C6_buildLevel_chunks_witness :
    (levelNodes w8Store 0 = w8First :: w8Rest ∧ w8First.key = none) ∧
      buildLevel mixHash 2 w8Store 0 = some
        (((levelChunks 2 w8First w8Rest).map (chunkParent mixHash 0)).foldl setNode w8Store,
          ((levelChunks 2 w8First w8Rest).map (chunkParent mixHash 0)).length) :=
  ⟨⟨by decide, by decide⟩,
    (C6_buildLevel_chunks mixHash 2 w8Store 0 w8First w8Rest (by decide) (by decide)).2.2.2⟩

/-! ## C7: `Builder.finalize` -/

/-- `nkLt` in propositional form. -/
theorem nkLt_iff (x y : Nat × NodeKey) :
    nkLt x y = true ↔ x.1 < y.1 ∨ (x.1 = y.1 ∧ keyLt x.2 y.2 = true) := by
  unfold nkLt
  rw [Bool.or_eq_true, Bool.and_eq_true]
  simp

theorem nkLt_irrefl (x : Nat × NodeKey) : nkLt x x = false := by
  cases h : nkLt x x
  · rfl
  · rcases (nkLt_iff x x).mp h with h' | ⟨-, h'⟩
    · omega
    · rw [keyLt_irrefl] at h'
      exact absurd h' Bool.false_ne_true

theorem nkLt_trans {x y z : Nat × NodeKey} (hxy : nkLt x y = true)
    (hyz : nkLt y z = true) : nkLt x z = true := by
  rw [nkLt_iff] at hxy hyz ⊢
  rcases hxy with h1 | ⟨h1, h1k⟩ <;> rcases hyz with h2 | ⟨h2, h2k⟩
  · exact Or.inl (by omega)
  · exact Or.inl (by omega)
  · exact Or.inl (by omega)
  · exact Or.inr ⟨by omega, keyLt_trans h1k h2k⟩

theorem nkLt_ne {x y : Nat × NodeKey} (h : nkLt x y = true) : x ≠ y := by
  intro he
  subst he
  rw [nkLt_irrefl] at h
  exact absurd h Bool.false_ne_true

theorem nkLt_asymm {x y : Nat × NodeKey} (h : nkLt x y = true) : nkLt y x = false := by
  cases h' : nkLt y x
  · rfl
  · have := nkLt_trans h h'
    rw [nkLt_irrefl] at this
    exact absurd this Bool.false_ne_true

/-- Upserting a node strictly greater than every present row appends it. -/
theorem setNode_append (s : Store) (m : Node)
    (hgt : ∀ n ∈ s, nkLt (n.level, n.key) (m.level, m.key) = true) :
    setNode s m = s ++ [m] := by
  induction s with
  | nil => rfl
  | cons n rest ih =>
    have hn := hgt n (List.mem_cons_self n rest)
    have hne : ¬(n.level = m.level ∧ n.key = m.key) := by
      intro ⟨h1, h2⟩
      exact nkLt_ne hn (by rw [h1, h2])
    have heq : (n.level == m.level && n.key == m.key) = false := by
      rw [Bool.and_eq_false_iff]
      rcases Decidable.not_and_iff_or_not.mp hne with h | h
      · exact Or.inl (beq_eq_false_iff_ne.mpr h)
      · exact Or.inr (beq_eq_false_iff_ne.mpr h)
    have hlt : nkLt (m.level, m.key) (n.level, n.key) = false := nkLt_asymm hn
    unfold setNode
    rw [heq, hlt]
    simp only [Bool.false_eq_true, if_false]
    rw [ih (fun n' hn' => hgt n' (List.mem_cons_of_mem n hn'))]
    rfl

/-- Folding `setNode` over a sorted batch of rows all strictly greater than
the store appends the batch. -/
theorem foldl_setNode_append (parents : List Node) : ∀ (s : Store),
    (∀ n ∈ s, ∀ p ∈ parents, nkLt (n.level, n.key) (p.level, p.key) = true) →
    List.Pairwise (fun a b => nkLt (a.level, a.key) (b.level, b.key) = true) parents →
    parents.foldl setNode s = s ++ parents := by
  induction parents with
  | nil => intro s _ _; simp
  | cons p ps ih =>
    intro s hcross hp
    rw [List.foldl_cons, setNode_append s p
      (fun n hn => hcross n hn p (List.mem_cons_self p ps))]
    rw [ih (s ++ [p]) ?_ (List.pairwise_cons.mp hp).2]
    · simp
    · intro n hn q hq
      rcases List.mem_append.mp hn with h | h
      · exact hcross n h q (List.mem_cons_of_mem p hq)
      · simp at h
        subst h
        exact (List.pairwise_cons.mp hp).1 q hq

/-- `getNode` is the first node with the requested key among the level's
nodes. -/
theorem getNode_eq_levelNodes_find? (s : Store) (l : Nat) (k : NodeKey) :
    getNode s l k = (levelNodes s l).find? (fun n => n.key == k) := by
  induction s with
  | nil => rfl
  | cons n rest ih =>
    unfold getNode levelNodes at ih ⊢
    by_cases hl : n.level = l
    · have hlb : (n.level == l) = true := beq_iff_eq.mpr hl
      simp only [List.filter_cons, hlb, if_true, List.find?, hlb, Bool.true_and]
      cases hk : (n.key == k)
      · exact ih
      · rfl
    · have hlb : (n.level == l) = false := beq_eq_false_iff_ne.mpr hl
      simp only [List.filter_cons, hlb, Bool.false_eq_true, if_false, List.find?,
        Bool.false_and]
      exact ih

/-- The chunk starts of a level form a sublist of the level. -/
theorem levelChunks_starts_sublist (Q : Nat) : ∀ (ns : List Node) (start : Node),
    ((levelChunks Q start ns).map Prod.fst).Sublist (start :: ns) := by
  intro ns
  induction ns with
  | nil => intro start; simp [levelChunks]
  | cons n ns ih =>
    intro start
    by_cases hb : isBoundary Q n = true
    · simp only [levelChunks, hb, if_true, List.map_cons]
      exact List.Sublist.cons₂ start (ih n)
    · have hb0 : isBoundary Q n = false := by
        cases h : isBoundary Q n
        · rfl
        · exact absurd h hb
      obtain ⟨mem0, cs0, hlc0⟩ := levelChunks_head Q ns start
      have hih := ih start
      rw [hlc0] at hih
      simp only [List.map_cons] at hih
      simp only [levelChunks, hb0, Bool.false_eq_true, if_false, hlc0, List.map_cons]
      -- hih : start :: cs0.map Prod.fst <+ start :: ns
      -- goal : start :: cs0.map Prod.fst <+ start :: n :: ns
      cases hih with
      | cons _ htail => exact List.Sublist.cons start (List.Sublist.cons n htail)
      | cons₂ _ htail =>
        exact List.Sublist.cons₂ start (List.Sublist.cons n htail)

/-- `levelNodes` distributes over append. -/
theorem levelNodes_append (s t : Store) (l : Nat) :
    levelNodes (s ++ t) l = levelNodes s l ++ levelNodes t l :=
  List.filter_append _ _

/-- A batch at a level strictly above everything in `s` does not change
lower levels. -/
theorem levelNodes_append_high (s t : Store) (l L : Nat)
    (ht : ∀ m ∈ t, m.level = L) (hl : l ≠ L) :
    levelNodes (s ++ t) l = levelNodes s l := by
  rw [levelNodes_append]
  have : levelNodes t l = [] := by
    unfold levelNodes
    rw [List.filter_eq_nil_iff]
    intro m hm
    have hm' : m.level = L := ht m hm
    rw [beq_eq_false_iff_ne.mpr (show m.level ≠ l from by omega)]
    exact Bool.false_ne_true
  rw [this, List.append_nil]

/-- The `finalize` loop invariant: starting from a well-formed store whose
highest level is `level` (anchor first, `count` nodes there, every lower
level at least two nodes wide), a successful run stops at the first level
with exactly one node — its anchor, which `getNode` then returns — having
built every intermediate level; with `count = 1` it stops immediately. -/
theorem finalizeLoop_invariant (H : Bytes → Bytes) (Q : Nat) :
    ∀ (fuel : Nat) (s : Store) (level count : Nat),
      StoreWF s →
      (∀ m ∈ s, m.level ≤ level) →
      (levelNodes s level).length = count →
      (∃ a rest, levelNodes s level = a :: rest ∧ a.key = none) →
      (∀ L, L < level → 2 ≤ (levelNodes s L).length) →
      ∀ res : Store × Nat, finalizeLoop H Q fuel s level count = some res →
        StoreWF res.1 ∧ (∀ m ∈ res.1, m.level ≤ res.2) ∧ level ≤ res.2 ∧
          (∃ a, levelNodes res.1 res.2 = [a] ∧ a.key = none ∧
            getNode res.1 res.2 none = some a) ∧
          (∀ L, L < res.2 → 2 ≤ (levelNodes res.1 L).length) ∧
          (count = 1 → res = (s, level)) := by
  intro fuel
  induction fuel with
  | zero =>
    intro s level count _ _ _ _ _ res hres
    exact absurd hres (by simp [finalizeLoop])
  | succ f ih =>
    intro s level count hwf hlev hcnt hanchor hlow res hres
    obtain ⟨a, rest, hlv, hak⟩ := hanchor
    by_cases hc : count > 1
    · -- build this level and recurse one level up
      unfold finalizeLoop at hres
      rw [if_pos hc, buildLevel_eq H Q s level a rest hlv hak] at hres
      have hres2 : finalizeLoop H Q f
          (((levelChunks Q a rest).map (chunkParent H level)).foldl setNode s) (level + 1)
          ((levelChunks Q a rest).map (chunkParent H level)).length = some res := hres
      have hlvp : List.Pairwise (fun x y => keyLt x.key y.key = true) (a :: rest) := by
        have := levelNodes_pairwise hwf level
        rwa [hlv] at this
      have hstartpw : List.Pairwise (fun c d => keyLt c.1.key d.1.key = true)
          (levelChunks Q a rest) :=
        List.pairwise_map.mp (hlvp.sublist (levelChunks_starts_sublist Q rest a))
      have hparpw : List.Pairwise (fun x y => nkLt (x.level, x.key) (y.level, y.key) = true)
          ((levelChunks Q a rest).map (chunkParent H level)) := by
        rw [List.pairwise_map]
        apply hstartpw.imp
        intro c d h
        show nkLt (level + 1, c.1.key) (level + 1, d.1.key) = true
        exact (nkLt_iff _ _).mpr (Or.inr ⟨rfl, h⟩)
      have hcross : ∀ n ∈ s, ∀ p ∈ (levelChunks Q a rest).map (chunkParent H level),
          nkLt (n.level, n.key) (p.level, p.key) = true := by
        intro n hn p hp
        obtain ⟨c, -, rfl⟩ := List.mem_map.mp hp
        refine (nkLt_iff _ _).mpr (Or.inl ?_)
        have := hlev n hn
        show n.level < level + 1
        omega
      have hsfold : ((levelChunks Q a rest).map (chunkParent H level)).foldl setNode s =
          s ++ (levelChunks Q a rest).map (chunkParent H level) :=
        foldl_setNode_append _ s hcross hparpw
      rw [hsfold] at hres2
      have hplevel : ∀ p ∈ (levelChunks Q a rest).map (chunkParent H level),
          p.level = level + 1 := by
        intro p hp
        obtain ⟨c, -, rfl⟩ := List.mem_map.mp hp
        rfl
      have hwf' : StoreWF (s ++ (levelChunks Q a rest).map (chunkParent H level)) := by
        unfold StoreWF
        rw [List.pairwise_append]
        exact ⟨hwf, hparpw, fun n hn p hp => hcross n hn p hp⟩
      have hlev' : ∀ m ∈ s ++ (levelChunks Q a rest).map (chunkParent H level),
          m.level ≤ level + 1 := by
        intro m hm
        rcases List.mem_append.mp hm with h | h
        · have := hlev m h
          omega
        · rw [hplevel m h]
      have hlvmid : levelNodes (s ++ (levelChunks Q a rest).map (chunkParent H level))
          (level + 1) = (levelChunks Q a rest).map (chunkParent H level) := by
        rw [levelNodes_append]
        have h1 : levelNodes s (level + 1) = [] := by
          unfold levelNodes
          rw [List.filter_eq_nil_iff]
          intro m hm
          have := hlev m hm
          rw [beq_eq_false_iff_ne.mpr (show m.level ≠ level + 1 by omega)]
          exact Bool.false_ne_true
        have h2 : levelNodes ((levelChunks Q a rest).map (chunkParent H level)) (level + 1) =
            (levelChunks Q a rest).map (chunkParent H level) := by
          unfold levelNodes
          rw [List.filter_eq_self.mpr]
          intro p hp
          rw [beq_iff_eq.mpr (hplevel p hp)]
        rw [h1, h2, List.nil_append]
      have hcnt' : (levelNodes (s ++ (levelChunks Q a rest).map (chunkParent H level))
          (level + 1)).length = ((levelChunks Q a rest).map (chunkParent H level)).length := by
        rw [hlvmid]
      have hanchor' : ∃ b rest',
          levelNodes (s ++ (levelChunks Q a rest).map (chunkParent H level)) (level + 1) =
            b :: rest' ∧ b.key = none := by
        obtain ⟨mem, cs, hlc⟩ := levelChunks_head Q rest a
        refine ⟨chunkParent H level (a, mem), cs.map (chunkParent H level), ?_, ?_⟩
        · rw [hlvmid, hlc]
          rfl
        · exact hak
      have hlow' : ∀ L, L < level + 1 →
          2 ≤ (levelNodes (s ++ (levelChunks Q a rest).map (chunkParent H level)) L).length := by
        intro L hL
        rw [levelNodes_append_high s _ L (level + 1) hplevel (by omega)]
        by_cases hLl : L = level
        · subst hLl
          rw [hcnt]
          omega
        · exact hlow L (by omega)
      have hout := ih (s ++ (levelChunks Q a rest).map (chunkParent H level)) (level + 1)
        ((levelChunks Q a rest).map (chunkParent H level)).length hwf' hlev' hcnt'
        hanchor' hlow' res hres2
      obtain ⟨h1, h2, h3, h4, h5, -⟩ := hout
      exact ⟨h1, h2, by omega, h4, h5, fun hcc => absurd hcc (by omega)⟩
    · -- the loop exits: the level already has exactly one node, the anchor
      unfold finalizeLoop at hres
      rw [if_neg hc] at hres
      obtain rfl : res = (s, level) := (Option.some_inj.mp hres).symm
      have hpos : 1 ≤ (levelNodes s level).length := by
        rw [hlv]
        simp
      have hlen1 : (levelNodes s level).length = 1 := by omega
      have hrest : rest = [] := by
        rw [hlv] at hlen1
        simpa using hlen1
      subst hrest
      refine ⟨hwf, hlev, Nat.le_refl _, ⟨a, ?_, hak, ?_⟩, hlow, fun _ => rfl⟩
      · rw [hlv]
      · rw [getNode_eq_levelNodes_find?, hlv]
        simp [List.find?, beq_iff_eq.mpr hak]

/-- **C7** Given all level-0 leaves already written in ascending key order
with the anchor first (a well-formed store of level-0 rows, `nodeCount`
the number of its rows), a successful `Builder.finalize()` runs
`buildLevel` for increasing levels until a level contains exactly one
node, and returns that node — the anchor of the topmost level — as the
root; every level below the top has at least two nodes; and on an empty
builder (`nodeCount = 1`, only the anchor written) it returns the level-0
anchor without building any level. -/
theorem C7_finalize_root (H : Bytes → Bytes) (Q fuel : Nat) (st : BuilderState)
    (hwf : StoreWF st.store)
    (hlevel0 : ∀ m ∈ st.store, m.level = 0)
    (hanchor : ∃ a rest, levelNodes st.store 0 = a :: rest ∧ a.key = none)
    (hcount : st.nodeCount = (levelNodes st.store 0).length)
    (root : Node) (hroot : finalize H Q fuel st = some root) :
    ∃ s' T, finalizeLoop H Q fuel st.store 0 st.nodeCount = some (s', T) ∧
      root.key = none ∧ root.level = T ∧ levelNodes s' T = [root] ∧
      (∀ L, L < T → 2 ≤ (levelNodes s' L).length) ∧
      (st.nodeCount = 1 → s' = st.store ∧ T = 0 ∧ root ∈ st.store) := by
  unfold finalize at hroot
  cases hloop : finalizeLoop H Q fuel st.store 0 st.nodeCount with
  | none =>
    rw [hloop] at hroot
    exact absurd hroot (by simp)
  | some res =>
    obtain ⟨s', T⟩ := res
    rw [hloop] at hroot
    have hroot' : getNode s' T none = some root := hroot
    have hinv := finalizeLoop_invariant H Q fuel st.store 0 st.nodeCount hwf
      (fun m hm => Nat.le_of_eq (hlevel0 m hm)) hcount.symm hanchor
      (fun L hL => absurd hL (Nat.not_lt_zero L)) (s', T) hloop
    obtain ⟨hwf', hlev', h0le, ⟨a, hlv', hak', hget'⟩, hlow', hcnt1⟩ := hinv
    have haroot : a = root := by
      rw [hget'] at hroot'
      exact Option.some_inj.mp hroot'
    subst haroot
    refine ⟨s', T, rfl, hak', (getNode_mem hget').2.1.symm ▸ rfl, hlv', hlow', ?_⟩
    intro h1
    have := hcnt1 h1
    have hs : s' = st.store := congrArg Prod.fst this
    have hT : T = 0 := congrArg Prod.snd this
    refine ⟨hs, hT, ?_⟩
    have := (getNode_mem hget').1
    rwa [hs] at this

/-- The root that `finalize` computes for the C7 witness run. -/
def w7Root : Node := ⟨5, none, [173, 65, 49, 64], none⟩

set_option maxRecDepth 40000 in
/-- Witness for C7: the three-leaf builder state over `w8Store`
(`nodeCount = 3`), fuel 30, toy hasher, `Q = 2`. -/
theorem C7_finalize_root_witness :
    (StoreWF w8Store ∧ (∀ m ∈ w8Store, m.level = 0) ∧
        (∃ a rest, levelNodes w8Store 0 = a :: rest ∧ a.key = none) ∧
        (3 = (levelNodes w8Store 0).length)) ∧
      ∃ s' T, finalizeLoop mixHash 2 30 w8Store 0 3 = some (s', T) ∧
        (w7Root.key = none ∧ w7Root.level = T ∧ levelNodes s' T = [w7Root] ∧
          (∀ L, L < T → 2 ≤ (levelNodes s' L).length) ∧
          (3 = 1 → s' = w8Store ∧ T = 0 ∧ w7Root ∈ w8Store)) := by
  refine ⟨⟨by decide, by decide, ⟨w8First, w8Rest, by decide, by decide⟩, by decide⟩, ?_⟩
  obtain ⟨s', T, h1, h2, h3, h4, h5, h6⟩ :=
    C7_finalize_root mixHash 2 30 ⟨w8Store, 3⟩ (by decide) (by decide)
      ⟨w8First, w8Rest, by decide, by decide⟩ (by decide) w7Root (by decide)
  exact ⟨s', T, h1, h2, h3, h4, h5, h6⟩

/-! ## The canonical tower

The content-defined shape the protocol maintains: level 0 is the anchor
plus the sorted leaves; each higher level is the chunk decomposition of
the one below; the tree's stored top is the first level holding exactly
one node (its anchor) — except that a freshly initialized tree stores only
level 0, and every mutated tree stores at least level 1. -/

/-- The sorted leaf entries: an association list of (key, value) pairs,
strictly ascending by key. -/
def EntriesWF (m : List (Bytes × Bytes)) : Prop :=
  List.Pairwise (fun a b => byteaLt a.1 b.1 = true) m

instance : DecidablePred EntriesWF := fun m =>
  inferInstanceAs (Decidable (List.Pairwise _ m))

/-- The level-0 node list of an entry map: anchor first, then one leaf per
entry in key order. -/
def leafNodes (H : Bytes → Bytes) (m : List (Bytes × Bytes)) : List Node :=
  ⟨0, none, leafAnchorHash H, none⟩ ::
    m.map (fun kv => ⟨0, some kv.1, hashEntry H kv.1 kv.2, some kv.2⟩)

/-- One level up: the chunk parents of a level's node list. -/
def nextLevelNodes (H : Bytes → Bytes) (Q level : Nat) (ns : List Node) : List Node :=
  match ns with
  | [] => []
  | first :: rest => (levelChunks Q first rest).map (chunkParent H level)

/-- The canonical node list of each level. -/
def canonLevel (H : Bytes → Bytes) (Q : Nat) (m : List (Bytes × Bytes)) : Nat → List Node
  | 0 => leafNodes H m
  | L + 1 => nextLevelNodes H Q L (canonLevel H Q m L)

/-- The canonical store of height `T`: levels `0 … T` concatenated. -/
def canonStore (H : Bytes → Bytes) (Q : Nat) (m : List (Bytes × Bytes)) (T : Nat) : Store :=
  ((List.range (T + 1)).map (canonLevel H Q m)).flatten

/-- A valid stored top for the entry map `m`: every strictly intermediate
level (from 1) is more than an anchor, and level `T` is an anchor alone.
For empty `m` both `T = 0` (the freshly initialized tree) and `T = 1`
(an emptied tree) qualify; otherwise `T` is unique. -/
def TopOK (H : Bytes → Bytes) (Q : Nat) (m : List (Bytes × Bytes)) (T : Nat) : Prop :=
  (∀ L, 1 ≤ L → L < T → 2 ≤ (canonLevel H Q m L).length) ∧
    (canonLevel H Q m T).length = 1

theorem nextLevelNodes_cons (H : Bytes → Bytes) (Q level : Nat) (first : Node)
    (rest : List Node) :
    nextLevelNodes H Q level (first :: rest) =
      (levelChunks Q first rest).map (chunkParent H level) := rfl

theorem canonLevel_succ (H : Bytes → Bytes) (Q : Nat) (m : List (Bytes × Bytes)) (L : Nat) :
    canonLevel H Q m (L + 1) = nextLevelNodes H Q L (canonLevel H Q m L) := rfl

/-- Every node of `canonLevel … L` carries level `L`. -/
theorem canonLevel_levels (H : Bytes → Bytes) (Q : Nat) (m : List (Bytes × Bytes)) :
    ∀ L, ∀ n ∈ canonLevel H Q m L, n.level = L := by
  intro L
  cases L with
  | zero =>
    intro n hn
    unfold canonLevel leafNodes at hn
    rcases List.mem_cons.mp hn with rfl | hn'
    · rfl
    · obtain ⟨kv, -, rfl⟩ := List.mem_map.mp hn'
      rfl
  | succ L =>
    intro n hn
    rw [canonLevel_succ] at hn
    revert hn
    cases canonLevel H Q m L with
    | nil => intro hn; exact absurd hn (List.not_mem_nil n)
    | cons first rest =>
      rw [nextLevelNodes_cons]
      intro hn
      obtain ⟨c, -, rfl⟩ := List.mem_map.mp hn
      rfl

/-- `canonLevel` is never empty. -/
theorem canonLevel_ne_nil (H : Bytes → Bytes) (Q : Nat) (m : List (Bytes × Bytes)) :
    ∀ L, canonLevel H Q m L ≠ [] := by
  intro L
  induction L with
  | zero => simp [canonLevel, leafNodes]
  | succ L ih =>
    rw [canonLevel_succ]
    cases hc : canonLevel H Q m L with
    | nil => exact absurd hc ih
    | cons first rest =>
      rw [nextLevelNodes_cons]
      obtain ⟨mem, cs, hlc⟩ := levelChunks_head Q rest first
      rw [hlc]
      simp

/-- The head of every canonical level is its anchor. -/
theorem canonLevel_head_anchor (H : Bytes → Bytes) (Q : Nat) (m : List (Bytes × Bytes)) :
    ∀ L, ∃ a rest, canonLevel H Q m L = a :: rest ∧ a.key = none := by
  intro L
  induction L with
  | zero => exact ⟨_, _, rfl, rfl⟩
  | succ L ih =>
    obtain ⟨a, rest, hc, hak⟩ := ih
    rw [canonLevel_succ, hc, nextLevelNodes_cons]
    obtain ⟨mem, cs, hlc⟩ := levelChunks_head Q rest a
    rw [hlc]
    exact ⟨chunkParent H L (a, mem), cs.map (chunkParent H L), rfl, hak⟩

/-- Keys are strictly ascending (anchor first) within a canonical level. -/
theorem canonLevel_pairwise (H : Bytes → Bytes) (Q : Nat) (m : List (Bytes × Bytes))
    (hm : EntriesWF m) :
    ∀ L, List.Pairwise (fun x y => keyLt x.key y.key = true) (canonLevel H Q m L) := by
  intro L
  induction L with
  | zero =>
    unfold canonLevel leafNodes
    rw [List.pairwise_cons]
    constructor
    · intro n hn
      obtain ⟨kv, -, rfl⟩ := List.mem_map.mp hn
      rfl
    · rw [List.pairwise_map]
      exact hm.imp (fun h => h)
  | succ L ih =>
    rw [canonLevel_succ]
    cases hc : canonLevel H Q m L with
    | nil => exact List.Pairwise.nil
    | cons first rest =>
      rw [hc] at ih
      rw [nextLevelNodes_cons, List.pairwise_map]
      have hstarts := List.pairwise_map.mp (ih.sublist (levelChunks_starts_sublist Q rest first))
      apply hstarts.imp
      intro c d h
      exact h

/-- The canonical store is well-formed: sorted within levels, levels
ascending. -/
theorem canonStore_wf (H : Bytes → Bytes) (Q : Nat) (m : List (Bytes × Bytes))
    (hm : EntriesWF m) (T : Nat) : StoreWF (canonStore H Q m T) := by
  unfold StoreWF canonStore
  rw [List.pairwise_flatten]
  constructor
  · intro l hl
    obtain ⟨L, -, rfl⟩ := List.mem_map.mp hl
    apply List.Pairwise.imp_of_mem ?_ (canonLevel_pairwise H Q m hm L)
    intro a b ha hb hab
    rw [nkLt_iff]
    refine Or.inr ⟨?_, hab⟩
    rw [canonLevel_levels H Q m L a ha, canonLevel_levels H Q m L b hb]
  · rw [List.pairwise_map]
    apply List.Pairwise.imp_of_mem ?_ (List.pairwise_lt_range (T + 1))
    intro L1 L2 _ _ hlt x hx y hy
    rw [nkLt_iff]
    exact Or.inl (by
      rw [canonLevel_levels H Q m L1 x hx, canonLevel_levels H Q m L2 y hy]
      exact hlt)

/-- The levels of the canonical store are the canonical levels, up to the
stored top. -/
theorem canonStore_levelNodes (H : Bytes → Bytes) (Q : Nat) (m : List (Bytes × Bytes))
    (T : Nat) (l : Nat) :
    levelNodes (canonStore H Q m T) l =
      if l ≤ T then canonLevel H Q m l else [] := by
  unfold canonStore
  induction T with
  | zero =>
    simp only [List.range_succ, List.range_zero, List.nil_append, List.map_cons,
      List.map_nil, List.flatten_cons, List.flatten_nil, List.append_nil]
    by_cases h : l = 0
    · subst h
      rw [if_pos (Nat.le_refl 0)]
      unfold levelNodes
      rw [List.filter_eq_self.mpr]
      intro n hn
      rw [beq_iff_eq.mpr (canonLevel_levels H Q m 0 n hn)]
    · rw [if_neg (by omega)]
      unfold levelNodes
      rw [List.filter_eq_nil_iff]
      intro n hn
      rw [beq_eq_false_iff_ne.mpr (by rw [canonLevel_levels H Q m 0 n hn]; omega)]
      exact Bool.false_ne_true
  | succ T ih =>
    rw [List.range_succ, List.map_append]
    simp only [List.map_cons, List.map_nil, List.flatten_append, List.flatten_cons,
      List.flatten_nil, List.append_nil]
    unfold levelNodes at ih ⊢
    rw [List.filter_append, ih]
    by_cases h : l = T + 1
    · subst h
      rw [if_neg (by omega), if_pos (Nat.le_refl _), List.nil_append,
        List.filter_eq_self.mpr]
      intro n hn
      rw [beq_iff_eq.mpr (canonLevel_levels H Q m (T + 1) n hn)]
    · have hfil : List.filter (fun n => n.level == l) (canonLevel H Q m (T + 1)) = [] := by
        rw [List.filter_eq_nil_iff]
        intro n hn
        rw [beq_eq_false_iff_ne.mpr (by rw [canonLevel_levels H Q m (T + 1) n hn]; omega)]
        exact Bool.false_ne_true
      rw [hfil, List.append_nil]
      by_cases h2 : l ≤ T
      · rw [if_pos h2, if_pos (by omega)]
      · rw [if_neg h2, if_neg (by omega)]

/-- The stored top of the canonical store is `T`. -/
theorem canonStore_topLevel (H : Bytes → Bytes) (Q : Nat) (m : List (Bytes × Bytes))
    (T : Nat) : topLevel (canonStore H Q m T) = T := by
  have hmem : ∀ n ∈ canonStore H Q m T, n.level ≤ T := by
    intro n hn
    unfold canonStore at hn
    obtain ⟨l, hl, hnl⟩ := List.mem_flatten.mp hn
    obtain ⟨L, hL, rfl⟩ := List.mem_map.mp hl
    rw [canonLevel_levels H Q m L n hnl]
    exact Nat.lt_succ_iff.mp (List.mem_range.mp hL)
  have hhit : ∃ n ∈ canonStore H Q m T, n.level = T := by
    obtain ⟨a, rest, hc, -⟩ := canonLevel_head_anchor H Q m T
    refine ⟨a, ?_, by rw [canonLevel_levels H Q m T a (by rw [hc]; simp)]⟩
    unfold canonStore
    rw [List.mem_flatten]
    refine ⟨canonLevel H Q m T, List.mem_map.mpr ⟨T, List.mem_range.mpr (by omega), rfl⟩, ?_⟩
    rw [hc]
    simp
  -- topLevel is the max of the levels
  obtain ⟨w, hw, hwl⟩ := hhit
  have hle : ∀ (s : Store), ∀ n ∈ s, n.level ≤ topLevel s := by
    intro s
    induction s with
    | nil => intro n hn; exact absurd hn (List.not_mem_nil n)
    | cons x xs ih =>
      intro n hn
      unfold topLevel at ih ⊢
      rcases List.mem_cons.mp hn with rfl | hn'
      · simp
      · have := ih n hn'
        simp only [List.foldr_cons]
        omega
  have hup : ∀ (s : Store), s ≠ [] → (topLevel s = 0 ∨ ∃ n ∈ s, n.level = topLevel s) := by
    intro s
    induction s with
    | nil => intro h; exact absurd rfl h
    | cons x xs ih =>
      intro _
      unfold topLevel at ih ⊢
      simp only [List.foldr_cons]
      by_cases hx : List.foldr (fun n acc => max n.level acc) 0 xs ≤ x.level
      · right
        exact ⟨x, List.mem_cons_self x xs, by omega⟩
      · have hxs : xs ≠ [] := by
          intro he
          rw [he] at hx
          exact hx (Nat.zero_le x.level)
        rcases ih hxs with h0 | ⟨n, hn, hnl⟩
        · rw [h0] at hx
          exact absurd (Nat.zero_le x.level) hx
        · right
          exact ⟨n, List.mem_cons_of_mem x hn, by omega⟩
  have h1 := hle (canonStore H Q m T) w hw
  rcases hup (canonStore H Q m T) (by
      intro he
      rw [he] at hw
      exact absurd hw (List.not_mem_nil w)) with h0 | ⟨n, hn, hnl⟩
  · omega
  · have := hmem n hn
    omega

/-- `getRoot` of the canonical store is the top level's anchor. -/
theorem canonStore_getRoot (H : Bytes → Bytes) (Q : Nat) (m : List (Bytes × Bytes))
    (T : Nat) :
    ∃ a rest, canonLevel H Q m T = a :: rest ∧ a.key = none ∧
      getRoot (canonStore H Q m T) = some a := by
  obtain ⟨a, rest, hc, hak⟩ := canonLevel_head_anchor H Q m T
  refine ⟨a, rest, hc, hak, ?_⟩
  unfold getRoot
  rw [canonStore_topLevel, canonStore_levelNodes, if_pos (Nat.le_refl T), hc]
  rfl

theorem canonStore_zero (H : Bytes → Bytes) (Q : Nat) (m : List (Bytes × Bytes)) :
    canonStore H Q m 0 = leafNodes H m := by
  unfold canonStore
  simp only [List.range_succ, List.range_zero, List.nil_append, List.map_cons,
    List.map_nil, List.flatten_cons, List.flatten_nil, List.append_nil]
  rfl

theorem canonStore_succ (H : Bytes → Bytes) (Q : Nat) (m : List (Bytes × Bytes)) (T : Nat) :
    canonStore H Q m (T + 1) = canonStore H Q m T ++ canonLevel H Q m (T + 1) := by
  unfold canonStore
  rw [List.range_succ, List.map_append]
  simp

theorem canonStore_mem_level {H : Bytes → Bytes} {Q : Nat} {m : List (Bytes × Bytes)}
    {T : Nat} {n : Node} (hn : n ∈ canonStore H Q m T) : n.level ≤ T := by
  unfold canonStore at hn
  obtain ⟨l, hl, hnl⟩ := List.mem_flatten.mp hn
  obtain ⟨L, hL, rfl⟩ := List.mem_map.mp hl
  rw [canonLevel_levels H Q m L n hnl]
  exact Nat.lt_succ_iff.mp (List.mem_range.mp hL)

/-- Canonical levels, ordered as store slots. -/
theorem canonLevel_pairwise_nk (H : Bytes → Bytes) (Q : Nat) (m : List (Bytes × Bytes))
    (hm : EntriesWF m) (L : Nat) :
    List.Pairwise (fun x y => nkLt (x.level, x.key) (y.level, y.key) = true)
      (canonLevel H Q m L) := by
  apply List.Pairwise.imp_of_mem ?_ (canonLevel_pairwise H Q m hm L)
  intro a b ha hb hab
  rw [nkLt_iff]
  refine Or.inr ⟨?_, hab⟩
  rw [canonLevel_levels H Q m L a ha, canonLevel_levels H Q m L b hb]

/-- The `finalize` loop over a canonical prefix builds exactly the
canonical tower, stopping at the first single-node level. -/
theorem finalizeLoop_canon (H : Bytes → Bytes) (Q : Nat) (m : List (Bytes × Bytes))
    (hm : EntriesWF m) :
    ∀ (fuel level count : Nat),
      count = (canonLevel H Q m level).length →
      (∀ L, 1 ≤ L → L < level → 2 ≤ (canonLevel H Q m L).length) →
      ∀ res, finalizeLoop H Q fuel (canonStore H Q m level) level count = some res →
        ∃ T, level ≤ T ∧ res = (canonStore H Q m T, T) ∧ TopOK H Q m T := by
  intro fuel
  induction fuel with
  | zero =>
    intro level count _ _ res hres
    exact absurd hres (by simp [finalizeLoop])
  | succ f ih =>
    intro level count hcnt hlow res hres
    by_cases hc : count > 1
    · unfold finalizeLoop at hres
      rw [if_pos hc] at hres
      obtain ⟨a, rest, hlv0, hak⟩ := canonLevel_head_anchor H Q m level
      have hlv : levelNodes (canonStore H Q m level) level = a :: rest := by
        rw [canonStore_levelNodes, if_pos (Nat.le_refl _), hlv0]
      rw [buildLevel_eq H Q _ level a rest hlv hak] at hres
      have hpar : (levelChunks Q a rest).map (chunkParent H level) =
          canonLevel H Q m (level + 1) := by
        rw [canonLevel_succ, hlv0, nextLevelNodes_cons]
      have hparpw : List.Pairwise (fun x y => nkLt (x.level, x.key) (y.level, y.key) = true)
          ((levelChunks Q a rest).map (chunkParent H level)) := by
        rw [hpar]
        exact canonLevel_pairwise_nk H Q m hm (level + 1)
      have hcross : ∀ n ∈ canonStore H Q m level,
          ∀ p ∈ (levelChunks Q a rest).map (chunkParent H level),
            nkLt (n.level, n.key) (p.level, p.key) = true := by
        intro n hn p hp
        rw [hpar] at hp
        refine (nkLt_iff _ _).mpr (Or.inl ?_)
        rw [canonLevel_levels H Q m (level + 1) p hp]
        have := canonStore_mem_level hn
        omega
      have hsfold := foldl_setNode_append ((levelChunks Q a rest).map (chunkParent H level))
        (canonStore H Q m level) hcross hparpw
      have hres2 : finalizeLoop H Q f (canonStore H Q m (level + 1)) (level + 1)
          (canonLevel H Q m (level + 1)).length = some res := by
        have he : (canonStore H Q m level) ++
            (levelChunks Q a rest).map (chunkParent H level) =
            canonStore H Q m (level + 1) := by
          rw [hpar, canonStore_succ]
        have hlen : ((levelChunks Q a rest).map (chunkParent H level)).length =
            (canonLevel H Q m (level + 1)).length := by
          rw [hpar]
        rw [hsfold, he, hlen] at hres
        exact hres
      have hlow' : ∀ L, 1 ≤ L → L < level + 1 → 2 ≤ (canonLevel H Q m L).length := by
        intro L h1 h2
        by_cases hLl : L = level
        · subst hLl
          omega
        · exact hlow L h1 (by omega)
      obtain ⟨T, hT1, hT2, hT3⟩ := ih (level + 1) _ rfl hlow' res hres2
      exact ⟨T, by omega, hT2, hT3⟩
    · unfold finalizeLoop at hres
      rw [if_neg hc] at hres
      obtain rfl : res = (canonStore H Q m level, level) := (Option.some_inj.mp hres).symm
      have hpos : 1 ≤ (canonLevel H Q m level).length :=
        List.length_pos.mpr (canonLevel_ne_nil H Q m level)
      exact ⟨level, Nat.le_refl _, rfl, hlow, by omega⟩

/-! ## Level-wise views of the store operations -/

theorem keyLt_ne {a b : NodeKey} (h : keyLt a b = true) : a ≠ b := by
  intro he
  subst he
  rw [keyLt_irrefl] at h
  exact absurd h Bool.false_ne_true

theorem nkLt_total {x y : Nat × NodeKey} (hne : x ≠ y) :
    nkLt x y = true ∨ nkLt y x = true := by
  obtain ⟨x1, x2⟩ := x
  obtain ⟨y1, y2⟩ := y
  by_cases h1 : x1 = y1
  · subst h1
    have h2 : x2 ≠ y2 := by
      intro h
      exact hne (by rw [h])
    rcases keyLt_total h2 with h | h
    · exact Or.inl ((nkLt_iff _ _).mpr (Or.inr ⟨rfl, h⟩))
    · exact Or.inr ((nkLt_iff _ _).mpr (Or.inr ⟨rfl, h⟩))
  · rcases Nat.lt_or_ge x1 y1 with h | h
    · exact Or.inl ((nkLt_iff _ _).mpr (Or.inl h))
    · exact Or.inr ((nkLt_iff _ _).mpr (Or.inl (by omega)))

/-- Sorted upsert by key within one level's node list. -/
def keyUpsert (ns : List Node) (n : Node) : List Node :=
  match ns with
  | [] => [n]
  | x :: rest =>
    if x.key == n.key then n :: rest
    else if keyLt n.key x.key then n :: x :: rest
    else x :: keyUpsert rest n

/-- Delete by key within one level's node list. -/
def keyDelete (ns : List Node) (k : NodeKey) : List Node :=
  ns.filter (fun n => !(n.key == k))

theorem levelNodes_cons_pos {x : Node} {s : Store} {l : Nat} (h : x.level = l) :
    levelNodes (x :: s) l = x :: levelNodes s l := by
  unfold levelNodes
  rw [List.filter_cons, if_pos (show ((fun n => n.level == l) x) = true from beq_iff_eq.mpr h)]

theorem levelNodes_cons_neg {x : Node} {s : Store} {l : Nat} (h : x.level ≠ l) :
    levelNodes (x :: s) l = levelNodes s l := by
  unfold levelNodes
  rw [List.filter_cons_of_neg]
  rw [beq_eq_false_iff_ne.mpr h]
  simp

theorem keyUpsert_cons_eq {x : Node} {rest : List Node} {n : Node} (h : x.key = n.key) :
    keyUpsert (x :: rest) n = n :: rest := by
  conv_lhs => rw [keyUpsert]
  rw [beq_iff_eq.mpr h]
  simp

theorem keyUpsert_cons_lt {x : Node} {rest : List Node} {n : Node}
    (h : keyLt n.key x.key = true) :
    keyUpsert (x :: rest) n = n :: x :: rest := by
  conv_lhs => rw [keyUpsert]
  rw [beq_eq_false_iff_ne.mpr (fun he => keyLt_ne h he.symm), h]
  simp

theorem keyUpsert_cons_gt {x : Node} {rest : List Node} {n : Node}
    (h : keyLt x.key n.key = true) :
    keyUpsert (x :: rest) n = x :: keyUpsert rest n := by
  conv_lhs => rw [keyUpsert]
  rw [beq_eq_false_iff_ne.mpr (keyLt_ne h), keyLt_asymm h]
  simp

/-- `setNode` acts on the written node's level as a sorted key-upsert and
leaves every other level unchanged. -/
theorem setNode_levelNodes {s : Store} (hwf : StoreWF s) (n : Node) (l : Nat) :
    levelNodes (setNode s n) l =
      if l = n.level then keyUpsert (levelNodes s l) n else levelNodes s l := by
  induction s with
  | nil =>
    by_cases h : l = n.level
    · subst h
      rw [if_pos rfl]
      show levelNodes [n] n.level = keyUpsert (levelNodes [] n.level) n
      rw [levelNodes_cons_pos rfl]
      rfl
    · rw [if_neg h]
      show levelNodes [n] l = levelNodes [] l
      rw [levelNodes_cons_neg (fun he => h he.symm)]
  | cons x rest ih =>
    have hwf' : StoreWF rest := (List.pairwise_cons.mp hwf).2
    have hxall := (List.pairwise_cons.mp hwf).1
    by_cases hslot : (x.level == n.level && x.key == n.key) = true
    · obtain ⟨hxl, hxk⟩ := Bool.and_eq_true_iff.mp hslot
      have hxl' : x.level = n.level := beq_iff_eq.mp hxl
      have hxk' : x.key = n.key := beq_iff_eq.mp hxk
      have hset : setNode (x :: rest) n = n :: rest := by
        conv_lhs => rw [setNode]
        rw [if_pos hslot]
      rw [hset]
      by_cases h : l = n.level
      · subst h
        rw [if_pos rfl, levelNodes_cons_pos rfl, levelNodes_cons_pos hxl',
          keyUpsert_cons_eq hxk']
      · rw [if_neg h, levelNodes_cons_neg (fun he => h he.symm),
          levelNodes_cons_neg (fun he => h (hxl' ▸ he).symm)]
    · by_cases hins : nkLt (n.level, n.key) (x.level, x.key) = true
      · have hset : setNode (x :: rest) n = n :: x :: rest := by
          conv_lhs => rw [setNode]
          rw [if_neg hslot, if_pos hins]
        rw [hset]
        by_cases h : l = n.level
        · subst h
          rw [if_pos rfl, levelNodes_cons_pos rfl]
          by_cases hxl : x.level = n.level
          · rw [levelNodes_cons_pos hxl]
            have hkey : keyLt n.key x.key = true := by
              rcases (nkLt_iff _ _).mp hins with h1 | ⟨-, h2⟩
              · omega
              · exact h2
            rw [keyUpsert_cons_lt hkey]
          · rw [levelNodes_cons_neg hxl]
            cases hlv : levelNodes rest n.level with
            | nil => rfl
            | cons e es =>
              have hemem : e ∈ levelNodes rest n.level := by
                rw [hlv]
                simp
              have he := mem_levelNodes.mp hemem
              have hne : nkLt (n.level, n.key) (e.level, e.key) = true :=
                nkLt_trans hins (hxall e he.1)
              have hkey : keyLt n.key e.key = true := by
                rcases (nkLt_iff _ _).mp hne with h1 | ⟨-, h2⟩
                · rw [he.2] at h1
                  omega
                · exact h2
              rw [keyUpsert_cons_lt hkey]
        · rw [if_neg h, levelNodes_cons_neg (fun he => h he.symm)]
      · have hxn : nkLt (x.level, x.key) (n.level, n.key) = true := by
          have hne : (x.level, x.key) ≠ (n.level, n.key) := by
            intro he
            apply hslot
            rw [Bool.and_eq_true_iff]
            exact ⟨beq_iff_eq.mpr (congrArg Prod.fst he),
              beq_iff_eq.mpr (congrArg Prod.snd he)⟩
          rcases nkLt_total hne with h | h
          · exact h
          · exact absurd h hins
        have hset : setNode (x :: rest) n = x :: setNode rest n := by
          conv_lhs => rw [setNode]
          rw [if_neg hslot, if_neg hins]
        rw [hset]
        by_cases h : l = n.level
        · subst h
          rw [if_pos rfl]
          by_cases hxl : x.level = n.level
          · rw [levelNodes_cons_pos hxl, ih hwf', if_pos rfl,
              levelNodes_cons_pos hxl]
            have hkey : keyLt x.key n.key = true := by
              rcases (nkLt_iff _ _).mp hxn with h1 | ⟨-, h2⟩
              · omega
              · exact h2
            rw [keyUpsert_cons_gt hkey]
          · rw [levelNodes_cons_neg hxl, ih hwf', if_pos rfl,
              levelNodes_cons_neg hxl]
        · rw [if_neg h]
          by_cases hxl : x.level = l
          · rw [levelNodes_cons_pos hxl, ih hwf', if_neg h, levelNodes_cons_pos hxl]
          · rw [levelNodes_cons_neg hxl, ih hwf', if_neg h, levelNodes_cons_neg hxl]

/-- `deleteNode` acts on its level as a key-delete and leaves every other
level unchanged. -/
theorem deleteNode_levelNodes (s : Store) (L : Nat) (k : NodeKey) (l : Nat) :
    levelNodes (deleteNode s L k) l =
      if l = L then keyDelete (levelNodes s l) k else levelNodes s l := by
  unfold levelNodes deleteNode keyDelete
  rw [List.filter_filter, List.filter_filter]
  by_cases h : l = L
  · subst h
    rw [if_pos rfl]
    apply List.filter_congr
    intro n _
    by_cases hl : n.level = l
    · rw [beq_iff_eq.mpr hl]
      simp
    · rw [beq_eq_false_iff_ne.mpr hl]
      simp
  · rw [if_neg h]
    apply List.filter_congr
    intro n _
    by_cases hl : n.level = l
    · have hL : (n.level == L) = false := beq_eq_false_iff_ne.mpr (by omega)
      rw [beq_iff_eq.mpr hl, hL]
      simp
    · rw [beq_eq_false_iff_ne.mpr hl]
      simp

/-- A well-formed store is determined by its levels. -/
theorem store_ext {s s' : Store} (hwf : StoreWF s) (hwf' : StoreWF s')
    (h : ∀ l, levelNodes s l = levelNodes s' l) : s = s' := by
  induction s generalizing s' with
  | nil =>
    cases s' with
    | nil => rfl
    | cons y rest' =>
      have hy := h y.level
      rw [levelNodes_cons_pos rfl] at hy
      rw [show levelNodes ([] : Store) y.level = [] from rfl] at hy
      exact absurd hy (by simp)
  | cons x rest ih =>
    cases s' with
    | nil =>
      have hx := h x.level
      rw [levelNodes_cons_pos rfl] at hx
      rw [show levelNodes ([] : Store) x.level = [] from rfl] at hx
      exact absurd hx (by simp)
    | cons y rest' =>
      have hxy : x = y := by
        by_contra hne
        have hxs' : x ∈ y :: rest' := by
          have hx : x ∈ levelNodes (x :: rest) x.level := by
            rw [levelNodes_cons_pos rfl]
            simp
          rw [h x.level] at hx
          exact (mem_levelNodes.mp hx).1
        have hys : y ∈ x :: rest := by
          have hy : y ∈ levelNodes (y :: rest') y.level := by
            rw [levelNodes_cons_pos rfl]
            simp
          rw [← h y.level] at hy
          exact (mem_levelNodes.mp hy).1
        have hxr : x ∈ rest' := by
          rcases List.mem_cons.mp hxs' with he | hm
          · exact absurd he hne
          · exact hm
        have hyr : y ∈ rest := by
          rcases List.mem_cons.mp hys with he | hm
          · exact absurd he.symm hne
          · exact hm
        have h1 := (List.pairwise_cons.mp hwf).1 y hyr
        have h2 := (List.pairwise_cons.mp hwf').1 x hxr
        have h3 := nkLt_trans h1 h2
        rw [nkLt_irrefl] at h3
        exact absurd h3 Bool.false_ne_true
      subst hxy
      have htail : ∀ l, levelNodes rest l = levelNodes rest' l := by
        intro l
        have hl := h l
        by_cases hx : x.level = l
        · rw [levelNodes_cons_pos hx, levelNodes_cons_pos hx] at hl
          exact List.tail_eq_of_cons_eq hl
        · rw [levelNodes_cons_neg hx, levelNodes_cons_neg hx] at hl
          exact hl
      rw [ih (List.pairwise_cons.mp hwf).2 (List.pairwise_cons.mp hwf').2 htail]

/-! ## The Builder run over a sorted entry list -/

theorem leafNodes_length (H : Bytes → Bytes) (m : List (Bytes × Bytes)) :
    (leafNodes H m).length = 1 + m.length := by
  unfold leafNodes
  simp
  omega

/-- Writing sorted leaves through `Builder.set` appends them in order:
the store stays the canonical leaf level and `nodeCount` counts its rows. -/
theorem builder_fold_leaves (H : Bytes → Bytes) :
    ∀ (m pre : List (Bytes × Bytes)), EntriesWF (pre ++ m) →
      m.foldl (fun st kv => builderSet H st kv.1 kv.2)
        ⟨leafNodes H pre, 1 + pre.length⟩ =
        ⟨leafNodes H (pre ++ m), 1 + (pre ++ m).length⟩ := by
  intro m
  induction m with
  | nil =>
    intro pre _
    simp
  | cons kv m' ih =>
    intro pre hwf
    rw [List.foldl_cons]
    have happ : setNode (leafNodes H pre) ⟨0, some kv.1, hashEntry H kv.1 kv.2, some kv.2⟩ =
        leafNodes H (pre ++ [kv]) := by
      rw [setNode_append]
      · unfold leafNodes
        simp
      · intro n hn
        unfold leafNodes at hn
        rcases List.mem_cons.mp hn with rfl | hn'
        · rw [nkLt_iff]
          exact Or.inr ⟨rfl, rfl⟩
        · obtain ⟨p, hp, rfl⟩ := List.mem_map.mp hn'
          rw [nkLt_iff]
          refine Or.inr ⟨rfl, ?_⟩
          show byteaLt p.1 kv.1 = true
          unfold EntriesWF at hwf
          rw [List.pairwise_append] at hwf
          exact hwf.2.2 p hp kv (List.mem_cons_self kv m')
    have hstep : builderSet H ⟨leafNodes H pre, 1 + pre.length⟩ kv.1 kv.2 =
        ⟨leafNodes H (pre ++ [kv]), 1 + (pre ++ [kv]).length⟩ := by
      unfold builderSet builderHashEntry
      rw [BuilderState.mk.injEq]
      constructor
      · exact happ
      · simp only [List.length_append, List.length_cons, List.length_nil]
        omega
    rw [hstep]
    have hwf' : EntriesWF ((pre ++ [kv]) ++ m') := by
      rw [List.append_assoc]
      exact hwf
    have := ih (pre ++ [kv]) hwf'
    rw [this, List.append_assoc]
    rfl

/-- `getNode` at the canonical top finds the root anchor. -/
theorem canonStore_getNode_top (H : Bytes → Bytes) (Q : Nat) (m : List (Bytes × Bytes))
    (T : Nat) :
    ∃ a rest, canonLevel H Q m T = a :: rest ∧ a.key = none ∧
      getNode (canonStore H Q m T) T none = some a := by
  obtain ⟨a, rest, hc, hak⟩ := canonLevel_head_anchor H Q m T
  refine ⟨a, rest, hc, hak, ?_⟩
  rw [getNode_eq_levelNodes_find?, canonStore_levelNodes, if_pos (Nat.le_refl T), hc]
  unfold List.find?
  rw [beq_iff_eq.mpr hak]

/-! ## The aggregate-hash query reads exactly one chunk -/

theorem bool_eq_of_iff {a b : Bool} (h : a = true ↔ b = true) : a = b := by
  cases a <;> cases b <;> simp_all

theorem keyLt_none_right (a : NodeKey) : keyLt a none = false := by
  cases a <;> rfl

/-- A chunk of a level, located inside the level's list, with its
neighbourhood: everything before it, the chunk, and everything after —
the suffix either empty or led by the next boundary. -/
theorem levelChunks_decomp (Q : Nat) (first : Node) (rest : List Node)
    (start : Node) (mem : List Node)
    (hmem : (start, mem) ∈ levelChunks Q first rest) :
    ∃ P S, first :: rest = P ++ ((start :: mem) ++ S) ∧
      (S = [] ∨ ∃ b S2, S = b :: S2 ∧ isBoundary Q b = true) ∧
      ((P = [] ∧ start = first) ∨ isBoundary Q start = true) := by
  obtain ⟨cs1, cs2, hcs⟩ := List.append_of_mem hmem
  have hflat := levelChunks_flatten Q rest first
  rw [hcs, List.map_append, List.flatten_append, List.map_cons, List.flatten_cons] at hflat
  refine ⟨(cs1.map (fun c => c.1 :: c.2)).flatten,
    (cs2.map (fun c => c.1 :: c.2)).flatten, by rw [← hflat], ?_, ?_⟩
  · cases cs2 with
    | nil => exact Or.inl rfl
    | cons c cs2' =>
      obtain ⟨b, bmem⟩ := c
      refine Or.inr ⟨b, bmem ++ (cs2'.map (fun c => c.1 :: c.2)).flatten, by simp, ?_⟩
      have hdrop : (b, bmem) ∈ (levelChunks Q first rest).drop 1 := by
        rw [hcs]
        cases cs1 with
        | nil => simp
        | cons c0 cs1' =>
          simp only [List.cons_append, List.drop_one, List.tail_cons]
          rw [List.mem_append]
          exact Or.inr (List.mem_cons_of_mem _ (List.mem_cons_self _ _))
      exact levelChunks_starts_boundary Q rest first (b, bmem) hdrop
  · cases cs1 with
    | nil =>
      obtain ⟨memh, csh, hhead⟩ := levelChunks_head Q rest first
      rw [hcs] at hhead
      simp only [List.nil_append] at hhead
      have h1 : (start, mem) = (first, memh) := (List.cons_eq_cons.mp hhead).1
      exact Or.inl ⟨by simp, congrArg Prod.fst h1⟩
    | cons c0 cs1' =>
      have hdrop : (start, mem) ∈ (levelChunks Q first rest).drop 1 := by
        rw [hcs]
        simp only [List.cons_append, List.drop_one, List.tail_cons]
        rw [List.mem_append]
        exact Or.inr (List.mem_cons_self _ _)
      exact Or.inr (levelChunks_starts_boundary Q rest first (start, mem) hdrop)

/-- On a well-formed store of genuine digests (`Q ≥ 2`), the `getHash`
row filter at a chunk start returns exactly the chunk: here stated for
any level whose list decomposes as prefix, chunk, and suffix led by the
next boundary. -/
theorem chunkChildren_of_decomp (Q : Nat) (s : Store) (L : Nat)
    (hq : 2 ≤ Q) (hwf : StoreWF s)
    (hhash : ∀ n ∈ s, ByteString n.hash ∧ 4 ≤ n.hash.length)
    (P : List Node) (start : Node) (mem S : List Node)
    (hns : levelNodes s L = P ++ ((start :: mem) ++ S))
    (hmemnb : ∀ q ∈ mem, isBoundary Q q = false)
    (hSfact : S = [] ∨ ∃ b S2, S = b :: S2 ∧ isBoundary Q b = true) :
    chunkChildren Q s (L + 1) start.key = start :: mem := by
  have hsorted : List.Pairwise (fun x y => keyLt x.key y.key = true)
      (P ++ ((start :: mem) ++ S)) := by
    rw [← hns]
    exact levelNodes_pairwise hwf L
  rw [List.pairwise_append] at hsorted
  obtain ⟨hsortP, hsortXS, hcrossP⟩ := hsorted
  rw [List.pairwise_append] at hsortXS
  obtain ⟨hsortX, hsortS, hcrossXS⟩ := hsortXS
  -- membership in the store
  have hmemS : ∀ x ∈ P ++ ((start :: mem) ++ S), x ∈ s := by
    intro x hx
    have : x ∈ levelNodes s L := by rw [hns]; exact hx
    exact (mem_levelNodes.mp this).1
  -- the bytea test agrees with isBoundary on every row of the level
  have hbd : ∀ x ∈ P ++ ((start :: mem) ++ S),
      byteaLt x.hash (limitKey Q) = isBoundary Q x := by
    intro x hx
    exact bool_eq_of_iff (byteaLt_limitKey_iff_isBoundary Q x
      (hhash x (hmemS x hx)).1 (hhash x (hmemS x hx)).2 hq)
  -- anchor case: nothing precedes the anchor
  have hPanchor : start.key = none → P = [] := by
    intro hsk
    cases hP : P with
    | nil => rfl
    | cons p P' =>
      have hplt := hcrossP p (by rw [hP]; simp)
        start (List.mem_append.mpr (Or.inl (List.mem_cons_self _ _)))
      rw [hsk, keyLt_none_right] at hplt
      exact absurd hplt Bool.false_ne_true
  -- every node after the chunk start is greater, hence has a real key
  have hkeyLt_after : ∀ x ∈ mem ++ S, keyLt start.key x.key = true := by
    intro x hx
    rcases List.mem_append.mp hx with hxm | hxs
    · exact (List.pairwise_cons.mp hsortX).1 x hxm
    · exact hcrossXS start (List.mem_cons_self _ _) x hxs
  have hrealAfter : ∀ x ∈ mem ++ S, x.key ≠ none := by
    intro x hx he
    have hlt := hkeyLt_after x hx
    rw [he, keyLt_none_right] at hlt
    exact absurd hlt Bool.false_ne_true
  -- the next-boundary probe returns the head of the suffix
  have hnb : nextBoundary Q s L start.key = S.head? := by
    unfold nextBoundary
    rw [hns, List.filter_append, List.filter_append]
    have hfP : P.filter (fun c =>
        c.key != none && keyLt start.key c.key && byteaLt c.hash (limitKey Q)) = [] := by
      rw [List.filter_eq_nil_iff]
      intro p hp hpred
      have hpred' : (p.key != none && keyLt start.key p.key &&
          byteaLt p.hash (limitKey Q)) = true := hpred
      rw [Bool.and_eq_true, Bool.and_eq_true] at hpred'
      have hlt := hcrossP p hp start (List.mem_append.mpr (Or.inl (List.mem_cons_self _ _)))
      rw [keyLt_asymm hlt] at hpred'
      exact absurd hpred'.1.2 Bool.false_ne_true
    have hfX : (start :: mem).filter (fun c =>
        c.key != none && keyLt start.key c.key && byteaLt c.hash (limitKey Q)) = [] := by
      rw [List.filter_eq_nil_iff]
      intro q hq' hpred
      have hpred' : (q.key != none && keyLt start.key q.key &&
          byteaLt q.hash (limitKey Q)) = true := hpred
      rw [Bool.and_eq_true, Bool.and_eq_true] at hpred'
      rcases List.mem_cons.mp hq' with rfl | hq2
      · rw [keyLt_irrefl] at hpred'
        exact absurd hpred'.1.2 Bool.false_ne_true
      · have hq_in : q ∈ P ++ ((start :: mem) ++ S) :=
          List.mem_append.mpr (Or.inr (List.mem_append.mpr
            (Or.inl (List.mem_cons_of_mem _ hq2))))
        rw [hbd q hq_in, hmemnb q hq2] at hpred'
        exact absurd hpred'.2 Bool.false_ne_true
    rw [hfP, hfX]
    simp only [List.nil_append]
    rcases hSfact with hSnil | ⟨b, S2, hScons, hbbd⟩
    · rw [hSnil]
      rfl
    · rw [hScons]
      have hbS : b ∈ mem ++ S :=
        List.mem_append.mpr (Or.inr (by rw [hScons]; exact List.mem_cons_self _ _))
      have hb_in : b ∈ P ++ ((start :: mem) ++ S) := by
        refine List.mem_append.mpr (Or.inr (List.mem_append.mpr (Or.inr ?_)))
        rw [hScons]
        exact List.mem_cons_self _ _
      have hbpred : (b.key != none && keyLt start.key b.key &&
          byteaLt b.hash (limitKey Q)) = true := by
        rw [hbd b hb_in, hbbd, hkeyLt_after b hbS]
        have hbk := hrealAfter b hbS
        cases hbk2 : b.key with
        | none => exact absurd hbk2 hbk
        | some bk => simp
      have hb2 : (fun c =>
          c.key != none && keyLt start.key c.key && byteaLt c.hash (limitKey Q)) b = true :=
        hbpred
      rw [List.filter_cons, if_pos hb2]
      rfl
  -- the first filter conjunct rejects everything before the chunk
  have hcond1P : ∀ p ∈ P,
      (start.key == none || (p.key != none && keyLe start.key p.key)) = false := by
    intro p hp
    have hskne : start.key ≠ none := by
      intro hsk
      rw [hPanchor hsk] at hp
      exact absurd hp (List.not_mem_nil p)
    have hlt := hcrossP p hp start (List.mem_append.mpr (Or.inl (List.mem_cons_self _ _)))
    have h1 : keyLe start.key p.key = false := by
      unfold keyLe
      rw [keyLt_asymm hlt, Bool.false_or]
      exact beq_eq_false_iff_ne.mpr (fun he => (keyLt_ne hlt) he.symm)
    rw [h1, beq_eq_false_iff_ne.mpr hskne]
    simp
  -- and accepts the whole chunk
  have hcond1X : ∀ q ∈ start :: mem,
      (start.key == none || (q.key != none && keyLe start.key q.key)) = true := by
    intro q hq'
    rcases List.mem_cons.mp hq' with heq | hq2
    · rw [heq]
      have h1 : keyLe start.key start.key = true := by
        unfold keyLe
        rw [beq_self_eq_true, Bool.or_true]
      rw [h1, Bool.and_true]
      cases hsk : start.key with
      | none => rw [beq_self_eq_true, Bool.true_or]
      | some sk =>
        have h2 : ((some sk : NodeKey) != none) = true := bne_iff_ne.mpr (by simp)
        rw [h2, Bool.or_true]
    · have hqk := hrealAfter q (List.mem_append.mpr (Or.inl hq2))
      have hlt := (List.pairwise_cons.mp hsortX).1 q hq2
      have h1 : keyLe start.key q.key = true := by
        unfold keyLe
        rw [hlt, Bool.true_or]
      rw [h1, bne_iff_ne.mpr hqk]
      simp
  -- compute the children filter, by cases on whether a next boundary exists
  rcases hSfact with hSnil | ⟨b, S2, hScons, hbbd⟩
  · subst hSnil
    have hnb0 : nextBoundary Q s L start.key = none := hnb
    show (levelNodes s L).filter (fun c =>
        (start.key == none || (c.key != none && keyLe start.key c.key)) &&
        (c.key == none ||
          (match nextBoundary Q s L start.key with
           | some b => keyLt c.key b.key
           | none => true))) = start :: mem
    rw [hnb0]
    show (levelNodes s L).filter (fun c =>
        (start.key == none || (c.key != none && keyLe start.key c.key)) &&
        (c.key == none || true)) = start :: mem
    rw [hns, List.filter_append, List.filter_append]
    have e1 : P.filter (fun c =>
        (start.key == none || (c.key != none && keyLe start.key c.key)) &&
        (c.key == none || true)) = [] := by
      rw [List.filter_eq_nil_iff]
      intro p hp hpred
      have hpred' : ((start.key == none || (p.key != none && keyLe start.key p.key)) &&
          (p.key == none || true)) = true := hpred
      rw [Bool.and_eq_true, hcond1P p hp] at hpred'
      exact absurd hpred'.1 Bool.false_ne_true
    have e2 : (start :: mem).filter (fun c =>
        (start.key == none || (c.key != none && keyLe start.key c.key)) &&
        (c.key == none || true)) = start :: mem := by
      rw [List.filter_eq_self]
      intro q hq'
      show ((start.key == none || (q.key != none && keyLe start.key q.key)) &&
          (q.key == none || true)) = true
      rw [hcond1X q hq', Bool.or_true, Bool.and_true]
    rw [e1, e2]
    simp
  · subst hScons
    have hnb1 : nextBoundary Q s L start.key = some b := hnb
    show (levelNodes s L).filter (fun c =>
        (start.key == none || (c.key != none && keyLe start.key c.key)) &&
        (c.key == none ||
          (match nextBoundary Q s L start.key with
           | some b => keyLt c.key b.key
           | none => true))) = start :: mem
    rw [hnb1]
    show (levelNodes s L).filter (fun c =>
        (start.key == none || (c.key != none && keyLe start.key c.key)) &&
        (c.key == none || keyLt c.key b.key)) = start :: mem
    rw [hns, List.filter_append, List.filter_append]
    have e1 : P.filter (fun c =>
        (start.key == none || (c.key != none && keyLe start.key c.key)) &&
        (c.key == none || keyLt c.key b.key)) = [] := by
      rw [List.filter_eq_nil_iff]
      intro p hp hpred
      have hpred' : ((start.key == none || (p.key != none && keyLe start.key p.key)) &&
          (p.key == none || keyLt p.key b.key)) = true := hpred
      rw [Bool.and_eq_true, hcond1P p hp] at hpred'
      exact absurd hpred'.1 Bool.false_ne_true
    have e2 : (start :: mem).filter (fun c =>
        (start.key == none || (c.key != none && keyLe start.key c.key)) &&
        (c.key == none || keyLt c.key b.key)) = start :: mem := by
      rw [List.filter_eq_self]
      intro q hq'
      show ((start.key == none || (q.key != none && keyLe start.key q.key)) &&
          (q.key == none || keyLt q.key b.key)) = true
      have hqb : keyLt q.key b.key = true :=
        hcrossXS q hq' b (List.mem_cons_self _ _)
      rw [hcond1X q hq', hqb, Bool.or_true, Bool.and_true]
    have e3 : (b :: S2).filter (fun c =>
        (start.key == none || (c.key != none && keyLe start.key c.key)) &&
        (c.key == none || keyLt c.key b.key)) = [] := by
      rw [List.filter_eq_nil_iff]
      intro q hq' hpred
      have hpred' : ((start.key == none || (q.key != none && keyLe start.key q.key)) &&
          (q.key == none || keyLt q.key b.key)) = true := hpred
      rw [Bool.and_eq_true] at hpred'
      have hq2nd := hpred'.2
      have hqk : q.key ≠ none := hrealAfter q (List.mem_append.mpr (Or.inr hq'))
      rw [beq_eq_false_iff_ne.mpr hqk, Bool.false_or] at hq2nd
      rcases List.mem_cons.mp hq' with rfl | hq3
      · rw [keyLt_irrefl] at hq2nd
        exact absurd hq2nd Bool.false_ne_true
      · have hlt := (List.pairwise_cons.mp hsortS).1 q hq3
        rw [keyLt_asymm hlt] at hq2nd
        exact absurd hq2nd Bool.false_ne_true
    rw [e1, e2, e3]
    simp

/-- The `getHash` row filter for the chunk starting at a canonical chunk
start returns exactly that chunk's nodes. -/
theorem chunkChildren_eq (Q : Nat) (s : Store) (L : Nat)
    (hq : 2 ≤ Q) (hwf : StoreWF s)
    (hhash : ∀ n ∈ s, ByteString n.hash ∧ 4 ≤ n.hash.length)
    (first : Node) (rest : List Node) (hlv : levelNodes s L = first :: rest)
    (hfirst : first.key = none)
    (start : Node) (mem : List Node)
    (hmem : (start, mem) ∈ levelChunks Q first rest) :
    chunkChildren Q s (L + 1) start.key = start :: mem := by
  obtain ⟨P, S, hdec, hSfact, -⟩ := levelChunks_decomp Q first rest start mem hmem
  exact chunkChildren_of_decomp Q s L hq hwf hhash P start mem S
    (by rw [hlv, hdec]) (levelChunks_members_not_boundary Q rest first (start, mem) hmem)
    hSfact

/-- `Tree.getHash` at a canonical chunk start computes exactly the chunk
parent's hash. -/
theorem getHash_chunk (H : Bytes → Bytes) (Q : Nat) (s : Store) (L : Nat)
    (hq : 2 ≤ Q) (hwf : StoreWF s)
    (hhash : ∀ n ∈ s, ByteString n.hash ∧ 4 ≤ n.hash.length)
    (first : Node) (rest : List Node) (hlv : levelNodes s L = first :: rest)
    (hfirst : first.key = none)
    (start : Node) (mem : List Node)
    (hmem : (start, mem) ∈ levelChunks Q first rest) :
    getHash H Q s (L + 1) start.key = (chunkParent H L (start, mem)).hash := by
  unfold getHash chunkParent
  rw [chunkChildren_eq Q s L hq hwf hhash first rest hlv hfirst start mem hmem]

/-! ## Chunk structure: splitting, completeness, column chains -/

theorem levelChunks_cons_bd (Q : Nat) {n : Node} (hb : isBoundary Q n = true)
    (start : Node) (ns : List Node) :
    levelChunks Q start (n :: ns) = (start, []) :: levelChunks Q n ns := by
  rw [levelChunks.eq_def]
  show (if isBoundary Q n = true then (start, []) :: levelChunks Q n ns
        else match levelChunks Q start ns with
          | [] => []
          | (st, mem) :: cs => (st, n :: mem) :: cs) = _
  rw [if_pos hb]

theorem levelChunks_cons_nb (Q : Nat) {n : Node} (hb : isBoundary Q n = false)
    (start : Node) (ns : List Node) {mem0 : List Node} {cs0 : List (Node × List Node)}
    (h0 : levelChunks Q start ns = (start, mem0) :: cs0) :
    levelChunks Q start (n :: ns) = (start, n :: mem0) :: cs0 := by
  rw [levelChunks.eq_def]
  show (if isBoundary Q n = true then (start, []) :: levelChunks Q n ns
        else match levelChunks Q start ns with
          | [] => []
          | (st, mem) :: cs => (st, n :: mem) :: cs) = _
  rw [if_neg (show ¬(isBoundary Q n = true) by rw [hb]; exact Bool.false_ne_true), h0]

/-- Chunking is local: a boundary splits the level into two independently
chunked halves. -/
theorem levelChunks_split (Q : Nat) {b : Node} (hb : isBoundary Q b = true) :
    ∀ (rest1 : List Node) (first : Node) (rest2 : List Node),
    levelChunks Q first (rest1 ++ b :: rest2) =
      levelChunks Q first rest1 ++ levelChunks Q b rest2 := by
  intro rest1
  induction rest1 with
  | nil =>
    intro first rest2
    rw [List.nil_append, levelChunks_cons_bd Q hb]
    rfl
  | cons n rest1 ih =>
    intro first rest2
    rw [List.cons_append]
    by_cases hn : isBoundary Q n = true
    · rw [levelChunks_cons_bd Q hn, ih n rest2, levelChunks_cons_bd Q hn]
      rfl
    · have hn0 : isBoundary Q n = false := by
        cases h : isBoundary Q n
        · rfl
        · exact absurd h hn
      obtain ⟨mem0, cs0, hlc0⟩ := levelChunks_head Q rest1 first
      have hlc1 : levelChunks Q first (rest1 ++ b :: rest2) =
          (first, mem0) :: (cs0 ++ levelChunks Q b rest2) := by
        rw [ih first rest2, hlc0]
        rfl
      rw [levelChunks_cons_nb Q hn0 first _ hlc1, levelChunks_cons_nb Q hn0 first _ hlc0]
      rfl

/-- Every boundary node of a level starts a chunk. -/
theorem levelChunks_mem_of_bd (Q : Nat) {b : Node} (hb : isBoundary Q b = true)
    {ns : List Node} (hmem : b ∈ ns) (first : Node) :
    ∃ mem, (b, mem) ∈ levelChunks Q first ns := by
  obtain ⟨rest1, rest2, rfl⟩ := List.append_of_mem hmem
  rw [levelChunks_split Q hb rest1 first rest2]
  obtain ⟨mem, cs, hlc⟩ := levelChunks_head Q rest2 b
  exact ⟨mem, List.mem_append.mpr (Or.inr (by rw [hlc]; exact List.mem_cons_self _ _))⟩

/-- Every keyed node of a chunked-up level sits above a boundary node with
the same key in the level below (columns are boundary chains). -/
theorem nextLevel_col_chain (H : Bytes → Bytes) (Q lvl : Nat) (a : Node)
    (rest : List Node) (hak : a.key = none)
    (c : Node) (hc : c ∈ nextLevelNodes H Q lvl (a :: rest)) (hk : c.key ≠ none) :
    ∃ c', c' ∈ a :: rest ∧ c'.key = c.key ∧ isBoundary Q c' = true := by
  rw [nextLevelNodes_cons] at hc
  obtain ⟨⟨st, mem⟩, hch, rfl⟩ := List.mem_map.mp hc
  obtain ⟨memh, csh, hhead⟩ := levelChunks_head Q rest a
  have hch2 : (st, mem) ∈ (a, memh) :: csh := by rw [← hhead]; exact hch
  rcases List.mem_cons.mp hch2 with heq | htl
  · have hsta : st = a := congrArg Prod.fst heq
    exact absurd (show (chunkParent H lvl (st, mem)).key = none by
      show st.key = none
      rw [hsta, hak]) hk
  · have hbd : isBoundary Q st = true := by
      have hd : (st, mem) ∈ (levelChunks Q a rest).drop 1 := by
        rw [hhead]
        exact htl
      exact levelChunks_starts_boundary Q rest a (st, mem) hd
    have hstmem : st ∈ a :: rest := by
      have hfl := levelChunks_flatten Q rest a
      rw [← hfl]
      refine List.mem_flatten.mpr ⟨st :: mem, ?_, List.mem_cons_self _ _⟩
      exact List.mem_map.mpr ⟨(st, mem), hch, rfl⟩
    exact ⟨st, hstmem, rfl, hbd⟩

/-- Every keyed node of a canonical level sits above a boundary node with
the same key one level below. -/
theorem canonLevel_col_chain (H : Bytes → Bytes) (Q : Nat) (m : List (Bytes × Bytes))
    (L : Nat) (c : Node) (hc : c ∈ canonLevel H Q m (L + 1)) (hk : c.key ≠ none) :
    ∃ c', c' ∈ canonLevel H Q m L ∧ c'.key = c.key ∧ isBoundary Q c' = true := by
  obtain ⟨a, rest, hlv, hak⟩ := canonLevel_head_anchor H Q m L
  rw [canonLevel_succ, hlv] at hc
  obtain ⟨c', hc', hk', hbd'⟩ := nextLevel_col_chain H Q L a rest hak c hc hk
  exact ⟨c', by rw [hlv]; exact hc', hk', hbd'⟩

/-! ## The canonical top: the first keyed-free level -/

/-- A level with no keyed node (only the anchor remains). -/
def KeyedFree (H : Bytes → Bytes) (Q : Nat) (m : List (Bytes × Bytes)) (l : Nat) : Prop :=
  ∀ c ∈ canonLevel H Q m l, c.key = none

theorem KeyedFree_succ (H : Bytes → Bytes) (Q : Nat) (m : List (Bytes × Bytes)) (l : Nat)
    (hkf : KeyedFree H Q m l) : KeyedFree H Q m (l + 1) := by
  intro c hc
  by_contra hk
  obtain ⟨c', hc', hck, -⟩ := canonLevel_col_chain H Q m l c hc hk
  rw [hkf c' hc'] at hck
  exact hk hck.symm

theorem KeyedFree_mono (H : Bytes → Bytes) (Q : Nat) (m : List (Bytes × Bytes))
    {l l' : Nat} (h : l ≤ l') (hkf : KeyedFree H Q m l) : KeyedFree H Q m l' := by
  induction h with
  | refl => exact hkf
  | step h ih => exact KeyedFree_succ H Q m _ ih

/-- Keyed-free means the level is the anchor alone. -/
theorem keyedFree_iff_len (H : Bytes → Bytes) (Q : Nat) (m : List (Bytes × Bytes))
    (hm : EntriesWF m) (l : Nat) :
    KeyedFree H Q m l ↔ (canonLevel H Q m l).length = 1 := by
  obtain ⟨a, rest, hlv, hak⟩ := canonLevel_head_anchor H Q m l
  constructor
  · intro hkf
    cases rest with
    | nil => rw [hlv]; rfl
    | cons b rest2 =>
      have hb := hkf b (by rw [hlv]; exact List.mem_cons_of_mem _ (List.mem_cons_self _ _))
      have hpw := canonLevel_pairwise H Q m hm l
      rw [hlv] at hpw
      have hlt := (List.pairwise_cons.mp hpw).1 b (List.mem_cons_self _ _)
      rw [hak, hb] at hlt
      exact absurd hlt (by simp [keyLt])
  · intro hlen c hc
    rw [hlv] at hlen hc
    cases rest with
    | nil =>
      rcases List.mem_cons.mp hc with rfl | hc2
      · exact hak
      · exact absurd hc2 (List.not_mem_nil c)
    | cons b rest2 => simp at hlen

/-- The canonical top for a mutated tree: the lowest keyed-free level at
or above 1. -/
def CTop (H : Bytes → Bytes) (Q : Nat) (m : List (Bytes × Bytes)) (T : Nat) : Prop :=
  1 ≤ T ∧ KeyedFree H Q m T ∧ ∀ l, 1 ≤ l → l < T → ¬ KeyedFree H Q m l

theorem CTop_unique (H : Bytes → Bytes) (Q : Nat) (m : List (Bytes × Bytes)) {T T' : Nat}
    (h1 : CTop H Q m T) (h2 : CTop H Q m T') : T = T' := by
  by_contra hne
  rcases Nat.lt_or_ge T T' with h | h
  · exact h2.2.2 T h1.1 h h1.2.1
  · exact h1.2.2 T' h2.1 (Nat.lt_of_le_of_ne h (Ne.symm hne)) h2.2.1

theorem CTop_topOK (H : Bytes → Bytes) (Q : Nat) (m : List (Bytes × Bytes))
    (hm : EntriesWF m) {T : Nat} (h : CTop H Q m T) : TopOK H Q m T := by
  constructor
  · intro L h1 hLT
    have hnk := h.2.2 L h1 hLT
    have hne := canonLevel_ne_nil H Q m L
    have hlen1 : (canonLevel H Q m L).length ≠ 1 :=
      fun hl => hnk ((keyedFree_iff_len H Q m hm L).mpr hl)
    have hlen0 : (canonLevel H Q m L).length ≠ 0 := by
      intro h0
      exact hne (List.length_eq_zero.mp h0)
    omega
  · exact (keyedFree_iff_len H Q m hm T).mp h.2.1

/-! ## Order helpers on keys -/

theorem keyLe_refl (a : NodeKey) : keyLe a a = true := by
  unfold keyLe
  rw [beq_self_eq_true, Bool.or_true]

theorem keyLe_of_lt {a b : NodeKey} (h : keyLt a b = true) : keyLe a b = true := by
  unfold keyLe
  rw [h, Bool.true_or]

theorem keyLe_none_left (a : NodeKey) : keyLe none a = true := by
  cases a with
  | none => exact keyLe_refl none
  | some x => exact keyLe_of_lt rfl

theorem keyLt_of_le_of_lt {a b c : NodeKey} (hab : keyLe a b = true)
    (hbc : keyLt b c = true) : keyLt a c = true := by
  unfold keyLe at hab
  rcases Bool.or_eq_true_iff.mp hab with h | h
  · exact keyLt_trans h hbc
  · rw [beq_iff_eq.mp h]
    exact hbc

theorem keyLt_of_lt_of_le {a b c : NodeKey} (hab : keyLt a b = true)
    (hbc : keyLe b c = true) : keyLt a c = true := by
  unfold keyLe at hbc
  rcases Bool.or_eq_true_iff.mp hbc with h | h
  · exact keyLt_trans hab h
  · rw [← beq_iff_eq.mp h]
    exact hab

theorem keyLe_trans {a b c : NodeKey} (hab : keyLe a b = true)
    (hbc : keyLe b c = true) : keyLe a c = true := by
  unfold keyLe at hab
  rcases Bool.or_eq_true_iff.mp hab with h | h
  · exact keyLe_of_lt (keyLt_of_lt_of_le h hbc)
  · rw [beq_iff_eq.mp h]
    exact hbc

theorem keyLe_eq_false_of_lt {a b : NodeKey} (h : keyLt a b = true) :
    keyLe b a = false := by
  unfold keyLe
  rw [keyLt_asymm h, Bool.false_or]
  exact beq_eq_false_iff_ne.mpr (fun he => keyLt_ne h he.symm)

theorem keyLt_eq_false_of_le {a b : NodeKey} (h : keyLe a b = true) :
    keyLt b a = false := by
  unfold keyLe at h
  rcases Bool.or_eq_true_iff.mp h with h' | h'
  · exact keyLt_asymm h'
  · rw [beq_iff_eq.mp h']
    exact keyLt_irrefl b

theorem keyLt_of_not_le {a b : NodeKey} (h : keyLe a b = false) :
    keyLt b a = true := by
  unfold keyLe at h
  rw [Bool.or_eq_false_iff] at h
  have hne : a ≠ b := fun he => by
    rw [beq_iff_eq.mpr he] at h
    exact Bool.false_ne_true h.2.symm
  rcases keyLt_total hne with h' | h'
  · rw [h.1] at h'
    exact absurd h' Bool.false_ne_true
  · exact h'

/-- A key-sorted level splits into the prefix at or below a key and the
suffix strictly above it. -/
theorem sorted_split_le (κ : NodeKey) : ∀ (ns : List Node),
    List.Pairwise (fun x y => keyLt x.key y.key = true) ns →
    ns = ns.filter (fun c => keyLe c.key κ) ++ ns.filter (fun c => keyLt κ c.key) := by
  intro ns
  induction ns with
  | nil => intro _; rfl
  | cons n ns ih =>
    intro hpw
    obtain ⟨hn, hpw'⟩ := List.pairwise_cons.mp hpw
    by_cases h : keyLe n.key κ = true
    · have hneg2 : ¬((fun c => keyLt κ c.key) n = true) := by
        intro hq
        have hq' : keyLt κ n.key = true := hq
        rw [keyLt_eq_false_of_le h] at hq'
        exact Bool.false_ne_true hq'
      rw [List.filter_cons, List.filter_cons,
        if_pos (show ((fun c => keyLe c.key κ) n) = true from h), if_neg hneg2]
      rw [List.cons_append, ← ih hpw']
    · have hfalse : keyLe n.key κ = false := by
        cases hh : keyLe n.key κ
        · rfl
        · exact absurd hh h
      have hgt : keyLt κ n.key = true := keyLt_of_not_le hfalse
      have hneg1 : ¬((fun c => keyLe c.key κ) n = true) := by
        intro hq
        have hq' : keyLe n.key κ = true := hq
        rw [hfalse] at hq'
        exact Bool.false_ne_true hq'
      rw [List.filter_cons, List.filter_cons, if_neg hneg1,
        if_pos (show ((fun c => keyLt κ c.key) n) = true from hgt)]
      have hle_nil : ns.filter (fun c => keyLe c.key κ) = [] := by
        rw [List.filter_eq_nil_iff]
        intro x hx hpred
        have hlt := hn x hx
        have : keyLt κ x.key = true := keyLt_trans hgt hlt
        rw [keyLe_eq_false_of_lt this] at hpred
        exact Bool.false_ne_true hpred
      have hgt_all : ns.filter (fun c => keyLt κ c.key) = ns := by
        rw [List.filter_eq_self]
        intro x hx
        exact keyLt_trans hgt (hn x hx)
      rw [hle_nil, hgt_all, List.nil_append]

/-! ## Towers agree above the touched key -/

theorem levelChunks_start_mem (Q : Nat) {ns : List Node} {start st : Node} {mem : List Node}
    (hch : (st, mem) ∈ levelChunks Q start ns) : st ∈ start :: ns := by
  have hfl := levelChunks_flatten Q ns start
  rw [← hfl]
  refine List.mem_flatten.mpr ⟨st :: mem, ?_, List.mem_cons_self _ _⟩
  exact List.mem_map.mpr ⟨(st, mem), hch, rfl⟩

theorem levelChunks_mem_mem (Q : Nat) {ns : List Node} {start st : Node} {mem : List Node}
    (hch : (st, mem) ∈ levelChunks Q start ns) : ∀ x ∈ mem, x ∈ start :: ns := by
  intro x hx
  have hfl := levelChunks_flatten Q ns start
  rw [← hfl]
  refine List.mem_flatten.mpr ⟨st :: mem, ?_, List.mem_cons_of_mem _ hx⟩
  exact List.mem_map.mpr ⟨(st, mem), hch, rfl⟩

/-- The parents contributed by the part of a level from its first boundary
at or after a cut point. -/
def tailParents (H : Bytes → Bytes) (Q lvl : Nat) (S : List Node) : List Node :=
  match S.dropWhile (fun c => !(isBoundary Q c)) with
  | [] => []
  | b :: tl => (levelChunks Q b tl).map (chunkParent H lvl)

theorem tailParents_cons_bd (H : Bytes → Bytes) (Q lvl : Nat) {n : Node}
    (hb : isBoundary Q n = true) (tl : List Node) :
    tailParents H Q lvl (n :: tl) = (levelChunks Q n tl).map (chunkParent H lvl) := by
  unfold tailParents
  rw [List.dropWhile_cons, if_neg (show ¬((fun c => !(isBoundary Q c)) n = true) by
    intro hq
    have hq' : (!(isBoundary Q n)) = true := hq
    rw [hb] at hq'
    exact Bool.false_ne_true hq')]

theorem tailParents_cons_nb (H : Bytes → Bytes) (Q lvl : Nat) {n : Node}
    (hb : isBoundary Q n = false) (tl : List Node) :
    tailParents H Q lvl (n :: tl) = tailParents H Q lvl tl := by
  unfold tailParents
  rw [List.dropWhile_cons, if_pos (show ((fun c => !(isBoundary Q c)) n = true) by
    have : (!(isBoundary Q n)) = true := by rw [hb]; rfl
    exact this)]

/-- The parents of a level strictly above a cut point not exceeded by the
start node are exactly the tail parents of the level's strict suffix. -/
theorem parents_filter_above (H : Bytes → Bytes) (Q lvl : Nat) (κ : NodeKey) :
    ∀ (r : List Node) (a : Node),
    List.Pairwise (fun x y => keyLt x.key y.key = true) (a :: r) →
    keyLt κ a.key = false →
    ((levelChunks Q a r).map (chunkParent H lvl)).filter (fun c => keyLt κ c.key) =
      tailParents H Q lvl (r.filter (fun c => keyLt κ c.key)) := by
  intro r
  induction r with
  | nil =>
    intro a _ ha
    have hneg : ¬((fun c => keyLt κ c.key) (chunkParent H lvl (a, [])) = true) := by
      intro hq
      have hq' : keyLt κ a.key = true := hq
      rw [ha] at hq'
      exact Bool.false_ne_true hq'
    show List.filter (fun c => keyLt κ c.key) [chunkParent H lvl (a, [])] =
      tailParents H Q lvl (List.filter (fun c => keyLt κ c.key) [])
    rw [List.filter_cons, if_neg hneg]
    rfl
  | cons n r ih =>
    intro a hpw ha
    obtain ⟨hn, hpw'⟩ := List.pairwise_cons.mp hpw
    have hnegA : ∀ (mm : List Node),
        ¬((fun c => keyLt κ c.key) (chunkParent H lvl (a, mm)) = true) := by
      intro mm hq
      have hq' : keyLt κ a.key = true := hq
      rw [ha] at hq'
      exact Bool.false_ne_true hq'
    have hn2 : ∀ x ∈ r, keyLt n.key x.key = true := (List.pairwise_cons.mp hpw').1
    by_cases hb : isBoundary Q n = true
    · by_cases hgt : keyLt κ n.key = true
      · have hfilr : r.filter (fun c => keyLt κ c.key) = r := by
          rw [List.filter_eq_self]
          intro x hx
          exact keyLt_trans hgt (hn2 x hx)
        have hfil : (n :: r).filter (fun c => keyLt κ c.key) = n :: r := by
          rw [List.filter_cons, if_pos (show ((fun c => keyLt κ c.key) n) = true from hgt),
            hfilr]
        rw [levelChunks_cons_bd Q hb, hfil, tailParents_cons_bd H Q lvl hb]
        show List.filter (fun c => keyLt κ c.key)
            (chunkParent H lvl (a, []) :: (levelChunks Q n r).map (chunkParent H lvl)) = _
        rw [List.filter_cons, if_neg (hnegA [])]
        rw [List.filter_eq_self]
        intro x hx
        obtain ⟨⟨st, mem⟩, hch, rfl⟩ := List.mem_map.mp hx
        show keyLt κ st.key = true
        rcases List.mem_cons.mp (levelChunks_start_mem Q hch) with heq | hst
        · rw [heq]
          exact hgt
        · exact keyLt_trans hgt (hn2 st hst)
      · have hgt0 : keyLt κ n.key = false := by
          cases hh : keyLt κ n.key
          · rfl
          · exact absurd hh hgt
        have hfil : (n :: r).filter (fun c => keyLt κ c.key) = r.filter (fun c => keyLt κ c.key) := by
          rw [List.filter_cons, if_neg (show ¬((fun c => keyLt κ c.key) n = true) by
            intro hq
            have hq' : keyLt κ n.key = true := hq
            rw [hgt0] at hq'
            exact Bool.false_ne_true hq')]
        rw [levelChunks_cons_bd Q hb, hfil]
        show List.filter (fun c => keyLt κ c.key)
            (chunkParent H lvl (a, []) :: (levelChunks Q n r).map (chunkParent H lvl)) = _
        rw [List.filter_cons, if_neg (hnegA [])]
        exact ih n hpw' hgt0
    · have hb0 : isBoundary Q n = false := by
        cases hh : isBoundary Q n
        · rfl
        · exact absurd hh hb
      obtain ⟨mem0, cs0, hlc0⟩ := levelChunks_head Q r a
      have hpw2 : List.Pairwise (fun x y => keyLt x.key y.key = true) (a :: r) :=
        List.pairwise_cons.mpr
          ⟨fun x hx => hn x (List.mem_cons_of_mem _ hx), (List.pairwise_cons.mp hpw').2⟩
      have iha := ih a hpw2 ha
      rw [hlc0, List.map_cons, List.filter_cons, if_neg (hnegA mem0)] at iha
      rw [levelChunks_cons_nb Q hb0 a r hlc0]
      show List.filter (fun c => keyLt κ c.key)
          (chunkParent H lvl (a, n :: mem0) :: cs0.map (chunkParent H lvl)) = _
      rw [List.filter_cons, if_neg (hnegA (n :: mem0))]
      by_cases hgt : keyLt κ n.key = true
      · have hfil : (n :: r).filter (fun c => keyLt κ c.key) =
            n :: r.filter (fun c => keyLt κ c.key) := by
          rw [List.filter_cons, if_pos (show ((fun c => keyLt κ c.key) n) = true from hgt)]
        rw [hfil, tailParents_cons_nb H Q lvl hb0]
        exact iha
      · have hgt0 : keyLt κ n.key = false := by
          cases hh : keyLt κ n.key
          · rfl
          · exact absurd hh hgt
        have hfil : (n :: r).filter (fun c => keyLt κ c.key) =
            r.filter (fun c => keyLt κ c.key) := by
          rw [List.filter_cons, if_neg (show ¬((fun c => keyLt κ c.key) n = true) by
            intro hq
            have hq' : keyLt κ n.key = true := hq
            rw [hgt0] at hq'
            exact Bool.false_ne_true hq')]
        rw [hfil]
        exact iha

/-- If two levels agree strictly above a cut, so do their parent levels. -/
theorem nextLevel_agree_above (H : Bytes → Bytes) (Q lvl : Nat) (κ : NodeKey)
    {a a' : Node} {rX rY : List Node}
    (hpwX : List.Pairwise (fun x y => keyLt x.key y.key = true) (a :: rX))
    (hpwY : List.Pairwise (fun x y => keyLt x.key y.key = true) (a' :: rY))
    (haX : a.key = none) (haY : a'.key = none)
    (hagree : (a :: rX).filter (fun c => keyLt κ c.key) =
      (a' :: rY).filter (fun c => keyLt κ c.key)) :
    (nextLevelNodes H Q lvl (a :: rX)).filter (fun c => keyLt κ c.key) =
      (nextLevelNodes H Q lvl (a' :: rY)).filter (fun c => keyLt κ c.key) := by
  have hdropX : ¬((fun c => keyLt κ c.key) a = true) := by
    intro hq
    have hq' : keyLt κ a.key = true := hq
    rw [haX, keyLt_none_right] at hq'
    exact Bool.false_ne_true hq'
  have hdropY : ¬((fun c => keyLt κ c.key) a' = true) := by
    intro hq
    have hq' : keyLt κ a'.key = true := hq
    rw [haY, keyLt_none_right] at hq'
    exact Bool.false_ne_true hq'
  rw [List.filter_cons, if_neg hdropX, List.filter_cons, if_neg hdropY] at hagree
  rw [nextLevelNodes_cons, nextLevelNodes_cons,
    parents_filter_above H Q lvl κ rX a hpwX (by rw [haX]; exact keyLt_none_right κ),
    parents_filter_above H Q lvl κ rY a' hpwY (by rw [haY]; exact keyLt_none_right κ),
    hagree]

/-- Canonical towers of two maps agreeing strictly above a cut agree there
at every level. -/
theorem canonLevel_agree_above (H : Bytes → Bytes) (Q : Nat)
    (m m' : List (Bytes × Bytes)) (hm : EntriesWF m) (hm' : EntriesWF m') (κ : NodeKey)
    (h0 : (canonLevel H Q m 0).filter (fun c => keyLt κ c.key) =
      (canonLevel H Q m' 0).filter (fun c => keyLt κ c.key)) :
    ∀ l, (canonLevel H Q m l).filter (fun c => keyLt κ c.key) =
      (canonLevel H Q m' l).filter (fun c => keyLt κ c.key) := by
  intro l
  induction l with
  | zero => exact h0
  | succ l ih =>
    obtain ⟨a, rX, hX, haX⟩ := canonLevel_head_anchor H Q m l
    obtain ⟨a', rY, hY, haY⟩ := canonLevel_head_anchor H Q m' l
    rw [canonLevel_succ, canonLevel_succ, hX, hY]
    apply nextLevel_agree_above H Q l κ
      (by rw [← hX]; exact canonLevel_pairwise H Q m hm l)
      (by rw [← hY]; exact canonLevel_pairwise H Q m' hm' l)
      haX haY
    rw [← hX, ← hY]
    exact ih

/-! ## Entry-map mutations and their leaf-level effect -/

/-- Sorted upsert on the entry map. -/
def entriesUpsert : List (Bytes × Bytes) → Bytes → Bytes → List (Bytes × Bytes)
  | [], k, v => [(k, v)]
  | (k0, v0) :: rest, k, v =>
    if k0 == k then (k, v) :: rest
    else if byteaLt k k0 then (k, v) :: (k0, v0) :: rest
    else (k0, v0) :: entriesUpsert rest k v

/-- Removal from the entry map. -/
def entriesRemove (m : List (Bytes × Bytes)) (k : Bytes) : List (Bytes × Bytes) :=
  m.filter (fun kv => !(kv.1 == k))

/-- Sorted upsert into one level's node list splits around the key. -/
theorem keyUpsert_sorted (n : Node) : ∀ (ns : List Node),
    List.Pairwise (fun x y => keyLt x.key y.key = true) ns →
    keyUpsert ns n = ns.filter (fun c => keyLt c.key n.key) ++
      n :: ns.filter (fun c => keyLt n.key c.key) := by
  intro ns
  induction ns with
  | nil => intro _; rfl
  | cons x rest ih =>
    intro hpw
    obtain ⟨hx, hpw'⟩ := List.pairwise_cons.mp hpw
    by_cases heq : x.key = n.key
    · rw [keyUpsert_cons_eq heq]
      have hf1 : (x :: rest).filter (fun c => keyLt c.key n.key) = [] := by
        rw [List.filter_eq_nil_iff]
        intro c hc hpred
        have hpred' : keyLt c.key n.key = true := hpred
        rcases List.mem_cons.mp hc with rfl | hc2
        · rw [heq, keyLt_irrefl] at hpred'
          exact Bool.false_ne_true hpred'
        · have := hx c hc2
          rw [heq] at this
          rw [keyLt_asymm this] at hpred'
          exact Bool.false_ne_true hpred'
      have hf2 : (x :: rest).filter (fun c => keyLt n.key c.key) = rest := by
        rw [List.filter_cons, if_neg (show ¬((fun c => keyLt n.key c.key) x = true) by
          intro hq
          have hq' : keyLt n.key x.key = true := hq
          rw [heq, keyLt_irrefl] at hq'
          exact Bool.false_ne_true hq')]
        rw [List.filter_eq_self]
        intro c hc
        have := hx c hc
        rw [heq] at this
        exact this
      rw [hf1, hf2, List.nil_append]
    · rcases keyLt_total heq with hlt | hgt
      · -- x.key < n.key: keep head, recurse
        rw [keyUpsert_cons_gt hlt]
        have hf1 : (x :: rest).filter (fun c => keyLt c.key n.key) =
            x :: rest.filter (fun c => keyLt c.key n.key) := by
          rw [List.filter_cons, if_pos (show ((fun c => keyLt c.key n.key) x) = true from hlt)]
        have hf2 : (x :: rest).filter (fun c => keyLt n.key c.key) =
            rest.filter (fun c => keyLt n.key c.key) := by
          rw [List.filter_cons, if_neg (show ¬((fun c => keyLt n.key c.key) x = true) by
            intro hq
            have hq' : keyLt n.key x.key = true := hq
            rw [keyLt_asymm hlt] at hq'
            exact Bool.false_ne_true hq')]
        rw [hf1, hf2, ih hpw', List.cons_append]
      · -- n.key < x.key: insert before
        rw [keyUpsert_cons_lt hgt]
        have hf1 : (x :: rest).filter (fun c => keyLt c.key n.key) = [] := by
          rw [List.filter_eq_nil_iff]
          intro c hc hpred
          have hpred' : keyLt c.key n.key = true := hpred
          rcases List.mem_cons.mp hc with rfl | hc2
          · rw [keyLt_asymm hgt] at hpred'
            exact Bool.false_ne_true hpred'
          · have := keyLt_trans hgt (hx c hc2)
            rw [keyLt_asymm this] at hpred'
            exact Bool.false_ne_true hpred'
        have hf2 : (x :: rest).filter (fun c => keyLt n.key c.key) = x :: rest := by
          rw [List.filter_eq_self]
          intro c hc
          rcases List.mem_cons.mp hc with rfl | hc2
          · exact hgt
          · exact keyLt_trans hgt (hx c hc2)
        rw [hf1, hf2, List.nil_append]

/-- Deletion from one level's node list splits around the key. -/
theorem keyDelete_sorted (κ : NodeKey) : ∀ (ns : List Node),
    List.Pairwise (fun x y => keyLt x.key y.key = true) ns →
    keyDelete ns κ = ns.filter (fun c => keyLt c.key κ) ++
      ns.filter (fun c => keyLt κ c.key) := by
  intro ns
  induction ns with
  | nil => intro _; rfl
  | cons x rest ih =>
    intro hpw
    obtain ⟨hx, hpw'⟩ := List.pairwise_cons.mp hpw
    by_cases heq : x.key = κ
    · have hdel : keyDelete (x :: rest) κ = keyDelete rest κ := by
        unfold keyDelete
        rw [List.filter_cons, if_neg (show ¬((fun n => !(n.key == κ)) x = true) by
          intro hq
          have hq' : (!(x.key == κ)) = true := hq
          rw [beq_iff_eq.mpr heq] at hq'
          exact Bool.false_ne_true hq')]
      have hf1 : (x :: rest).filter (fun c => keyLt c.key κ) =
          rest.filter (fun c => keyLt c.key κ) := by
        rw [List.filter_cons, if_neg (show ¬((fun c => keyLt c.key κ) x = true) by
          intro hq
          have hq' : keyLt x.key κ = true := hq
          rw [heq, keyLt_irrefl] at hq'
          exact Bool.false_ne_true hq')]
      have hf2 : (x :: rest).filter (fun c => keyLt κ c.key) =
          rest.filter (fun c => keyLt κ c.key) := by
        rw [List.filter_cons, if_neg (show ¬((fun c => keyLt κ c.key) x = true) by
          intro hq
          have hq' : keyLt κ x.key = true := hq
          rw [heq, keyLt_irrefl] at hq'
          exact Bool.false_ne_true hq')]
      rw [hdel, hf1, hf2, ih hpw']
    · have hkeep : keyDelete (x :: rest) κ = x :: keyDelete rest κ := by
        unfold keyDelete
        rw [List.filter_cons, if_pos (show ((fun n => !(n.key == κ)) x) = true by
          have : (x.key == κ) = false := beq_eq_false_iff_ne.mpr heq
          show (!(x.key == κ)) = true
          rw [this]
          rfl)]
      rcases keyLt_total heq with hlt | hgt
      · have hf1 : (x :: rest).filter (fun c => keyLt c.key κ) =
            x :: rest.filter (fun c => keyLt c.key κ) := by
          rw [List.filter_cons, if_pos (show ((fun c => keyLt c.key κ) x) = true from hlt)]
        have hf2 : (x :: rest).filter (fun c => keyLt κ c.key) =
            rest.filter (fun c => keyLt κ c.key) := by
          rw [List.filter_cons, if_neg (show ¬((fun c => keyLt κ c.key) x = true) by
            intro hq
            have hq' : keyLt κ x.key = true := hq
            rw [keyLt_asymm hlt] at hq'
            exact Bool.false_ne_true hq')]
        rw [hkeep, hf1, hf2, ih hpw', List.cons_append]
      · have hf1 : (x :: rest).filter (fun c => keyLt c.key κ) = [] := by
          rw [List.filter_eq_nil_iff]
          intro c hc hpred
          have hpred' : keyLt c.key κ = true := hpred
          rcases List.mem_cons.mp hc with rfl | hc2
          · rw [keyLt_asymm hgt] at hpred'
            exact Bool.false_ne_true hpred'
          · have := keyLt_trans hgt (hx c hc2)
            rw [keyLt_asymm this] at hpred'
            exact Bool.false_ne_true hpred'
        have hf2 : (x :: rest).filter (fun c => keyLt κ c.key) = x :: rest := by
          rw [List.filter_eq_self]
          intro c hc
          rcases List.mem_cons.mp hc with rfl | hc2
          · exact hgt
          · exact keyLt_trans hgt (hx c hc2)
        have hrest : keyDelete rest κ = rest := by
          unfold keyDelete
          rw [List.filter_eq_self]
          intro c hc
          have hlt := keyLt_trans hgt (hx c hc)
          have : (c.key == κ) = false := beq_eq_false_iff_ne.mpr (fun he => keyLt_ne hlt he.symm)
          show (!(c.key == κ)) = true
          rw [this]
          rfl
        rw [hkeep, hf1, hf2, hrest, List.nil_append]

/-- Every entry of an upserted map is the new entry or an original one. -/
theorem entriesUpsert_mem (k v : Bytes) : ∀ (m : List (Bytes × Bytes)),
    ∀ x ∈ entriesUpsert m k v, x.1 = k ∨ x ∈ m := by
  intro m
  induction m with
  | nil =>
    intro x hx
    rcases List.mem_cons.mp hx with rfl | hx2
    · exact Or.inl rfl
    · exact absurd hx2 (List.not_mem_nil x)
  | cons kv1 rest1 ih1 =>
    intro x hx
    obtain ⟨k1, v1⟩ := kv1
    rw [show entriesUpsert ((k1, v1) :: rest1) k v = (if k1 == k then (k, v) :: rest1
      else if byteaLt k k1 then (k, v) :: (k1, v1) :: rest1
      else (k1, v1) :: entriesUpsert rest1 k v) from rfl] at hx
    by_cases h1 : (k1 == k) = true
    · rw [if_pos h1] at hx
      rcases List.mem_cons.mp hx with rfl | hx2
      · exact Or.inl rfl
      · exact Or.inr (List.mem_cons_of_mem _ hx2)
    · rw [if_neg h1] at hx
      by_cases h2 : byteaLt k k1 = true
      · rw [if_pos h2] at hx
        rcases List.mem_cons.mp hx with rfl | hx2
        · exact Or.inl rfl
        · exact Or.inr hx2
      · rw [if_neg h2] at hx
        rcases List.mem_cons.mp hx with rfl | hx2
        · exact Or.inr (List.mem_cons_self _ _)
        · rcases ih1 x hx2 with h | h
          · exact Or.inl h
          · exact Or.inr (List.mem_cons_of_mem _ h)

/-- Upserting an entry keeps the map sorted. -/
theorem entriesUpsert_wf (k v : Bytes) : ∀ (m : List (Bytes × Bytes)), EntriesWF m →
    EntriesWF (entriesUpsert m k v) := by
  intro m
  induction m with
  | nil =>
    intro _
    unfold EntriesWF
    exact List.pairwise_singleton _ _
  | cons kv0 rest ih =>
    intro hpw
    obtain ⟨k0, v0⟩ := kv0
    obtain ⟨h0, hpw'⟩ := List.pairwise_cons.mp hpw
    show EntriesWF (if k0 == k then (k, v) :: rest
      else if byteaLt k k0 then (k, v) :: (k0, v0) :: rest
      else (k0, v0) :: entriesUpsert rest k v)
    by_cases heq : k0 = k
    · rw [if_pos (beq_iff_eq.mpr heq)]
      unfold EntriesWF
      rw [List.pairwise_cons]
      refine ⟨fun b hb => ?_, hpw'⟩
      have := h0 b hb
      rw [heq] at this
      exact this
    · rw [if_neg (by rw [beq_eq_false_iff_ne.mpr heq]; exact Bool.false_ne_true)]
      by_cases hlt : byteaLt k k0 = true
      · rw [if_pos hlt]
        unfold EntriesWF
        rw [List.pairwise_cons]
        refine ⟨fun b hb => ?_, hpw⟩
        rcases List.mem_cons.mp hb with rfl | hb2
        · exact hlt
        · exact byteaLt_trans hlt (h0 b hb2)
      · rw [if_neg hlt]
        have hgt : byteaLt k0 k = true := by
          rcases byteaLt_total (show k0 ≠ k from heq) with h | h
          · exact h
          · exact absurd h hlt
        unfold EntriesWF
        rw [List.pairwise_cons]
        refine ⟨?_, ih hpw'⟩
        intro b hb
        rcases entriesUpsert_mem k v rest b hb with h | h
        · rw [h]
          exact hgt
        · exact h0 b h

/-- Removing an entry keeps the map sorted. -/
theorem entriesRemove_wf (m : List (Bytes × Bytes)) (k : Bytes) (hm : EntriesWF m) :
    EntriesWF (entriesRemove m k) :=
  List.Pairwise.filter _ hm

/-- The leaf node of one entry. -/
def leafOf (H : Bytes → Bytes) (kv : Bytes × Bytes) : Node :=
  ⟨0, some kv.1, hashEntry H kv.1 kv.2, some kv.2⟩

theorem leafNodes_eq_map (H : Bytes → Bytes) (m : List (Bytes × Bytes)) :
    leafNodes H m = ⟨0, none, leafAnchorHash H, none⟩ :: m.map (leafOf H) := rfl

/-- Upserting an entry acts on the leaf level as a sorted key-upsert of
the new leaf node. -/
theorem leafNodes_upsert (H : Bytes → Bytes) (k v : Bytes) : ∀ (m : List (Bytes × Bytes)),
    leafNodes H (entriesUpsert m k v) =
      keyUpsert (leafNodes H m) (leafOf H (k, v)) := by
  have hmap : ∀ (m : List (Bytes × Bytes)),
      (entriesUpsert m k v).map (leafOf H) =
        keyUpsert (m.map (leafOf H)) (leafOf H (k, v)) := by
    intro m
    induction m with
    | nil => rfl
    | cons kv0 rest ih =>
      obtain ⟨k0, v0⟩ := kv0
      show ((if k0 == k then (k, v) :: rest
        else if byteaLt k k0 then (k, v) :: (k0, v0) :: rest
        else (k0, v0) :: entriesUpsert rest k v)).map (leafOf H) = _
      rw [List.map_cons]
      by_cases heq : k0 = k
      · rw [if_pos (beq_iff_eq.mpr heq)]
        rw [keyUpsert_cons_eq (show (leafOf H (k0, v0)).key = (leafOf H (k, v)).key by
          show some k0 = some k
          rw [heq])]
        rfl
      · rw [if_neg (by rw [beq_eq_false_iff_ne.mpr heq]; exact Bool.false_ne_true)]
        by_cases hlt : byteaLt k k0 = true
        · rw [if_pos hlt]
          rw [keyUpsert_cons_lt
            (show keyLt (leafOf H (k, v)).key (leafOf H (k0, v0)).key = true from hlt)]
          rfl
        · rw [if_neg hlt]
          rw [keyUpsert_cons_gt
            (show keyLt (leafOf H (k0, v0)).key (leafOf H (k, v)).key = true by
              show byteaLt k0 k = true
              rcases byteaLt_total (show k0 ≠ k from heq) with h | h
              · exact h
              · exact absurd h hlt)]
          rw [List.map_cons, ih]
  intro m
  rw [leafNodes_eq_map, leafNodes_eq_map,
    keyUpsert_cons_gt (show keyLt (⟨0, none, leafAnchorHash H, none⟩ : Node).key
      (leafOf H (k, v)).key = true from rfl), hmap m]

/-- Removing an entry acts on the leaf level as a key-delete of its leaf. -/
theorem leafNodes_remove (H : Bytes → Bytes) (k : Bytes) (m : List (Bytes × Bytes)) :
    leafNodes H (entriesRemove m k) = keyDelete (leafNodes H m) (some k) := by
  show (⟨0, none, leafAnchorHash H, none⟩ : Node) :: _ = _
  unfold keyDelete leafNodes
  rw [List.filter_cons, if_pos (show ((fun n => !(n.key == some k))
    (⟨0, none, leafAnchorHash H, none⟩ : Node)) = true from rfl)]
  unfold entriesRemove
  rw [List.filter_map]
  rfl

/-! ## No columns strictly between adjacent chunk starts -/

/-- If a canonical level has no boundary in an open key interval, then no
level above it has any column keyed in that interval. -/
theorem canonLevel_no_cols_between (H : Bytes → Bytes) (Q : Nat)
    (m : List (Bytes × Bytes)) (L : Nat) (j1 j2 : NodeKey)
    (hL : ∀ c ∈ canonLevel H Q m L, keyLt j1 c.key = true → keyLt c.key j2 = true →
      isBoundary Q c = false) :
    ∀ d, ∀ c ∈ canonLevel H Q m (L + 1 + d),
      keyLt j1 c.key = true → keyLt c.key j2 = true → False := by
  intro d
  induction d with
  | zero =>
    intro c hc h1 h2
    have hk : c.key ≠ none := by
      intro he
      rw [he, keyLt_none_right] at h1
      exact Bool.false_ne_true h1
    obtain ⟨c', hc', hck, hbd⟩ := canonLevel_col_chain H Q m L c hc hk
    have := hL c' hc' (by rw [hck]; exact h1) (by rw [hck]; exact h2)
    rw [this] at hbd
    exact Bool.false_ne_true hbd
  | succ d ih =>
    intro c hc h1 h2
    have hk : c.key ≠ none := by
      intro he
      rw [he, keyLt_none_right] at h1
      exact Bool.false_ne_true h1
    obtain ⟨c', hc', hck, -⟩ := canonLevel_col_chain H Q m (L + 1 + d) c hc hk
    exact ih c' hc' (by rw [hck]; exact h1) (by rw [hck]; exact h2)

theorem canonLevel_no_cols_between' (H : Bytes → Bytes) (Q : Nat)
    (m : List (Bytes × Bytes)) (L : Nat) (j1 j2 : NodeKey)
    (hL : ∀ c ∈ canonLevel H Q m L, keyLt j1 c.key = true → keyLt c.key j2 = true →
      isBoundary Q c = false) :
    ∀ l, L < l → ∀ c ∈ canonLevel H Q m l,
      keyLt j1 c.key = true → keyLt c.key j2 = true → False := by
  intro l hl
  have he : l = L + 1 + (l - L - 1) := by omega
  rw [he]
  exact canonLevel_no_cols_between H Q m L j1 j2 hL (l - L - 1)

/-! ## Filter and column helpers on sorted levels -/

/-- Filtering by a stronger predicate ignores a weaker pre-filter. -/
theorem filter_sub {p q : Node → Bool} (himp : ∀ c, q c = true → p c = true) :
    ∀ (ns : List Node), (ns.filter p).filter q = ns.filter q := by
  intro ns
  induction ns with
  | nil => rfl
  | cons n ns ih =>
    by_cases hq : q n = true
    · have hp := himp n hq
      rw [List.filter_cons, if_pos hp, List.filter_cons, if_pos hq,
        List.filter_cons, if_pos hq, ih]
    · by_cases hp : p n = true
      · rw [List.filter_cons, if_pos hp, List.filter_cons, if_neg hq,
        List.filter_cons, if_neg hq, ih]
      · rw [List.filter_cons, if_neg hp, List.filter_cons, if_neg hq, ih]

/-- In a key-sorted level, a key determines its node. -/
theorem level_col_unique {ns : List Node}
    (hpw : List.Pairwise (fun x y => keyLt x.key y.key = true) ns)
    {c1 c2 : Node} (h1 : c1 ∈ ns) (h2 : c2 ∈ ns) (hk : c1.key = c2.key) : c1 = c2 := by
  obtain ⟨u, w, rfl⟩ := List.append_of_mem h1
  rcases List.mem_append.mp h2 with hu | hw
  · rw [List.pairwise_append] at hpw
    have := hpw.2.2 c2 hu c1 (List.mem_cons_self _ _)
    rw [hk, keyLt_irrefl] at this
    exact absurd this Bool.false_ne_true
  · rcases List.mem_cons.mp hw with heq | hw2
    · exact heq.symm
    · rw [List.pairwise_append] at hpw
      have := (List.pairwise_cons.mp hpw.2.1).1 c2 hw2
      rw [hk, keyLt_irrefl] at this
      exact absurd this Bool.false_ne_true

/-- The at-or-below filter of a sorted level with a column at the cut is
the strictly-below filter with that column appended. -/
theorem filter_le_of_col {κ : NodeKey} {c : Node} : ∀ {ns : List Node},
    List.Pairwise (fun x y => keyLt x.key y.key = true) ns →
    c ∈ ns → c.key = κ →
    ns.filter (fun x => keyLe x.key κ) = ns.filter (fun x => keyLt x.key κ) ++ [c] := by
  intro ns hpw hc hck
  obtain ⟨u, w, rfl⟩ := List.append_of_mem hc
  rw [List.pairwise_append] at hpw
  have hu : ∀ x ∈ u, keyLt x.key κ = true := by
    intro x hx
    have := hpw.2.2 x hx c (List.mem_cons_self _ _)
    rw [hck] at this
    exact this
  have hw : ∀ x ∈ w, keyLt κ x.key = true := by
    intro x hx
    have := (List.pairwise_cons.mp hpw.2.1).1 x hx
    rw [hck] at this
    exact this
  rw [List.filter_append, List.filter_append]
  have e1 : u.filter (fun x => keyLe x.key κ) = u := by
    rw [List.filter_eq_self]
    intro x hx
    exact keyLe_of_lt (hu x hx)
  have e2 : u.filter (fun x => keyLt x.key κ) = u := by
    rw [List.filter_eq_self]
    intro x hx
    exact hu x hx
  have e3 : (c :: w).filter (fun x => keyLe x.key κ) = [c] := by
    rw [List.filter_cons, if_pos (show ((fun x => keyLe x.key κ) c) = true by
      show keyLe c.key κ = true
      rw [hck]
      exact keyLe_refl κ)]
    rw [List.filter_eq_nil_iff.mpr ?_]
    intro x hx hpred
    have hpred' : keyLe x.key κ = true := hpred
    rw [keyLe_eq_false_of_lt (hw x hx)] at hpred'
    exact Bool.false_ne_true hpred'
  have e4 : (c :: w).filter (fun x => keyLt x.key κ) = [] := by
    rw [List.filter_eq_nil_iff]
    intro x hx hpred
    have hpred' : keyLt x.key κ = true := hpred
    rcases List.mem_cons.mp hx with rfl | hx2
    · rw [hck, keyLt_irrefl] at hpred'
      exact Bool.false_ne_true hpred'
    · rw [keyLt_asymm (hw x hx2)] at hpred'
      exact Bool.false_ne_true hpred'
  rw [e1, e2, e3, e4, List.append_nil]

/-- The at-or-above filter of a sorted level with a column at the cut is
that column consed on the strictly-above filter. -/
theorem filter_ge_of_col {κ : NodeKey} {c : Node} : ∀ {ns : List Node},
    List.Pairwise (fun x y => keyLt x.key y.key = true) ns →
    c ∈ ns → c.key = κ →
    ns.filter (fun x => keyLe κ x.key) = c :: ns.filter (fun x => keyLt κ x.key) := by
  intro ns hpw hc hck
  obtain ⟨u, w, rfl⟩ := List.append_of_mem hc
  rw [List.pairwise_append] at hpw
  have hu : ∀ x ∈ u, keyLt x.key κ = true := by
    intro x hx
    have := hpw.2.2 x hx c (List.mem_cons_self _ _)
    rw [hck] at this
    exact this
  have hw : ∀ x ∈ w, keyLt κ x.key = true := by
    intro x hx
    have := (List.pairwise_cons.mp hpw.2.1).1 x hx
    rw [hck] at this
    exact this
  rw [List.filter_append, List.filter_append]
  have e1 : u.filter (fun x => keyLe κ x.key) = [] := by
    rw [List.filter_eq_nil_iff]
    intro x hx hpred
    have hpred' : keyLe κ x.key = true := hpred
    rw [keyLe_eq_false_of_lt (hu x hx)] at hpred'
    exact Bool.false_ne_true hpred'
  have e2 : u.filter (fun x => keyLt κ x.key) = [] := by
    rw [List.filter_eq_nil_iff]
    intro x hx hpred
    have hpred' : keyLt κ x.key = true := hpred
    rw [keyLt_asymm (hu x hx)] at hpred'
    exact Bool.false_ne_true hpred'
  have e3 : (c :: w).filter (fun x => keyLe κ x.key) = c :: w := by
    rw [List.filter_eq_self]
    intro x hx
    rcases List.mem_cons.mp hx with rfl | hx2
    · show keyLe κ x.key = true
      rw [hck]
      exact keyLe_refl κ
    · exact keyLe_of_lt (hw x hx2)
  have e4 : (c :: w).filter (fun x => keyLt κ x.key) = w := by
    rw [List.filter_cons, if_neg (show ¬((fun x => keyLt κ x.key) c = true) by
      intro hq
      have hq' : keyLt κ c.key = true := hq
      rw [hck, keyLt_irrefl] at hq'
      exact Bool.false_ne_true hq')]
    rw [List.filter_eq_self]
    intro x hx
    exact hw x hx
  rw [e1, e2, e3, e4]
  rfl

/-! ## Parent levels agree strictly below a boundary column present in both -/

/-- If two levels agree strictly below a cut key and both carry a boundary
column at the cut (hashes may differ), their parent levels agree strictly
below the cut.  A `none` cut works trivially. -/
theorem nextLevel_agree_below (H : Bytes → Bytes) (Q lvl : Nat) (j' : NodeKey)
    {a a' : Node} {rX rY : List Node}
    (hpwX : List.Pairwise (fun x y => keyLt x.key y.key = true) (a :: rX))
    (hpwY : List.Pairwise (fun x y => keyLt x.key y.key = true) (a' :: rY))
    (haX : a.key = none) (haY : a'.key = none)
    (hagree : (a :: rX).filter (fun c => keyLt c.key j') =
      (a' :: rY).filter (fun c => keyLt c.key j'))
    (hbj : j' = none ∨
      ((∃ bx ∈ a :: rX, bx.key = j' ∧ isBoundary Q bx = true) ∧
       (∃ by' ∈ a' :: rY, by'.key = j' ∧ isBoundary Q by' = true))) :
    (nextLevelNodes H Q lvl (a :: rX)).filter (fun c => keyLt c.key j') =
      (nextLevelNodes H Q lvl (a' :: rY)).filter (fun c => keyLt c.key j') := by
  by_cases hnn : j' = none
  · subst hnn
    have hX : (nextLevelNodes H Q lvl (a :: rX)).filter (fun c => keyLt c.key none) = [] := by
      rw [List.filter_eq_nil_iff]
      intro c _ hpred
      have hpred' : keyLt c.key none = true := hpred
      rw [keyLt_none_right] at hpred'
      exact Bool.false_ne_true hpred'
    have hY : (nextLevelNodes H Q lvl (a' :: rY)).filter (fun c => keyLt c.key none) = [] := by
      rw [List.filter_eq_nil_iff]
      intro c _ hpred
      have hpred' : keyLt c.key none = true := hpred
      rw [keyLt_none_right] at hpred'
      exact Bool.false_ne_true hpred'
    rw [hX, hY]
  rcases hbj with hnone | ⟨⟨bx, hbxX, hbxk, hbxbd⟩, ⟨by', hbyY, hbyk, hbybd⟩⟩
  · exact absurd hnone hnn
  -- decompose both levels at the cut column
  have hdecX : a :: rX = ((a :: rX).filter (fun c => keyLt c.key j') ++ [bx]) ++
      (a :: rX).filter (fun c => keyLt j' c.key) := by
    conv_lhs => rw [sorted_split_le j' (a :: rX) hpwX]
    rw [filter_le_of_col hpwX hbxX hbxk]
  have hdecY : a' :: rY = ((a' :: rY).filter (fun c => keyLt c.key j') ++ [by']) ++
      (a' :: rY).filter (fun c => keyLt j' c.key) := by
    conv_lhs => rw [sorted_split_le j' (a' :: rY) hpwY]
    rw [filter_le_of_col hpwY hbyY hbyk]
  -- both strict prefixes start with the (equal) anchors
  have hakeep : keyLt a.key j' = true := by
    rw [haX]
    cases hj : j' with
    | none => exact absurd hj hnn
    | some jk => rfl
  have hakeep' : keyLt a'.key j' = true := by
    rw [haY]
    cases hj : j' with
    | none => exact absurd hj hnn
    | some jk => rfl
  have hfX : (a :: rX).filter (fun c => keyLt c.key j') =
      a :: rX.filter (fun c => keyLt c.key j') := by
    rw [List.filter_cons, if_pos (show ((fun c => keyLt c.key j') a) = true from hakeep)]
  have hfY : (a' :: rY).filter (fun c => keyLt c.key j') =
      a' :: rY.filter (fun c => keyLt c.key j') := by
    rw [List.filter_cons, if_pos (show ((fun c => keyLt c.key j') a') = true from hakeep')]
  have hagree2 : a :: rX.filter (fun c => keyLt c.key j') =
      a' :: rY.filter (fun c => keyLt c.key j') := by
    rw [← hfX, ← hfY]
    exact hagree
  obtain ⟨haa', hff⟩ := List.cons_eq_cons.mp hagree2
  -- rewrite both levels as anchor, shared strict prefix, cut column, suffix
  have hrX : rX = rX.filter (fun c => keyLt c.key j') ++ bx ::
      (a :: rX).filter (fun c => keyLt j' c.key) := by
    have h1 := hdecX
    rw [hfX, List.cons_append, List.cons_append] at h1
    have h2 := (List.cons_eq_cons.mp h1).2
    rw [List.append_assoc, List.singleton_append] at h2
    exact h2
  have hrY : rY = rY.filter (fun c => keyLt c.key j') ++ by' ::
      (a' :: rY).filter (fun c => keyLt j' c.key) := by
    have h1 := hdecY
    rw [hfY, List.cons_append, List.cons_append] at h1
    have h2 := (List.cons_eq_cons.mp h1).2
    rw [List.append_assoc, List.singleton_append] at h2
    exact h2
  rw [nextLevelNodes_cons, nextLevelNodes_cons, hrX, hrY,
    levelChunks_split Q hbxbd _ a _, levelChunks_split Q hbybd _ a' _,
    List.map_append, List.map_append, List.filter_append, List.filter_append]
  have hpart1 : ∀ (aa : Node) (uu : List Node), aa.key = none →
      (∀ x ∈ uu, keyLt x.key j' = true) →
      ((levelChunks Q aa uu).map (chunkParent H lvl)).filter
        (fun c => keyLt c.key j') = (levelChunks Q aa uu).map (chunkParent H lvl) := by
    intro aa uu haa huu
    rw [List.filter_eq_self]
    intro c hc
    obtain ⟨⟨st, mem⟩, hch, rfl⟩ := List.mem_map.mp hc
    show keyLt st.key j' = true
    rcases List.mem_cons.mp (levelChunks_start_mem Q hch) with heq | hst
    · rw [heq, haa]
      cases hj : j' with
      | none => exact absurd hj hnn
      | some jk => rfl
    · exact huu st hst
  have hpart2 : ∀ (bb : Node) (Zs : List Node), bb.key = j' →
      (∀ z ∈ Zs, keyLt j' z.key = true) →
      ((levelChunks Q bb Zs).map (chunkParent H lvl)).filter
        (fun c => keyLt c.key j') = [] := by
    intro bb Zs hbb hZs
    rw [List.filter_eq_nil_iff]
    intro c hc hpred
    obtain ⟨⟨st, mem⟩, hch, rfl⟩ := List.mem_map.mp hc
    have hpred' : keyLt st.key j' = true := hpred
    rcases List.mem_cons.mp (levelChunks_start_mem Q hch) with heq | hst
    · rw [heq, hbb, keyLt_irrefl] at hpred'
      exact Bool.false_ne_true hpred'
    · rw [keyLt_asymm (hZs st hst)] at hpred'
      exact Bool.false_ne_true hpred'
  rw [hpart1 a _ haX (fun x hx => (List.mem_filter.mp hx).2),
    hpart1 a' _ haY (fun x hx => (List.mem_filter.mp hx).2),
    hpart2 bx _ hbxk (fun z hz => (List.mem_filter.mp hz).2),
    hpart2 by' _ hbyk (fun z hz => (List.mem_filter.mp hz).2),
    haa', hff]

/-! ## Column chains stop above a non-boundary, and digest well-formedness -/

/-- No canonical column persists above a non-boundary node of its key. -/
theorem canonLevel_col_stop (H : Bytes → Bytes) (Q : Nat) (m : List (Bytes × Bytes))
    (hm : EntriesWF m) (L : Nat) {colB : Node} (hcol : colB ∈ canonLevel H Q m L)
    {x : Bytes} (hk : colB.key = some x) (hnb : isBoundary Q colB = false) :
    ∀ d, ∀ c ∈ canonLevel H Q m (L + 1 + d), c.key ≠ some x := by
  intro d
  induction d with
  | zero =>
    intro c hc hck
    obtain ⟨c', hc', hck', hbd⟩ := canonLevel_col_chain H Q m L c hc (by rw [hck]; simp)
    have hcc : c' = colB := level_col_unique (canonLevel_pairwise H Q m hm L) hc' hcol
      (by rw [hck', hck, hk])
    rw [hcc, hnb] at hbd
    exact absurd hbd Bool.false_ne_true
  | succ d ih =>
    intro c hc hck
    obtain ⟨c', hc', hck', -⟩ := canonLevel_col_chain H Q m (L + 1 + d) c hc (by rw [hck]; simp)
    exact ih c' hc' (by rw [hck', hck])

theorem canonLevel_col_stop' (H : Bytes → Bytes) (Q : Nat) (m : List (Bytes × Bytes))
    (hm : EntriesWF m) (L : Nat) {colB : Node} (hcol : colB ∈ canonLevel H Q m L)
    {x : Bytes} (hk : colB.key = some x) (hnb : isBoundary Q colB = false) :
    ∀ l, L < l → ∀ c ∈ canonLevel H Q m l, c.key ≠ some x := by
  intro l hl
  have he : l = L + 1 + (l - L - 1) := by omega
  rw [he]
  exact canonLevel_col_stop H Q m hm L hcol hk hnb (l - L - 1)

/-- Every canonical node's hash is an `H`-image: a well-formed digest. -/
theorem canonLevel_hash_wf (H : Bytes → Bytes) (Q : Nat) (m : List (Bytes × Bytes))
    (hH : ∀ b, ByteString (H b) ∧ 4 ≤ (H b).length) :
    ∀ L, ∀ c ∈ canonLevel H Q m L, ByteString c.hash ∧ 4 ≤ c.hash.length := by
  intro L
  induction L with
  | zero =>
    intro c hc
    rcases List.mem_cons.mp hc with rfl | hc2
    · exact hH []
    · obtain ⟨kv, -, rfl⟩ := List.mem_map.mp hc2
      exact hH _
  | succ L ih =>
    intro c hc
    rw [canonLevel_succ] at hc
    cases hcl : canonLevel H Q m L with
    | nil => exact absurd hcl (canonLevel_ne_nil H Q m L)
    | cons first rest =>
      rw [hcl, nextLevelNodes_cons] at hc
      obtain ⟨ch, -, rfl⟩ := List.mem_map.mp hc
      exact hH _

/-! ## Around-filters on decomposed levels -/

theorem filter_lt_around {κ : NodeKey} {n : Node} (hn : n.key = κ) (X Y : List Node)
    (hX : ∀ x ∈ X, keyLt x.key κ = true) (hY : ∀ y ∈ Y, keyLt κ y.key = true) :
    (X ++ n :: Y).filter (fun c => keyLt c.key κ) = X := by
  rw [List.filter_append]
  have e1 : X.filter (fun c => keyLt c.key κ) = X := by
    rw [List.filter_eq_self]
    exact hX
  have e2 : (n :: Y).filter (fun c => keyLt c.key κ) = [] := by
    rw [List.filter_eq_nil_iff]
    intro y hy hpred
    have hpred' : keyLt y.key κ = true := hpred
    rcases List.mem_cons.mp hy with rfl | hy2
    · rw [hn, keyLt_irrefl] at hpred'
      exact Bool.false_ne_true hpred'
    · rw [keyLt_asymm (hY y hy2)] at hpred'
      exact Bool.false_ne_true hpred'
  rw [e1, e2, List.append_nil]

theorem filter_gt_around {κ : NodeKey} {n : Node} (hn : n.key = κ) (X Y : List Node)
    (hX : ∀ x ∈ X, keyLt x.key κ = true) (hY : ∀ y ∈ Y, keyLt κ y.key = true) :
    (X ++ n :: Y).filter (fun c => keyLt κ c.key) = Y := by
  rw [List.filter_append]
  have e1 : X.filter (fun c => keyLt κ c.key) = [] := by
    rw [List.filter_eq_nil_iff]
    intro x hx hpred
    have hpred' : keyLt κ x.key = true := hpred
    rw [keyLt_asymm (hX x hx)] at hpred'
    exact Bool.false_ne_true hpred'
  have e2 : (n :: Y).filter (fun c => keyLt κ c.key) = Y := by
    rw [List.filter_cons, if_neg (show ¬((fun c => keyLt κ c.key) n = true) by
      intro hq
      have hq' : keyLt κ n.key = true := hq
      rw [hn, keyLt_irrefl] at hq'
      exact Bool.false_ne_true hq')]
    rw [List.filter_eq_self]
    exact hY
  rw [e1, e2, List.nil_append]

theorem filter_lt_around2 {κ : NodeKey} (X Y : List Node)
    (hX : ∀ x ∈ X, keyLt x.key κ = true) (hY : ∀ y ∈ Y, keyLt κ y.key = true) :
    (X ++ Y).filter (fun c => keyLt c.key κ) = X := by
  rw [List.filter_append]
  have e1 : X.filter (fun c => keyLt c.key κ) = X := by
    rw [List.filter_eq_self]
    exact hX
  have e2 : Y.filter (fun c => keyLt c.key κ) = [] := by
    rw [List.filter_eq_nil_iff]
    intro y hy hpred
    have hpred' : keyLt y.key κ = true := hpred
    rw [keyLt_asymm (hY y hy)] at hpred'
    exact Bool.false_ne_true hpred'
  rw [e1, e2, List.append_nil]

theorem filter_gt_around2 {κ : NodeKey} (X Y : List Node)
    (hX : ∀ x ∈ X, keyLt x.key κ = true) (hY : ∀ y ∈ Y, keyLt κ y.key = true) :
    (X ++ Y).filter (fun c => keyLt κ c.key) = Y := by
  rw [List.filter_append]
  have e1 : X.filter (fun c => keyLt κ c.key) = [] := by
    rw [List.filter_eq_nil_iff]
    intro x hx hpred
    have hpred' : keyLt κ x.key = true := hpred
    rw [keyLt_asymm (hX x hx)] at hpred'
    exact Bool.false_ne_true hpred'
  have e2 : Y.filter (fun c => keyLt κ c.key) = Y := by
    rw [List.filter_eq_self]
    exact hY
  rw [e1, e2, List.nil_append]

/-! ## Level-zero seeds for the set and delete towers -/

theorem leaf0_upsert_decomp (H : Bytes → Bytes) (Q : Nat) (k v : Bytes)
    (m : List (Bytes × Bytes)) (hm : EntriesWF m) :
    canonLevel H Q (entriesUpsert m k v) 0 =
      (canonLevel H Q m 0).filter (fun c => keyLt c.key (some k)) ++
        leafOf H (k, v) :: (canonLevel H Q m 0).filter (fun c => keyLt (some k) c.key) := by
  show leafNodes H (entriesUpsert m k v) = _
  rw [leafNodes_upsert]
  exact keyUpsert_sorted (leafOf H (k, v)) (leafNodes H m) (canonLevel_pairwise H Q m hm 0)

theorem upsert_seed_below (H : Bytes → Bytes) (Q : Nat) (k v : Bytes)
    (m : List (Bytes × Bytes)) (hm : EntriesWF m) :
    (canonLevel H Q m 0).filter (fun c => keyLt c.key (some k)) =
      (canonLevel H Q (entriesUpsert m k v) 0).filter (fun c => keyLt c.key (some k)) := by
  rw [leaf0_upsert_decomp H Q k v m hm,
    filter_lt_around (show (leafOf H (k, v)).key = some k from rfl) _ _
      (fun x hx => (List.mem_filter.mp hx).2) (fun y hy => (List.mem_filter.mp hy).2)]

theorem upsert_seed_above (H : Bytes → Bytes) (Q : Nat) (k v : Bytes)
    (m : List (Bytes × Bytes)) (hm : EntriesWF m) :
    (canonLevel H Q m 0).filter (fun c => keyLt (some k) c.key) =
      (canonLevel H Q (entriesUpsert m k v) 0).filter (fun c => keyLt (some k) c.key) := by
  rw [leaf0_upsert_decomp H Q k v m hm,
    filter_gt_around (show (leafOf H (k, v)).key = some k from rfl) _ _
      (fun x hx => (List.mem_filter.mp hx).2) (fun y hy => (List.mem_filter.mp hy).2)]

theorem upsert_agree_above (H : Bytes → Bytes) (Q : Nat) (k v : Bytes)
    (m : List (Bytes × Bytes)) (hm : EntriesWF m) :
    ∀ l, (canonLevel H Q m l).filter (fun c => keyLt (some k) c.key) =
      (canonLevel H Q (entriesUpsert m k v) l).filter (fun c => keyLt (some k) c.key) :=
  canonLevel_agree_above H Q m (entriesUpsert m k v) hm (entriesUpsert_wf k v m hm)
    (some k) (upsert_seed_above H Q k v m hm)

theorem upsert_leaf_mem (H : Bytes → Bytes) (Q : Nat) (k v : Bytes)
    (m : List (Bytes × Bytes)) (hm : EntriesWF m) :
    leafOf H (k, v) ∈ canonLevel H Q (entriesUpsert m k v) 0 := by
  rw [leaf0_upsert_decomp H Q k v m hm]
  exact List.mem_append.mpr (Or.inr (List.mem_cons_self _ _))

theorem leaf0_remove_decomp (H : Bytes → Bytes) (Q : Nat) (k : Bytes)
    (m : List (Bytes × Bytes)) (hm : EntriesWF m) :
    canonLevel H Q (entriesRemove m k) 0 =
      (canonLevel H Q m 0).filter (fun c => keyLt c.key (some k)) ++
        (canonLevel H Q m 0).filter (fun c => keyLt (some k) c.key) := by
  show leafNodes H (entriesRemove m k) = _
  rw [leafNodes_remove]
  exact keyDelete_sorted (some k) (leafNodes H m) (canonLevel_pairwise H Q m hm 0)

theorem remove_seed_below (H : Bytes → Bytes) (Q : Nat) (k : Bytes)
    (m : List (Bytes × Bytes)) (hm : EntriesWF m) :
    (canonLevel H Q m 0).filter (fun c => keyLt c.key (some k)) =
      (canonLevel H Q (entriesRemove m k) 0).filter (fun c => keyLt c.key (some k)) := by
  rw [leaf0_remove_decomp H Q k m hm,
    filter_lt_around2 _ _
      (fun x hx => (List.mem_filter.mp hx).2) (fun y hy => (List.mem_filter.mp hy).2)]

theorem remove_seed_above (H : Bytes → Bytes) (Q : Nat) (k : Bytes)
    (m : List (Bytes × Bytes)) (hm : EntriesWF m) :
    (canonLevel H Q m 0).filter (fun c => keyLt (some k) c.key) =
      (canonLevel H Q (entriesRemove m k) 0).filter (fun c => keyLt (some k) c.key) := by
  rw [leaf0_remove_decomp H Q k m hm,
    filter_gt_around2 _ _
      (fun x hx => (List.mem_filter.mp hx).2) (fun y hy => (List.mem_filter.mp hy).2)]

theorem remove_agree_above (H : Bytes → Bytes) (Q : Nat) (k : Bytes)
    (m : List (Bytes × Bytes)) (hm : EntriesWF m) :
    ∀ l, (canonLevel H Q m l).filter (fun c => keyLt (some k) c.key) =
      (canonLevel H Q (entriesRemove m k) l).filter (fun c => keyLt (some k) c.key) :=
  canonLevel_agree_above H Q m (entriesRemove m k) hm (entriesRemove_wf m k hm)
    (some k) (remove_seed_above H Q k m hm)

theorem remove_no_col (H : Bytes → Bytes) (Q : Nat) (k : Bytes)
    (m : List (Bytes × Bytes)) (hm : EntriesWF m) :
    ∀ c ∈ canonLevel H Q (entriesRemove m k) 0, c.key ≠ some k := by
  intro c hc
  rw [leaf0_remove_decomp H Q k m hm] at hc
  rcases List.mem_append.mp hc with h | h
  · exact keyLt_ne (List.mem_filter.mp h).2
  · exact fun he => keyLt_ne (List.mem_filter.mp h).2 he.symm

/-! ## Store query lemmas for the ascent -/

theorem find?_key_seg {κ : NodeKey} {c : Node} (hc : c.key = κ) :
    ∀ (X : List Node), (∀ x ∈ X, x.key ≠ κ) → ∀ (Y : List Node),
    (X ++ c :: Y).find? (fun n => n.key == κ) = some c := by
  intro X
  induction X with
  | nil =>
    intro _ Y
    rw [List.nil_append]
    unfold List.find?
    rw [beq_iff_eq.mpr hc]
  | cons x X ih =>
    intro hX Y
    rw [List.cons_append]
    unfold List.find?
    rw [beq_eq_false_iff_ne.mpr (hX x (List.mem_cons_self _ _))]
    exact ih (fun x' hx' => hX x' (List.mem_cons_of_mem _ hx')) Y

/-- Looking up a key in a level whose list is known: first segment misses. -/
theorem getNode_level_some {s : Store} {l : Nat} {κ : NodeKey} {X Y : List Node} {c : Node}
    (hlv : levelNodes s l = X ++ c :: Y)
    (hX : ∀ x ∈ X, x.key ≠ κ) (hc : c.key = κ) :
    getNode s l κ = some c := by
  rw [getNode_eq_levelNodes_find?, hlv]
  exact find?_key_seg hc X hX Y

theorem getNode_level_none {s : Store} {l : Nat} {κ : NodeKey}
    (hall : ∀ x ∈ levelNodes s l, x.key ≠ κ) :
    getNode s l κ = none := by
  rw [getNode_eq_levelNodes_find?]
  rw [List.find?_eq_none]
  intro x hx hpred
  have hpred' : (x.key == κ) = true := hpred
  exact hall x hx (beq_iff_eq.mp hpred')

theorem getNode_deleteNode_self (s : Store) (l : Nat) (k : NodeKey) :
    getNode (deleteNode s l k) l k = none := by
  unfold getNode deleteNode
  rw [List.find?_eq_none]
  intro x hx hpred
  have hmem := List.mem_filter.mp hx
  have h2 : (!(x.level == l && x.key == k)) = true := hmem.2
  have h1 : (x.level == l && x.key == k) = true := hpred
  rw [h1] at h2
  exact absurd h2 (by simp)

/-- `setNode` writes the node or keeps an original row. -/
theorem setNode_mem : ∀ (s : Store) (n : Node), ∀ x ∈ setNode s n, x = n ∨ x ∈ s := by
  intro s n
  induction s with
  | nil =>
    intro x hx
    rcases List.mem_cons.mp hx with rfl | hx2
    · exact Or.inl rfl
    · exact absurd hx2 (List.not_mem_nil x)
  | cons y rest ih =>
    intro x hx
    rw [show setNode (y :: rest) n = (if y.level == n.level && y.key == n.key then n :: rest
      else if nkLt (n.level, n.key) (y.level, y.key) then n :: y :: rest
      else y :: setNode rest n) from rfl] at hx
    by_cases h1 : (y.level == n.level && y.key == n.key) = true
    · rw [if_pos h1] at hx
      rcases List.mem_cons.mp hx with rfl | hx2
      · exact Or.inl rfl
      · exact Or.inr (List.mem_cons_of_mem _ hx2)
    · rw [if_neg h1] at hx
      by_cases h2 : nkLt (n.level, n.key) (y.level, y.key) = true
      · rw [if_pos h2] at hx
        rcases List.mem_cons.mp hx with rfl | hx2
        · exact Or.inl rfl
        · exact Or.inr hx2
      · rw [if_neg h2] at hx
        rcases List.mem_cons.mp hx with rfl | hx2
        · exact Or.inr (List.mem_cons_self _ _)
        · rcases ih x hx2 with h | h
          · exact Or.inl h
          · exact Or.inr (List.mem_cons_of_mem _ h)

/-- `setNode` keeps the store sorted. -/
theorem setNode_wf : ∀ {s : Store}, StoreWF s → ∀ (n : Node), StoreWF (setNode s n) := by
  intro s
  induction s with
  | nil =>
    intro _ n
    exact List.pairwise_singleton _ _
  | cons y rest ih =>
    intro hwf n
    obtain ⟨hy, hwf'⟩ := List.pairwise_cons.mp hwf
    show StoreWF (if y.level == n.level && y.key == n.key then n :: rest
      else if nkLt (n.level, n.key) (y.level, y.key) then n :: y :: rest
      else y :: setNode rest n)
    by_cases h1 : (y.level == n.level && y.key == n.key) = true
    · rw [if_pos h1]
      rw [Bool.and_eq_true, beq_iff_eq, beq_iff_eq] at h1
      refine List.pairwise_cons.mpr ⟨fun z hz => ?_, hwf'⟩
      have := hy z hz
      rw [nkLt_iff] at this ⊢
      rw [← h1.1, ← h1.2]
      exact this
    · rw [if_neg h1]
      by_cases h2 : nkLt (n.level, n.key) (y.level, y.key) = true
      · rw [if_pos h2]
        refine List.pairwise_cons.mpr ⟨fun z hz => ?_, hwf⟩
        rcases List.mem_cons.mp hz with rfl | hz2
        · exact h2
        · exact nkLt_trans h2 (hy z hz2)
      · rw [if_neg h2]
        refine List.pairwise_cons.mpr ⟨fun z hz => ?_, ih hwf' n⟩
        rcases setNode_mem rest n z hz with rfl | hz2
        · -- y comes before n: neither equal nor n before y
          have hne : (y.level, y.key) ≠ (z.level, z.key) := by
            intro he
            have h1' : (y.level == z.level && y.key == z.key) = true := by
              rw [Bool.and_eq_true, beq_iff_eq, beq_iff_eq]
              exact ⟨congrArg Prod.fst he, congrArg Prod.snd he⟩
            exact h1 h1'
          rcases nkLt_total hne with h | h
          · exact h
          · exact absurd h h2
        · exact hy z hz2

theorem deleteNode_wf {s : Store} (hwf : StoreWF s) (l : Nat) (k : NodeKey) :
    StoreWF (deleteNode s l k) :=
  List.Pairwise.filter _ hwf

/-- A column chain that is downward closed and broken just above `L` is
absent at every higher level. -/
theorem getNode_none_above {s : Store} {L : Nat} {j : NodeKey}
    (h0 : getNode s (L + 1) j = none)
    (hdc : ∀ l, L < l → getNode s (l + 1) j ≠ none → getNode s l j ≠ none) :
    ∀ d, getNode s (L + 1 + d) j = none := by
  intro d
  induction d with
  | zero => exact h0
  | succ d ih =>
    by_cases h : getNode s (L + 1 + (d + 1)) j = none
    · exact h
    · have := hdc (L + 1 + d) (by omega)
        (by rw [show L + 1 + d + 1 = L + 1 + (d + 1) by omega]; exact h)
      exact absurd ih this

/-- What a successful `deleteParents` run does to each level: it deletes
the key from every level strictly above `L` that carried it (the chain
being downward closed), and touches nothing else. -/
theorem deleteParents_levels :
    ∀ (fuel : Nat) (s : Store) (L : Nat) (j : NodeKey) (r : Store),
    deleteParents fuel s L j = some r →
    (∀ l, L < l → getNode s (l + 1) j ≠ none → getNode s l j ≠ none) →
    ∀ l, levelNodes r l =
      if L < l ∧ getNode s l j ≠ none then keyDelete (levelNodes s l) j
      else levelNodes s l := by
  intro fuel
  induction fuel with
  | zero =>
    intro s L j r hr
    exact absurd hr (by unfold deleteParents; simp)
  | succ fuel ih =>
    intro s L j r hr hdc
    rw [show deleteParents (fuel + 1) s L j = (match getNode s (L + 1) j with
      | none => some s
      | some _ => deleteParents fuel (deleteNode s (L + 1) j) (L + 1) j) from rfl] at hr
    cases hg : getNode s (L + 1) j with
    | none =>
      rw [hg] at hr
      have hr' : some s = some r := hr
      obtain rfl := Option.some.inj hr'
      intro l
      by_cases hcond : L < l ∧ getNode s l j ≠ none
      · obtain ⟨hl, hpres⟩ := hcond
        have habs := getNode_none_above hg hdc (l - L - 1)
        rw [show L + 1 + (l - L - 1) = l by omega] at habs
        exact absurd habs hpres
      · rw [if_neg hcond]
    | some nd =>
      rw [hg] at hr
      have hr' : deleteParents fuel (deleteNode s (L + 1) j) (L + 1) j = some r := hr
      have hdc2 : ∀ l, L + 1 < l → getNode (deleteNode s (L + 1) j) (l + 1) j ≠ none →
          getNode (deleteNode s (L + 1) j) l j ≠ none := by
        intro l hl
        rw [getNode_deleteNode (show ¬(l + 1 = L + 1 ∧ j = j) from fun hc => by omega),
          getNode_deleteNode (show ¬(l = L + 1 ∧ j = j) from fun hc => by omega)]
        exact hdc l (by omega)
      have hIH := ih (deleteNode s (L + 1) j) (L + 1) j r hr' hdc2
      intro l
      rcases Nat.lt_trichotomy l (L + 1) with hl | hl | hl
      · have h1 := hIH l
        rw [if_neg (show ¬(L + 1 < l ∧ getNode (deleteNode s (L + 1) j) l j ≠ none)
          from fun hc => by omega)] at h1
        rw [deleteNode_levelNodes, if_neg (show l ≠ L + 1 by omega)] at h1
        rw [h1, if_neg (show ¬(L < l ∧ getNode s l j ≠ none) from fun hc => by
          have := hc.1
          omega)]
      · subst hl
        have h1 := hIH (L + 1)
        rw [if_neg (show ¬(L + 1 < L + 1 ∧ getNode (deleteNode s (L + 1) j) (L + 1) j ≠ none)
          from fun hc => by omega)] at h1
        rw [deleteNode_levelNodes, if_pos rfl] at h1
        rw [h1, if_pos ⟨by omega, by rw [hg]; simp⟩]
      · have h1 := hIH l
        have heqg : getNode (deleteNode s (L + 1) j) l j = getNode s l j :=
          getNode_deleteNode (fun hc => by omega)
        rw [heqg] at h1
        rw [deleteNode_levelNodes, if_neg (show l ≠ L + 1 by omega)] at h1
        rw [h1]
        by_cases hpres : getNode s l j ≠ none
        · rw [if_pos ⟨by omega, hpres⟩, if_pos ⟨by omega, hpres⟩]
        · rw [if_neg (show ¬(L + 1 < l ∧ getNode s l j ≠ none) from fun hc => hpres hc.2),
            if_neg (show ¬(L < l ∧ getNode s l j ≠ none) from fun hc => hpres hc.2)]

/-- A filter whose last hit is known. -/
theorem filter_last_seg {p : Node → Bool} {W1 W2 : List Node} {fsn : Node}
    (hp : p fsn = true) (hW2 : ∀ c ∈ W2, p c = false) :
    (W1 ++ fsn :: W2).filter p = W1.filter p ++ [fsn] := by
  rw [List.filter_append, List.filter_cons, if_pos hp]
  have : W2.filter p = [] := by
    rw [List.filter_eq_nil_iff]
    intro c hc hpred
    rw [hW2 c hc] at hpred
    exact Bool.false_ne_true hpred
  rw [this]

theorem getFirstSibling_eq {Q : Nat} {s : Store} {n : Node} {nk : Bytes}
    (hk : n.key = some nk) :
    getFirstSibling Q s n = (fsCandidates Q s n).getLast? := by
  unfold getFirstSibling
  rw [hk]

/-- `getHash` over a decomposed level: the digest of the chunk at the cut. -/
theorem getHash_of_decomp (H : Bytes → Bytes) (Q : Nat) (s : Store) (L : Nat)
    (hq : 2 ≤ Q) (hwf : StoreWF s)
    (hhash : ∀ n ∈ s, ByteString n.hash ∧ 4 ≤ n.hash.length)
    (P : List Node) (start : Node) (mem S : List Node)
    (hns : levelNodes s L = P ++ ((start :: mem) ++ S))
    (hmemnb : ∀ q ∈ mem, isBoundary Q q = false)
    (hSfact : S = [] ∨ ∃ b S2, S = b :: S2 ∧ isBoundary Q b = true) :
    getHash H Q s (L + 1) start.key = H (((start :: mem).map Node.hash).flatten) := by
  unfold getHash
  rw [chunkChildren_of_decomp Q s L hq hwf hhash P start mem S hns hmemnb hSfact]

/-! ## The chunk hanging at a boundary column of a canonical level -/

theorem filter_ge_eq_gt_of_no_col {κ : NodeKey} {ns : List Node}
    (hno : ∀ c ∈ ns, c.key ≠ κ) :
    ns.filter (fun c => keyLe κ c.key) = ns.filter (fun c => keyLt κ c.key) := by
  apply List.filter_congr
  intro c hc
  show keyLe κ c.key = keyLt κ c.key
  unfold keyLe
  rw [beq_eq_false_iff_ne.mpr (fun he => hno c hc he.symm), Bool.or_false]

/-- At a boundary column of a canonical level, the strictly-above filter
splits into the chunk members and the remainder led by the next boundary,
and the chunk is one of the level's chunks. -/
theorem canonLevel_chunk_at_bd (H : Bytes → Bytes) (Q : Nat) (μ : List (Bytes × Bytes))
    (hμ : EntriesWF μ) (L : Nat) {colJ : Node} {x : Bytes}
    (hcol : colJ ∈ canonLevel H Q μ L) (hk : colJ.key = some x)
    (hbd : isBoundary Q colJ = true) :
    ∃ a rest mem S, canonLevel H Q μ L = a :: rest ∧ a.key = none ∧
      (colJ, mem) ∈ levelChunks Q a rest ∧
      (canonLevel H Q μ L).filter (fun c => keyLt (some x) c.key) = mem ++ S ∧
      (∀ q ∈ mem, isBoundary Q q = false) ∧
      (S = [] ∨ ∃ b S2, S = b :: S2 ∧ isBoundary Q b = true) := by
  obtain ⟨a, rest, hlv, hak⟩ := canonLevel_head_anchor H Q μ L
  have hcolr : colJ ∈ rest := by
    rw [hlv] at hcol
    rcases List.mem_cons.mp hcol with heq | h
    · rw [heq, hak] at hk
      exact absurd hk (by simp)
    · exact h
  obtain ⟨mem, hch⟩ := levelChunks_mem_of_bd Q hbd hcolr a
  obtain ⟨P, S, hdec, hSfact, -⟩ := levelChunks_decomp Q a rest colJ mem hch
  have hpw := canonLevel_pairwise H Q μ hμ L
  rw [hlv] at hpw
  rw [hdec] at hpw
  rw [List.pairwise_append] at hpw
  have hPlt : ∀ p ∈ P, keyLt p.key (some x) = true := by
    intro p hp
    have := hpw.2.2 p hp colJ (List.mem_append.mpr (Or.inl (List.mem_cons_self _ _)))
    rw [hk] at this
    exact this
  rw [List.pairwise_append] at hpw
  have hgt : ∀ y ∈ mem ++ S, keyLt (some x) y.key = true := by
    intro y hy
    rcases List.mem_append.mp hy with hym | hys
    · have := (List.pairwise_cons.mp hpw.2.1.1).1 y hym
      rw [hk] at this
      exact this
    · have := hpw.2.1.2.2 colJ (List.mem_cons_self _ _) y hys
      rw [hk] at this
      exact this
  refine ⟨a, rest, mem, S, hlv, hak, hch, ?_, ?_, hSfact⟩
  · rw [hlv, hdec]
    have hassoc : P ++ ((colJ :: mem) ++ S) = P ++ colJ :: (mem ++ S) := by simp
    rw [hassoc]
    exact filter_gt_around hk P (mem ++ S) hPlt hgt
  · exact levelChunks_members_not_boundary Q rest a (colJ, mem) hch

/-- The chunk parent above a boundary column is a column of the canonical
level above, with the same key. -/
theorem canonLevel_parent_of_chunk (H : Bytes → Bytes) (Q : Nat) (μ : List (Bytes × Bytes))
    (L : Nat) {a : Node} {rest : List Node} (hlv : canonLevel H Q μ L = a :: rest)
    {st : Node} {mem : List Node} (hch : (st, mem) ∈ levelChunks Q a rest) :
    chunkParent H L (st, mem) ∈ canonLevel H Q μ (L + 1) := by
  rw [canonLevel_succ, hlv, nextLevelNodes_cons]
  exact List.mem_map.mpr ⟨(st, mem), hch, rfl⟩

/-! ## Master lemma: createParents writes the new column chain -/

/-- A successful `createParents` run from a store whose level `L` already
holds the new-tree columns from the written boundary key on: it writes the
new-tree column chain above the key and touches nothing else. -/
theorem createParents_master (H : Bytes → Bytes) (Q : Nat) (μ : List (Bytes × Bytes))
    (hq : 2 ≤ Q) (hH : ∀ b, ByteString (H b) ∧ 4 ≤ (H b).length) (hμ : EntriesWF μ)
    (x : Bytes) :
    ∀ (fuel : Nat) (s : Store) (L : Nat) (W : Nat → List Node),
    StoreWF s →
    (∀ n ∈ s, ByteString n.hash ∧ 4 ≤ n.hash.length) →
    levelNodes s L = W L ++ (canonLevel H Q μ L).filter (fun c => keyLe (some x) c.key) →
    (∀ l, L < l → levelNodes s l =
      W l ++ (canonLevel H Q μ l).filter (fun c => keyLt (some x) c.key)) →
    (∀ l, L ≤ l → ∀ w ∈ W l, keyLt w.key (some x) = true) →
    (∃ colJ ∈ canonLevel H Q μ L, colJ.key = some x ∧ isBoundary Q colJ = true) →
    ∀ r, createParents H Q fuel s L (some x) = some r →
    StoreWF r ∧ (∀ n ∈ r, ByteString n.hash ∧ 4 ≤ n.hash.length) ∧
    (∀ l, l ≤ L → levelNodes r l = levelNodes s l) ∧
    (∀ l, L < l → levelNodes r l =
      W l ++ (canonLevel H Q μ l).filter (fun c => keyLe (some x) c.key)) := by
  intro fuel
  induction fuel with
  | zero =>
    intro s L W _ _ _ _ _ _ r hr
    exact absurd hr (by unfold createParents; simp)
  | succ fuel ih =>
    intro s L W hwf hhw hatL hhigh hWlt hcolJ r hr
    obtain ⟨colJ, hcolmem, hck, hcbd⟩ := hcolJ
    obtain ⟨a, rest, mem, S, hlvB, hak, hch, hfsplit, hmemnb, hSfact⟩ :=
      canonLevel_chunk_at_bd H Q μ hμ L hcolmem hck hcbd
    have hns : levelNodes s L = W L ++ ((colJ :: mem) ++ S) := by
      rw [hatL, filter_ge_of_col (canonLevel_pairwise H Q μ hμ L) hcolmem hck, hfsplit]
      rfl
    have hgethash : getHash H Q s (L + 1) (some x) =
        H (((colJ :: mem).map Node.hash).flatten) := by
      rw [← hck]
      exact getHash_of_decomp H Q s L hq hwf hhw (W L) colJ mem S hns hmemnb hSfact
    have hpar : (⟨L + 1, some x, getHash H Q s (L + 1) (some x), none⟩ : Node) =
        chunkParent H L (colJ, mem) := by
      rw [hgethash]
      show (⟨L + 1, some x, H (((colJ :: mem).map Node.hash).flatten), none⟩ : Node) =
        ⟨L + 1, colJ.key, H (((colJ :: mem).map Node.hash).flatten), none⟩
      rw [hck]
    have hbody : createParents H Q (fuel + 1) s L (some x) =
        (if isBoundary Q (chunkParent H L (colJ, mem))
         then createParents H Q fuel (setNode s (chunkParent H L (colJ, mem))) (L + 1) (some x)
         else some (setNode s (chunkParent H L (colJ, mem)))) := by
      rw [show createParents H Q (fuel + 1) s L (some x) =
        (if isBoundary Q (⟨L + 1, some x, getHash H Q s (L + 1) (some x), none⟩ : Node)
         then createParents H Q fuel
           (setNode s ⟨L + 1, some x, getHash H Q s (L + 1) (some x), none⟩) (L + 1) (some x)
         else some (setNode s ⟨L + 1, some x, getHash H Q s (L + 1) (some x), none⟩)) from rfl,
        hpar]
    rw [hbody] at hr
    have hparkey : (chunkParent H L (colJ, mem)).key = some x := hck
    have hparB : chunkParent H L (colJ, mem) ∈ canonLevel H Q μ (L + 1) :=
      canonLevel_parent_of_chunk H Q μ L hlvB hch
    have hs'wf : StoreWF (setNode s (chunkParent H L (colJ, mem))) := setNode_wf hwf _
    have hs'hw : ∀ n ∈ setNode s (chunkParent H L (colJ, mem)),
        ByteString n.hash ∧ 4 ≤ n.hash.length := by
      intro n hn
      rcases setNode_mem s _ n hn with rfl | hn2
      · exact hH _
      · exact hhw n hn2
    have hs'levNe : ∀ l, l ≠ L + 1 →
        levelNodes (setNode s (chunkParent H L (colJ, mem))) l = levelNodes s l := by
      intro l hl
      rw [setNode_levelNodes hwf, if_neg (show l ≠ (chunkParent H L (colJ, mem)).level from hl)]
    have hs'levL1 : levelNodes (setNode s (chunkParent H L (colJ, mem))) (L + 1) =
        W (L + 1) ++ (canonLevel H Q μ (L + 1)).filter (fun c => keyLe (some x) c.key) := by
      rw [setNode_levelNodes hwf,
        if_pos (show L + 1 = (chunkParent H L (colJ, mem)).level from rfl),
        keyUpsert_sorted _ _ (levelNodes_pairwise hwf (L + 1)), hhigh (L + 1) (by omega)]
      have hWl := hWlt (L + 1) (by omega)
      have e1 : (W (L + 1) ++ (canonLevel H Q μ (L + 1)).filter
            (fun c => keyLt (some x) c.key)).filter
          (fun c => keyLt c.key (chunkParent H L (colJ, mem)).key) = W (L + 1) := by
        rw [show (fun (c : Node) => keyLt c.key (chunkParent H L (colJ, mem)).key)
          = (fun (c : Node) => keyLt c.key (some x)) by rw [hparkey]]
        exact filter_lt_around2 _ _ hWl (fun y hy => (List.mem_filter.mp hy).2)
      have e2 : (W (L + 1) ++ (canonLevel H Q μ (L + 1)).filter
            (fun c => keyLt (some x) c.key)).filter
          (fun c => keyLt (chunkParent H L (colJ, mem)).key c.key) =
          (canonLevel H Q μ (L + 1)).filter (fun c => keyLt (some x) c.key) := by
        rw [show (fun (c : Node) => keyLt (chunkParent H L (colJ, mem)).key c.key)
          = (fun (c : Node) => keyLt (some x) c.key) by rw [hparkey]]
        exact filter_gt_around2 _ _ hWl (fun y hy => (List.mem_filter.mp hy).2)
      rw [e1, e2,
        filter_ge_of_col (canonLevel_pairwise H Q μ hμ (L + 1)) hparB hparkey]
    cases hbd2 : isBoundary Q (chunkParent H L (colJ, mem)) with
    | true =>
      rw [if_pos hbd2] at hr
      have hres := ih (setNode s (chunkParent H L (colJ, mem))) (L + 1) W
        hs'wf hs'hw hs'levL1
        (fun l hl => by
          rw [hs'levNe l (by omega)]
          exact hhigh l (by omega))
        (fun l hl => hWlt l (by omega))
        ⟨chunkParent H L (colJ, mem), hparB, hparkey, hbd2⟩
        r hr
      refine ⟨hres.1, hres.2.1, ?_, ?_⟩
      · intro l hl
        rw [hres.2.2.1 l (by omega), hs'levNe l (by omega)]
      · intro l hl
        rcases Nat.lt_or_ge l (L + 2) with h2 | h2
        · have hl1 : l = L + 1 := by omega
          rw [hl1, hres.2.2.1 (L + 1) (by omega), hs'levL1]
        · exact hres.2.2.2 l (by omega)
    | false =>
      rw [if_neg (by rw [hbd2]; exact Bool.false_ne_true)] at hr
      have hr' : some (setNode s (chunkParent H L (colJ, mem))) = some r := hr
      obtain rfl := Option.some.inj hr'
      refine ⟨hs'wf, hs'hw, ?_, ?_⟩
      · intro l hl
        exact hs'levNe l (by omega)
      · intro l hl
        rcases Nat.lt_or_ge l (L + 2) with h2 | h2
        · have hl1 : l = L + 1 := by omega
          rw [hl1, hs'levL1]
        · rw [hs'levNe l (by omega), hhigh l (by omega),
            filter_ge_eq_gt_of_no_col (fun c hc =>
              canonLevel_col_stop' H Q μ hμ (L + 1) hparB hparkey hbd2 l (by omega) c hc)]

/-! ## Anchor-level helpers -/

theorem keyLe_some_none (b : Bytes) : keyLe (some b) none = false := rfl

theorem level_anchor_filters {a : Node} {rest : List Node}
    (hpw : List.Pairwise (fun x y => keyLt x.key y.key = true) (a :: rest))
    (hak : a.key = none) :
    (a :: rest).filter (fun c => keyLe c.key none) = [a] ∧
    (a :: rest).filter (fun c => keyLt none c.key) = rest ∧
    (a :: rest).filter (fun c => c.key != none) = rest := by
  have hkeyed : ∀ x ∈ rest, ∃ b, x.key = some b := by
    intro x hx
    have := (List.pairwise_cons.mp hpw).1 x hx
    rw [hak] at this
    cases hxk : x.key with
    | none =>
      rw [hxk, keyLt_none_right] at this
      exact absurd this Bool.false_ne_true
    | some b => exact ⟨b, rfl⟩
  refine ⟨?_, ?_, ?_⟩
  · rw [List.filter_cons, if_pos (show ((fun c => keyLe c.key none) a) = true by
      show keyLe a.key none = true
      rw [hak]
      exact keyLe_refl none)]
    rw [List.filter_eq_nil_iff.mpr ?_]
    intro x hx hpred
    obtain ⟨b, hb⟩ := hkeyed x hx
    have hpred' : keyLe x.key none = true := hpred
    rw [hb, keyLe_some_none] at hpred'
    exact Bool.false_ne_true hpred'
  · rw [List.filter_cons, if_neg (show ¬((fun c => keyLt none c.key) a = true) by
      intro hq
      have hq' : keyLt none a.key = true := hq
      rw [hak] at hq'
      exact Bool.false_ne_true hq')]
    rw [List.filter_eq_self]
    intro x hx
    obtain ⟨b, hb⟩ := hkeyed x hx
    show keyLt none x.key = true
    rw [hb]
    rfl
  · rw [List.filter_cons, if_neg (show ¬((fun c => c.key != none) a = true) by
      intro hq
      have hq' : (a.key != none) = true := hq
      rw [hak] at hq'
      exact absurd hq' (by simp))]
    rw [List.filter_eq_self]
    intro x hx
    obtain ⟨b, hb⟩ := hkeyed x hx
    show (x.key != none) = true
    rw [hb]
    rfl

/-- The anchor chunk of a canonical level, with the level above led by its
parent. -/
theorem canonLevel_anchor_chunk (H : Bytes → Bytes) (Q : Nat) (μ : List (Bytes × Bytes))
    (L : Nat) :
    ∃ a rest memh S csh, canonLevel H Q μ L = a :: rest ∧ a.key = none ∧
      levelChunks Q a rest = (a, memh) :: csh ∧
      a :: rest = (a :: memh) ++ S ∧
      (∀ q ∈ memh, isBoundary Q q = false) ∧
      (S = [] ∨ ∃ b S2, S = b :: S2 ∧ isBoundary Q b = true) ∧
      canonLevel H Q μ (L + 1) =
        chunkParent H L (a, memh) :: csh.map (chunkParent H L) := by
  obtain ⟨a, rest, hlv, hak⟩ := canonLevel_head_anchor H Q μ L
  obtain ⟨memh, csh, hlc⟩ := levelChunks_head Q rest a
  have hflat := levelChunks_flatten Q rest a
  rw [hlc, List.map_cons, List.flatten_cons] at hflat
  refine ⟨a, rest, memh, (csh.map (fun c => c.1 :: c.2)).flatten, csh, hlv, hak, hlc,
    hflat.symm, ?_, ?_, ?_⟩
  · exact levelChunks_members_not_boundary Q rest a (a, memh)
      (by rw [hlc]; exact List.mem_cons_self _ _)
  · cases hcsh : csh with
    | nil => exact Or.inl rfl
    | cons c csh' =>
      obtain ⟨b, bmem⟩ := c
      refine Or.inr ⟨b, bmem ++ (csh'.map (fun c => c.1 :: c.2)).flatten, by simp, ?_⟩
      have hd : (b, bmem) ∈ (levelChunks Q a rest).drop 1 := by
        rw [hlc, hcsh]
        exact List.mem_cons_self _ _
      exact levelChunks_starts_boundary Q rest a (b, bmem) hd
  · rw [canonLevel_succ, hlv, nextLevelNodes_cons, hlc, List.map_cons]

theorem deleteParents_wf : ∀ (fuel : Nat) (s : Store) (L : Nat) (j : NodeKey) (r : Store),
    deleteParents fuel s L j = some r → StoreWF s → StoreWF r := by
  intro fuel
  induction fuel with
  | zero =>
    intro s L j r hr
    exact absurd hr (by unfold deleteParents; simp)
  | succ fuel ih =>
    intro s L j r hr hwf
    rw [show deleteParents (fuel + 1) s L j = (match getNode s (L + 1) j with
      | none => some s
      | some _ => deleteParents fuel (deleteNode s (L + 1) j) (L + 1) j) from rfl] at hr
    cases hg : getNode s (L + 1) j with
    | none =>
      rw [hg] at hr
      have hr' : some s = some r := hr
      obtain rfl := Option.some.inj hr'
      exact hwf
    | some nd =>
      rw [hg] at hr
      exact ih _ _ _ _ hr (deleteNode_wf hwf _ _)

/-! ## Master lemma: updateAnchor rebuilds the anchors and prunes the top -/

theorem keyLe_none_eq_none {κ : NodeKey} (h : keyLe κ none = true) : κ = none := by
  cases hκ : κ with
  | none => rfl
  | some b =>
    rw [hκ, keyLe_some_none] at h
    exact absurd h Bool.false_ne_true

/-- A keyed-free canonical level contributes no keyed columns. -/
theorem keyedFree_filter_gt (H : Bytes → Bytes) (Q : Nat) (μ : List (Bytes × Bytes))
    {l : Nat} (hkf : KeyedFree H Q μ l) :
    (canonLevel H Q μ l).filter (fun c => keyLt none c.key) = [] := by
  rw [List.filter_eq_nil_iff]
  intro c hc hpred
  have hpred' : keyLt none c.key = true := hpred
  rw [hkf c hc, keyLt_irrefl] at hpred'
  exact Bool.false_ne_true hpred'

theorem updateAnchor_master (H : Bytes → Bytes) (Q : Nat) (m μ : List (Bytes × Bytes))
    (hq : 2 ≤ Q) (hH : ∀ b, ByteString (H b) ∧ 4 ≤ (H b).length)
    (hm : EntriesWF m) (hμ : EntriesWF μ) (TA : Nat) :
    ∀ (fuel : Nat) (s : Store) (L : Nat),
    1 ≤ L →
    StoreWF s →
    (∀ n ∈ s, ByteString n.hash ∧ 4 ≤ n.hash.length) →
    (∀ l, l < L → levelNodes s l = canonLevel H Q μ l) →
    (∀ l, L ≤ l → levelNodes s l =
      (if l ≤ TA then canonLevel H Q m l else []).filter (fun c => keyLe c.key none) ++
        (canonLevel H Q μ l).filter (fun c => keyLt none c.key)) →
    (∀ l, 1 ≤ l → l < L → ¬ KeyedFree H Q μ l) →
    ∀ r, updateAnchor H Q fuel s L = some r →
    ∃ T, r = canonStore H Q μ T ∧ CTop H Q μ T := by
  intro fuel
  induction fuel with
  | zero =>
    intro s L _ _ _ _ _ _ r hr
    exact absurd hr (by unfold updateAnchor; simp)
  | succ fuel ih =>
    intro s L h1 hwf hhw hlow hhyb hbelow r hr
    cases L with
    | zero => exact absurd h1 (by omega)
    | succ L' =>
      obtain ⟨a, rest, memh, S, csh, hlvB, hak, hlc, hflat, hmemnb, hSfact, hlvB1⟩ :=
        canonLevel_anchor_chunk H Q μ L'
      have hns : levelNodes s L' = [] ++ ((a :: memh) ++ S) := by
        rw [hlow L' (by omega), hlvB, hflat]
        rfl
      have hgethash : getHash H Q s (L' + 1) none =
          H (((a :: memh).map Node.hash).flatten) := by
        rw [← hak]
        exact getHash_of_decomp H Q s L' hq hwf hhw [] a memh S hns hmemnb hSfact
      have hnd : (⟨L' + 1, none, getHash H Q s (L' + 1) none, none⟩ : Node) =
          chunkParent H L' (a, memh) := by
        rw [hgethash]
        show (⟨L' + 1, none, H (((a :: memh).map Node.hash).flatten), none⟩ : Node) =
          ⟨L' + 1, a.key, H (((a :: memh).map Node.hash).flatten), none⟩
        rw [hak]
      have hbody : updateAnchor H Q (fuel + 1) s (L' + 1) =
          (match firstRealKey
              (setNode s ⟨L' + 1, none, getHash H Q s (L' + 1) none, none⟩) (L' + 1) with
           | none => deleteParents fuel
              (setNode s ⟨L' + 1, none, getHash H Q s (L' + 1) none, none⟩) (L' + 1) none
           | some _ => updateAnchor H Q fuel
              (setNode s ⟨L' + 1, none, getHash H Q s (L' + 1) none, none⟩) (L' + 2)) := rfl
      rw [hnd] at hbody
      rw [hbody] at hr
      -- the written store
      have hankey : (chunkParent H L' (a, memh)).key = none := hak
      have hs'wf : StoreWF (setNode s (chunkParent H L' (a, memh))) := setNode_wf hwf _
      have hs'hw : ∀ n ∈ setNode s (chunkParent H L' (a, memh)),
          ByteString n.hash ∧ 4 ≤ n.hash.length := by
        intro n hn
        rcases setNode_mem s _ n hn with rfl | hn2
        · exact hH _
        · exact hhw n hn2
      have hs'levNe : ∀ l, l ≠ L' + 1 →
          levelNodes (setNode s (chunkParent H L' (a, memh))) l = levelNodes s l := by
        intro l hl
        rw [setNode_levelNodes hwf, if_neg (show l ≠ (chunkParent H L' (a, memh)).level from hl)]
      have hpwB1 := canonLevel_pairwise H Q μ hμ (L' + 1)
      have hanfB1 := level_anchor_filters (by rw [← hlvB1]; exact hpwB1) hankey
      have hs'levL : levelNodes (setNode s (chunkParent H L' (a, memh))) (L' + 1) =
          canonLevel H Q μ (L' + 1) := by
        rw [setNode_levelNodes hwf,
          if_pos (show L' + 1 = (chunkParent H L' (a, memh)).level from rfl),
          keyUpsert_sorted _ _ (levelNodes_pairwise hwf (L' + 1))]
        have e1 : (levelNodes s (L' + 1)).filter
            (fun c => keyLt c.key (chunkParent H L' (a, memh)).key) = [] := by
          rw [List.filter_eq_nil_iff]
          intro c _ hpred
          have hpred' : keyLt c.key (chunkParent H L' (a, memh)).key = true := hpred
          rw [hankey, keyLt_none_right] at hpred'
          exact Bool.false_ne_true hpred'
        have e2 : (levelNodes s (L' + 1)).filter
            (fun c => keyLt (chunkParent H L' (a, memh)).key c.key) =
            (canonLevel H Q μ (L' + 1)).filter (fun c => keyLt none c.key) := by
          rw [show (fun (c : Node) => keyLt (chunkParent H L' (a, memh)).key c.key)
            = (fun (c : Node) => keyLt none c.key) by rw [hankey]]
          rw [hhyb (L' + 1) (by omega), List.filter_append]
          have f1 : (((if L' + 1 ≤ TA then canonLevel H Q m (L' + 1) else []).filter
              (fun c => keyLe c.key none)).filter (fun c => keyLt none c.key)) = [] := by
            rw [List.filter_eq_nil_iff]
            intro c hc hpred
            have hpred' : keyLt none c.key = true := hpred
            rw [keyLe_none_eq_none (List.mem_filter.mp hc).2, keyLt_irrefl] at hpred'
            exact Bool.false_ne_true hpred'
          have f2 : ((canonLevel H Q μ (L' + 1)).filter (fun c => keyLt none c.key)).filter
              (fun c => keyLt none c.key) =
              (canonLevel H Q μ (L' + 1)).filter (fun c => keyLt none c.key) := by
            rw [List.filter_eq_self]
            intro c hc
            exact (List.mem_filter.mp hc).2
          rw [f1, f2, List.nil_append]
        rw [e1, e2, List.nil_append,
          show (canonLevel H Q μ (L' + 1)).filter (fun c => keyLt none c.key) =
            csh.map (chunkParent H L') from by rw [hlvB1]; exact hanfB1.2.1,
          hlvB1]
      -- the first-real-key probe reads the keyed tail of the new level
      have hfrk : firstRealKey (setNode s (chunkParent H L' (a, memh))) (L' + 1) =
          (csh.map (chunkParent H L')).head? := by
        unfold firstRealKey
        rw [hs'levL, hlvB1, hanfB1.2.2]
      cases hcsh : csh.map (chunkParent H L') with
      | nil =>
        -- no keyed node remains: prune the legacy anchors above
        rw [hcsh] at hfrk
        rw [hfrk] at hr
        have hkfL : KeyedFree H Q μ (L' + 1) := by
          intro c hc
          rw [hlvB1, hcsh] at hc
          rcases List.mem_cons.mp hc with rfl | hc2
          · exact hankey
          · exact absurd hc2 (List.not_mem_nil c)
        -- evaluate the legacy anchors above the stop level
        have hs'lev_hi : ∀ l, L' + 1 < l →
            levelNodes (setNode s (chunkParent H L' (a, memh))) l =
            (if l ≤ TA then canonLevel H Q m l else []).filter (fun c => keyLe c.key none) := by
          intro l hl
          rw [hs'levNe l (by omega), hhyb l (by omega),
            keyedFree_filter_gt H Q μ (KeyedFree_mono H Q μ (by omega) hkfL),
            List.append_nil]
        have hlev_am : ∀ l, L' + 1 < l → l ≤ TA →
            ∃ am, am.key = none ∧
              levelNodes (setNode s (chunkParent H L' (a, memh))) l = [am] := by
          intro l hl hlTA
          obtain ⟨am, restm, hlvm, hakm⟩ := canonLevel_head_anchor H Q m l
          have hanfm := level_anchor_filters
            (by rw [← hlvm]; exact canonLevel_pairwise H Q m hm l) hakm
          refine ⟨am, hakm, ?_⟩
          rw [hs'lev_hi l hl, if_pos hlTA, hlvm, hanfm.1]
        have hget_some : ∀ l, L' + 1 < l → l ≤ TA →
            getNode (setNode s (chunkParent H L' (a, memh))) l none ≠ none := by
          intro l hl hlTA
          obtain ⟨am, hakm, hlv1⟩ := hlev_am l hl hlTA
          rw [getNode_level_some (show levelNodes _ l = [] ++ am :: [] from hlv1)
            (fun x hx => absurd hx (List.not_mem_nil x)) hakm]
          simp
        have hget_none : ∀ l, L' + 1 < l → ¬(l ≤ TA) →
            getNode (setNode s (chunkParent H L' (a, memh))) l none = none := by
          intro l hl hlTA
          apply getNode_level_none
          intro x hx
          rw [hs'lev_hi l hl, if_neg hlTA] at hx
          exact absurd (List.mem_filter.mp hx).1 (List.not_mem_nil x)
        have hdc : ∀ l, L' + 1 < l →
            getNode (setNode s (chunkParent H L' (a, memh))) (l + 1) none ≠ none →
            getNode (setNode s (chunkParent H L' (a, memh))) l none ≠ none := by
          intro l hl hne
          by_cases hllTA : l + 1 ≤ TA
          · exact hget_some l hl (by omega)
          · exact absurd (hget_none (l + 1) (by omega) hllTA) hne
        have hlevr := deleteParents_levels fuel _ (L' + 1) none r hr hdc
        have hrwf := deleteParents_wf fuel _ (L' + 1) none r hr hs'wf
        refine ⟨L' + 1, ?_, by omega, hkfL, hbelow⟩
        apply store_ext hrwf (canonStore_wf H Q μ hμ (L' + 1))
        intro l
        rw [hlevr l, canonStore_levelNodes]
        rcases Nat.lt_trichotomy l (L' + 1) with hl | hl | hl
        · rw [if_neg (show ¬(L' + 1 < l ∧ _) from fun hc => by omega),
            if_pos (by omega : l ≤ L' + 1), hs'levNe l (by omega)]
          exact hlow l hl
        · subst hl
          rw [if_neg (show ¬(L' + 1 < L' + 1 ∧ _) from fun hc => by omega),
            if_pos (Nat.le_refl _)]
          exact hs'levL
        · rw [if_neg (by omega : ¬l ≤ L' + 1)]
          by_cases hlTA : l ≤ TA
          · rw [if_pos ⟨hl, hget_some l hl hlTA⟩]
            obtain ⟨am, hakm, hlv1⟩ := hlev_am l hl hlTA
            rw [hlv1]
            unfold keyDelete
            rw [List.filter_cons, if_neg (show ¬((fun n => !(n.key == none)) am = true) by
              intro hq
              have hq' : (!(am.key == none)) = true := hq
              rw [beq_iff_eq.mpr hakm] at hq'
              exact absurd hq' (by simp))]
            rfl
          · rw [if_neg (show ¬(L' + 1 < l ∧ getNode _ l none ≠ none) from
              fun hc => hc.2 (hget_none l hl hlTA)),
              hs'lev_hi l hl, if_neg hlTA]
            rfl
      | cons nd2 tl =>
        rw [hcsh] at hfrk
        rw [hfrk] at hr
        apply ih (setNode s (chunkParent H L' (a, memh))) (L' + 2) (by omega)
          hs'wf hs'hw ?_ ?_ ?_ r hr
        · intro l hl
          rcases Nat.lt_or_ge l (L' + 1) with h2 | h2
          · rw [hs'levNe l (by omega)]
            exact hlow l h2
          · have : l = L' + 1 := by omega
            rw [this, hs'levL]
        · intro l hl
          rw [hs'levNe l (by omega)]
          exact hhyb l (by omega)
        · intro l hl1 hl2
          rcases Nat.lt_or_ge l (L' + 1) with h2 | h2
          · exact hbelow l hl1 h2
          · have hleq : l = L' + 1 := by omega
            rw [hleq]
            intro hkf
            have hnd2 : nd2 ∈ canonLevel H Q μ (L' + 1) := by
              rw [hlvB1, hcsh]
              exact List.mem_cons_of_mem _ (List.mem_cons_self _ _)
            have h3 : nd2 ∈ (chunkParent H L' (a, memh) ::
                csh.map (chunkParent H L')).filter (fun c => keyLt none c.key) := by
              rw [hanfB1.2.1, hcsh]
              exact List.mem_cons_self _ _
            have h5 : keyLt none nd2.key = true := (List.mem_filter.mp h3).2
            rw [hkf nd2 hnd2, keyLt_irrefl] at h5
            exact Bool.false_ne_true h5

/-! ## Support for the mutual update master -/

theorem keyLt_of_le_of_ne {a b : NodeKey} (h : keyLe a b = true) (hne : a ≠ b) :
    keyLt a b = true := by
  unfold keyLe at h
  rw [Bool.or_eq_true] at h
  rcases h with h1 | h2
  · exact h1
  · exact absurd (beq_iff_eq.mp h2) hne

/-- The last hit of a filter over a sorted level: it exists as soon as one
hit does, and every hit is at or below it. -/
theorem filter_getLast_spec {p : Node → Bool} {ns : List Node}
    (hpw : List.Pairwise (fun x y => keyLt x.key y.key = true) ns)
    {c0 : Node} (hc0 : c0 ∈ ns) (hp0 : p c0 = true) :
    ∃ fsn, (ns.filter p).getLast? = some fsn ∧ fsn ∈ ns ∧ p fsn = true ∧
      ∀ c ∈ ns, p c = true → c = fsn ∨ keyLt c.key fsn.key = true := by
  have hmem0 : c0 ∈ ns.filter p := List.mem_filter.mpr ⟨hc0, hp0⟩
  rcases List.eq_nil_or_concat (ns.filter p) with hnil | ⟨ys, y, hys⟩
  · rw [hnil] at hmem0
    exact absurd hmem0 (List.not_mem_nil c0)
  · rw [List.concat_eq_append] at hys
    have hlast : (ns.filter p).getLast? = some y := by
      rw [hys]
      exact List.getLast?_concat ys
    have hymem : y ∈ ns.filter p := by
      rw [hys]
      simp
    have hmax := pairwise_getLast?_max (ns.filter p) (List.Pairwise.filter p hpw) y hlast
    exact ⟨y, hlast, (List.mem_filter.mp hymem).1, (List.mem_filter.mp hymem).2,
      fun c hc hpc => hmax c (List.mem_filter.mpr ⟨hc, hpc⟩)⟩

/-- What `getFirstSibling` returns on a level led by an anchor, for a keyed
probe node: the last candidate, which is the anchor or a boundary, sits at
or below the probe key, and every strictly later column at or below the
probe key is a non-boundary. -/
theorem fs_char (Q : Nat) (hq : 2 ≤ Q) {s : Store} (hwf : StoreWF s)
    (hhw : ∀ c ∈ s, ByteString c.hash ∧ 4 ≤ c.hash.length)
    {n : Node} {jk : Bytes} (hk : n.key = some jk)
    {a : Node} {restL : List Node} (hlev : levelNodes s n.level = a :: restL)
    (hak : a.key = none) :
    ∃ fsn, getFirstSibling Q s n = some fsn ∧ fsn ∈ levelNodes s n.level ∧
      keyLe fsn.key (some jk) = true ∧
      (∀ b, fsn.key = some b → isBoundary Q fsn = true) ∧
      (∀ c ∈ levelNodes s n.level, keyLt fsn.key c.key = true →
        keyLe c.key (some jk) = true → isBoundary Q c = false) := by
  have hpw := levelNodes_pairwise hwf n.level
  have ha0 : a ∈ levelNodes s n.level := by
    rw [hlev]
    exact List.mem_cons_self _ _
  have hp0 : ((fun c : Node =>
      (c.key == none || (keyLe c.key n.key && byteaLt c.hash (limitKey Q)))) a) = true := by
    show (a.key == none || (keyLe a.key n.key && byteaLt a.hash (limitKey Q))) = true
    rw [hak]
    rfl
  obtain ⟨fsn, hlast, hmem, hpfs, hmax⟩ :=
    @filter_getLast_spec
      (fun c : Node => (c.key == none || (keyLe c.key n.key && byteaLt c.hash (limitKey Q))))
      (levelNodes s n.level) hpw a ha0 hp0
  have hpfs' : (fsn.key == none ||
      (keyLe fsn.key n.key && byteaLt fsn.hash (limitKey Q))) = true := hpfs
  have hsn : fsn ∈ s := (mem_levelNodes.mp hmem).1
  refine ⟨fsn, ?_, hmem, ?_, ?_, ?_⟩
  · rw [getFirstSibling_eq hk]
    exact hlast
  · have hpd := hpfs'
    rw [Bool.or_eq_true] at hpd
    rcases hpd with h1 | h2
    · rw [beq_iff_eq.mp h1]
      exact keyLe_none_left _
    · rw [Bool.and_eq_true] at h2
      have hle := h2.1
      rw [hk] at hle
      exact hle
  · intro b hb
    have hpd := hpfs'
    rw [Bool.or_eq_true] at hpd
    rcases hpd with h1 | h2
    · rw [hb] at h1
      exact absurd (beq_iff_eq.mp h1) (by simp)
    · rw [Bool.and_eq_true] at h2
      have hh := hhw fsn hsn
      exact (byteaLt_limitKey_iff_isBoundary Q fsn hh.1 hh.2 hq).mp h2.2
  · intro c hc hgt hle
    cases hbdc : isBoundary Q c with
    | false => rfl
    | true =>
      exfalso
      have hh := hhw c (mem_levelNodes.mp hc).1
      have hblt : byteaLt c.hash (limitKey Q) = true :=
        (byteaLt_limitKey_iff_isBoundary Q c hh.1 hh.2 hq).mpr hbdc
      have hpc : ((fun c : Node =>
          (c.key == none || (keyLe c.key n.key && byteaLt c.hash (limitKey Q)))) c) = true := by
        show (c.key == none || (keyLe c.key n.key && byteaLt c.hash (limitKey Q))) = true
        rw [hk, hle, hblt]
        simp
      rcases hmax c hc hpc with heq | hlt
      · rw [heq, keyLt_irrefl] at hgt
        exact Bool.false_ne_true hgt
      · rw [keyLt_asymm hlt] at hgt
        exact Bool.false_ne_true hgt

/-- When the column at the cut is absent or a non-boundary, no level above
carries the key at all. -/
theorem canonLevel_no_col_above (H : Bytes → Bytes) (Q : Nat) (m : List (Bytes × Bytes))
    (L : Nat) (x : Bytes)
    (hnb : ∀ c ∈ canonLevel H Q m L, c.key = some x → isBoundary Q c = false) :
    ∀ l, L < l → ∀ c ∈ canonLevel H Q m l, c.key ≠ some x := by
  have hd : ∀ d, ∀ c ∈ canonLevel H Q m (L + 1 + d), c.key ≠ some x := by
    intro d
    induction d with
    | zero =>
      intro c hc hck
      obtain ⟨c', hc', hck', hbd⟩ := canonLevel_col_chain H Q m L c hc (by rw [hck]; simp)
      rw [hnb c' hc' (by rw [hck', hck])] at hbd
      exact Bool.false_ne_true hbd
    | succ d ih =>
      intro c hc hck
      obtain ⟨c', hc', hck', -⟩ := canonLevel_col_chain H Q m (L + 1 + d) c hc
        (by rw [hck]; simp)
      exact ih c' hc' (by rw [hck', hck])
  intro l hl
  have he : l = L + 1 + (l - L - 1) := by omega
  rw [he]
  exact hd (l - L - 1)

/-! ### Moving the hybrid cut down from `jk` to the first sibling key -/

theorem filter_le_shrink {j' : NodeKey} {jk : Bytes} {ns : List Node}
    (hj : keyLt j' (some jk) = true)
    (hgap : ∀ c ∈ ns, keyLt j' c.key = true → keyLt c.key (some jk) = true → False)
    (hat : ∀ c ∈ ns, c.key ≠ some jk) :
    ns.filter (fun c => keyLe c.key (some jk)) = ns.filter (fun c => keyLe c.key j') := by
  apply List.filter_congr
  intro c hc
  show keyLe c.key (some jk) = keyLe c.key j'
  cases h1 : keyLe c.key j' with
  | true => exact keyLe_trans h1 (keyLe_of_lt hj)
  | false =>
    cases h2 : keyLe c.key (some jk) with
    | false => rfl
    | true =>
      exact absurd (hgap c hc (keyLt_of_not_le h1) (keyLt_of_le_of_ne h2 (hat c hc)))
        (fun f => f)

theorem filter_lt_shrink {j' : NodeKey} {jk : Bytes} {ns : List Node}
    (hj : keyLt j' (some jk) = true)
    (hgap : ∀ c ∈ ns, keyLt j' c.key = true → keyLt c.key (some jk) = true → False) :
    ns.filter (fun c => keyLt c.key (some jk)) = ns.filter (fun c => keyLe c.key j') := by
  apply List.filter_congr
  intro c hc
  show keyLt c.key (some jk) = keyLe c.key j'
  cases h1 : keyLe c.key j' with
  | true => exact keyLt_of_le_of_lt h1 hj
  | false =>
    cases h2 : keyLt c.key (some jk) with
    | false => rfl
    | true => exact absurd (hgap c hc (keyLt_of_not_le h1) h2) (fun f => f)

theorem filter_ge_shrink {j' : NodeKey} {jk : Bytes} {ns : List Node}
    (hj : keyLt j' (some jk) = true)
    (hgap : ∀ c ∈ ns, keyLt j' c.key = true → keyLt c.key (some jk) = true → False) :
    ns.filter (fun c => keyLe (some jk) c.key) = ns.filter (fun c => keyLt j' c.key) := by
  apply List.filter_congr
  intro c hc
  show keyLe (some jk) c.key = keyLt j' c.key
  cases h1 : keyLe (some jk) c.key with
  | true => exact (keyLt_of_lt_of_le hj h1).symm
  | false =>
    cases h2 : keyLt j' c.key with
    | false => rfl
    | true => exact absurd (hgap c hc h2 (keyLt_of_not_le h1)) (fun f => f)

theorem filter_gt_shrink {j' : NodeKey} {jk : Bytes} {ns : List Node}
    (hj : keyLt j' (some jk) = true)
    (hgap : ∀ c ∈ ns, keyLt j' c.key = true → keyLt c.key (some jk) = true → False)
    (hat : ∀ c ∈ ns, c.key ≠ some jk) :
    ns.filter (fun c => keyLt (some jk) c.key) = ns.filter (fun c => keyLt j' c.key) := by
  apply List.filter_congr
  intro c hc
  show keyLt (some jk) c.key = keyLt j' c.key
  cases h1 : keyLt (some jk) c.key with
  | true => exact (keyLt_of_lt_of_le hj (keyLe_of_lt h1)).symm
  | false =>
    cases h2 : keyLt j' c.key with
    | false => rfl
    | true =>
      exfalso
      cases hck : c.key with
      | none =>
        rw [hck, keyLt_none_right] at h2
        exact Bool.false_ne_true h2
      | some b =>
        have hbne : b ≠ jk := fun he => hat c hc (by rw [hck, he])
        rcases byteaLt_total hbne with hb | hb
        · exact hgap c hc h2 (by rw [hck]; exact hb)
        · rw [hck, show keyLt (some jk) (some b) = byteaLt jk b from rfl, hb] at h1
          exact Bool.false_ne_true h1.symm

theorem filter_le_eq_lt_of_no_col {κ : NodeKey} {ns : List Node}
    (hno : ∀ c ∈ ns, c.key ≠ κ) :
    ns.filter (fun c => keyLe c.key κ) = ns.filter (fun c => keyLt c.key κ) := by
  apply List.filter_congr
  intro c hc
  show keyLe c.key κ = keyLt c.key κ
  unfold keyLe
  rw [beq_eq_false_iff_ne.mpr (hno c hc), Bool.or_false]

/-- A sorted level splits around any of its columns. -/
theorem level_col_decomp {ns : List Node}
    (hpw : List.Pairwise (fun x y => keyLt x.key y.key = true) ns)
    {c : Node} (hc : c ∈ ns) {κ : NodeKey} (hk : c.key = κ) :
    ns = ns.filter (fun x => keyLt x.key κ) ++ c :: ns.filter (fun x => keyLt κ x.key) := by
  conv_lhs => rw [sorted_split_le κ ns hpw]
  rw [filter_le_of_col hpw hc hk, List.append_assoc, List.singleton_append]

/-- Writing the new tree's column into the hybrid level completes it to the
new tree's canonical level. -/
theorem hybrid_setNode_level (H : Bytes → Bytes) (Q : Nat) (m μ : List (Bytes × Bytes))
    (hμ : EntriesWF μ) {s : Store} (hwf : StoreWF s)
    {L : Nat} {jk : Bytes} {n : Node}
    (hlev : levelNodes s L =
      (canonLevel H Q m L).filter (fun c => keyLe c.key (some jk)) ++
        (canonLevel H Q μ L).filter (fun c => keyLt (some jk) c.key))
    (hF1 : (canonLevel H Q m L).filter (fun c => keyLt c.key (some jk)) =
      (canonLevel H Q μ L).filter (fun c => keyLt c.key (some jk)))
    (hn : n ∈ canonLevel H Q μ L) (hk : n.key = some jk) (hnl : n.level = L) :
    levelNodes (setNode s n) L = canonLevel H Q μ L := by
  have hpwB := canonLevel_pairwise H Q μ hμ L
  rw [setNode_levelNodes hwf n L, if_pos hnl.symm,
    keyUpsert_sorted n _ (levelNodes_pairwise hwf L), hk, hlev,
    List.filter_append, List.filter_append]
  have e1 : ((canonLevel H Q m L).filter (fun c => keyLe c.key (some jk))).filter
      (fun c => keyLt c.key (some jk)) =
      (canonLevel H Q m L).filter (fun c => keyLt c.key (some jk)) :=
    filter_sub (fun c h => keyLe_of_lt h) _
  have e2 : ((canonLevel H Q μ L).filter (fun c => keyLt (some jk) c.key)).filter
      (fun c => keyLt c.key (some jk)) = [] := by
    rw [List.filter_eq_nil_iff]
    intro c hc hpred
    have h1 : keyLt (some jk) c.key = true := (List.mem_filter.mp hc).2
    have h2 : keyLt c.key (some jk) = true := hpred
    rw [keyLt_asymm h1] at h2
    exact Bool.false_ne_true h2
  have e3 : ((canonLevel H Q m L).filter (fun c => keyLe c.key (some jk))).filter
      (fun c => keyLt (some jk) c.key) = [] := by
    rw [List.filter_eq_nil_iff]
    intro c hc hpred
    have h1 : keyLe c.key (some jk) = true := (List.mem_filter.mp hc).2
    have h2 : keyLt (some jk) c.key = true := hpred
    rw [keyLt_eq_false_of_le h1] at h2
    exact Bool.false_ne_true h2
  have e4 : ((canonLevel H Q μ L).filter (fun c => keyLt (some jk) c.key)).filter
      (fun c => keyLt (some jk) c.key) =
      (canonLevel H Q μ L).filter (fun c => keyLt (some jk) c.key) := by
    rw [List.filter_eq_self]
    intro c hc
    exact (List.mem_filter.mp hc).2
  rw [e1, e2, e3, e4, List.append_nil, List.nil_append, hF1]
  exact (level_col_decomp hpwB hn hk).symm

/-- The one-step transport of agreement-below through `nextLevelNodes`,
phrased on canonical levels. -/
theorem canonLevel_agree_below_step (H : Bytes → Bytes) (Q : Nat)
    (m μ : List (Bytes × Bytes)) (hm : EntriesWF m) (hμ : EntriesWF μ)
    (L : Nat) (j' : NodeKey)
    (hagree : (canonLevel H Q m L).filter (fun c => keyLt c.key j') =
      (canonLevel H Q μ L).filter (fun c => keyLt c.key j'))
    (hbj : j' = none ∨
      ((∃ bx ∈ canonLevel H Q m L, bx.key = j' ∧ isBoundary Q bx = true) ∧
       (∃ bz ∈ canonLevel H Q μ L, bz.key = j' ∧ isBoundary Q bz = true))) :
    (canonLevel H Q m (L + 1)).filter (fun c => keyLt c.key j') =
      (canonLevel H Q μ (L + 1)).filter (fun c => keyLt c.key j') := by
  obtain ⟨a, restA, hlvA, hakA⟩ := canonLevel_head_anchor H Q m L
  obtain ⟨a2, restB, hlvB, hakB⟩ := canonLevel_head_anchor H Q μ L
  have hpwA := canonLevel_pairwise H Q m hm L
  rw [hlvA] at hpwA
  have hpwB := canonLevel_pairwise H Q μ hμ L
  rw [hlvB] at hpwB
  rw [canonLevel_succ, canonLevel_succ, hlvA, hlvB]
  apply nextLevel_agree_below H Q L j' hpwA hpwB hakA hakB
  · rw [← hlvA, ← hlvB]
    exact hagree
  · rcases hbj with h | ⟨⟨bx, hbx, h1, h2⟩, ⟨bz, hbz, h3, h4⟩⟩
    · exact Or.inl h
    · refine Or.inr ⟨⟨bx, ?_, h1, h2⟩, ⟨bz, ?_, h3, h4⟩⟩
      · rw [← hlvA]
        exact hbx
      · rw [← hlvB]
        exact hbz

theorem le_TA_of_keyed (H : Bytes → Bytes) (Q : Nat) (m : List (Bytes × Bytes))
    {TA l : Nat} (hTAkf : KeyedFree H Q m TA) (hnk : ¬ KeyedFree H Q m l) : l ≤ TA := by
  by_contra h
  exact hnk (KeyedFree_mono H Q m (by omega) hTAkf)

theorem not_keyedFree_of_mem (H : Bytes → Bytes) (Q : Nat) (m : List (Bytes × Bytes))
    {l : Nat} {c : Node} (hc : c ∈ canonLevel H Q m l) {b : Bytes} (hk : c.key = some b) :
    ¬ KeyedFree H Q m l := by
  intro hkf
  rw [hkf c hc] at hk
  exact absurd hk (by simp)

/-- The running invariant of the ascent: levels strictly below the spine
are already the new tree's, levels at or above it are the old tree at or
below the spine key glued to the new tree strictly above it, the towers
agree strictly below the key at the spine level, the new tree has a column
at the spine, the spine is within the old stored height, and no new-tree
level strictly below the spine is keyed-free. -/
def UpdHyp (H : Bytes → Bytes) (Q : Nat) (m μ : List (Bytes × Bytes)) (TA : Nat)
    (s : Store) (L : Nat) (jk : Bytes) : Prop :=
  StoreWF s ∧
  (∀ n ∈ s, ByteString n.hash ∧ 4 ≤ n.hash.length) ∧
  (∀ l, l < L → levelNodes s l = canonLevel H Q μ l) ∧
  (∀ l, L ≤ l → levelNodes s l =
    (if l ≤ TA then canonLevel H Q m l else []).filter (fun c => keyLe c.key (some jk)) ++
      (canonLevel H Q μ l).filter (fun c => keyLt (some jk) c.key)) ∧
  ((canonLevel H Q m L).filter (fun c => keyLt c.key (some jk)) =
    (canonLevel H Q μ L).filter (fun c => keyLt c.key (some jk))) ∧
  (∃ colB ∈ canonLevel H Q μ L, colB.key = some jk) ∧
  L ≤ TA ∧
  (∀ l, 1 ≤ l → l < L → ¬ KeyedFree H Q μ l)

/-- The target of every mutation run: some canonical store of the new
entry map, topped at its canonical top. -/
def CanonOut (H : Bytes → Bytes) (Q : Nat) (μ : List (Bytes × Bytes)) (r : Store) : Prop :=
  ∃ T, r = canonStore H Q μ T ∧ CTop H Q μ T

/-- The common tail of `replaceDefault` and the teardown branch of
`replaceBoundary`: with the store fully new at and below `L` and hybrid at
the first-sibling key above, the final `update`/`updateAnchor` dispatch
lands in a canonical store. -/
theorem ascend_step (H : Bytes → Bytes) (Q : Nat) (m μ : List (Bytes × Bytes))
    (hq : 2 ≤ Q) (hH : ∀ b, ByteString (H b) ∧ 4 ≤ (H b).length)
    (hm : EntriesWF m) (hμ : EntriesWF μ) (TA : Nat) (hTAkf : KeyedFree H Q m TA)
    (fuel : Nat)
    (ihU : ∀ s L jk, UpdHyp H Q m μ TA s L jk → 1 ≤ L →
      ∀ r, update H Q fuel s L (some jk) = some r → CanonOut H Q μ r)
    (s2 : Store) (L : Nat) (fk : NodeKey)
    (hwf2 : StoreWF s2)
    (hhw2 : ∀ n ∈ s2, ByteString n.hash ∧ 4 ≤ n.hash.length)
    (hlow2 : ∀ l, l ≤ L → levelNodes s2 l = canonLevel H Q μ l)
    (hhyb2 : ∀ l, L < l → levelNodes s2 l =
      (if l ≤ TA then canonLevel H Q m l else []).filter (fun c => keyLe c.key fk) ++
        (canonLevel H Q μ l).filter (fun c => keyLt fk c.key))
    (hagreeL : (canonLevel H Q m L).filter (fun c => keyLt c.key fk) =
      (canonLevel H Q μ L).filter (fun c => keyLt c.key fk))
    (hbj : fk = none ∨
      ((∃ bx ∈ canonLevel H Q m L, bx.key = fk ∧ isBoundary Q bx = true) ∧
       (∃ bz ∈ canonLevel H Q μ L, bz.key = fk ∧ isBoundary Q bz = true)))
    (hbelowL : ∀ l, 1 ≤ l → l ≤ L → ¬ KeyedFree H Q μ l)
    (r : Store)
    (hr : (match fk with
           | none => updateAnchor H Q fuel s2 (L + 1)
           | some k => update H Q fuel s2 (L + 1) (some k)) = some r) :
    CanonOut H Q μ r := by
  cases fk with
  | none =>
    have hr' : updateAnchor H Q fuel s2 (L + 1) = some r := hr
    exact updateAnchor_master H Q m μ hq hH hm hμ TA fuel s2 (L + 1) (by omega) hwf2 hhw2
      (fun l hl => hlow2 l (by omega))
      (fun l hl => hhyb2 l (by omega))
      (fun l h1 h2 => hbelowL l h1 (by omega)) r hr'
  | some j' =>
    have hr' : update H Q fuel s2 (L + 1) (some j') = some r := hr
    rcases hbj with habs | ⟨⟨bx, hbx, hbxk, hbxbd⟩, ⟨bz, hbz, hbzk, hbzbd⟩⟩
    · exact absurd habs (by simp)
    obtain ⟨aB, restB, memB, SB, hlvB, hakB, hchB, hfB, hmemB, hSB⟩ :=
      canonLevel_chunk_at_bd H Q μ hμ L hbz hbzk hbzbd
    have hparB := canonLevel_parent_of_chunk H Q μ L hlvB hchB
    obtain ⟨aA, restA, memA, SA, hlvA, hakA, hchA, hfA, hmemA, hSA⟩ :=
      canonLevel_chunk_at_bd H Q m hm L hbx hbxk hbxbd
    have hparA := canonLevel_parent_of_chunk H Q m L hlvA hchA
    have hLTA1 : L + 1 ≤ TA := by
      apply le_TA_of_keyed H Q m hTAkf
      exact not_keyedFree_of_mem H Q m hparA
        (show (chunkParent H L (bx, memA)).key = some j' from hbxk)
    refine ihU s2 (L + 1) j' ⟨hwf2, hhw2, fun l hl => hlow2 l (by omega),
      fun l hl => hhyb2 l (by omega),
      canonLevel_agree_below_step H Q m μ hm hμ L (some j') hagreeL
        (Or.inr ⟨⟨bx, hbx, hbxk, hbxbd⟩, ⟨bz, hbz, hbzk, hbzbd⟩⟩),
      ⟨chunkParent H L (bz, memB), hparB,
        (show (chunkParent H L (bz, memB)).key = some j' from hbzk)⟩,
      hLTA1,
      fun l h1 h2 => hbelowL l h1 (by omega)⟩ (by omega) r hr'

set_option maxHeartbeats 3200000 in
/-- The mutual master: under the ascent invariant, every successful
`update` / `replace` / `replaceDefault` / `replaceBoundary` run ends in a
canonical store of the new entry map. -/
theorem mutation_master (H : Bytes → Bytes) (Q : Nat) (m μ : List (Bytes × Bytes))
    (hq : 2 ≤ Q) (hH : ∀ b, ByteString (H b) ∧ 4 ≤ (H b).length)
    (hm : EntriesWF m) (hμ : EntriesWF μ) (TA : Nat) (hTAkf : KeyedFree H Q m TA) :
    ∀ fuel : Nat,
    (∀ s L jk, UpdHyp H Q m μ TA s L jk → 1 ≤ L →
      ∀ r, update H Q fuel s L (some jk) = some r → CanonOut H Q μ r) ∧
    (∀ s L jk n, UpdHyp H Q m μ TA s L jk →
      n ∈ canonLevel H Q μ L → n.key = some jk →
      ∀ r, replace H Q fuel s (getNode s L (some jk)) n = some r → CanonOut H Q μ r) ∧
    (∀ s L jk n, UpdHyp H Q m μ TA s L jk →
      n ∈ canonLevel H Q μ L → n.key = some jk →
      (∀ c ∈ canonLevel H Q m L, c.key = some jk → isBoundary Q c = false) →
      ∀ r, replaceDefault H Q fuel s n = some r → CanonOut H Q μ r) ∧
    (∀ s L jk n, UpdHyp H Q m μ TA s L jk →
      n ∈ canonLevel H Q μ L → n.key = some jk →
      (∃ cA ∈ canonLevel H Q m L, cA.key = some jk ∧ isBoundary Q cA = true) →
      ∀ r, replaceBoundary H Q fuel s n = some r → CanonOut H Q μ r) := by
  intro fuel
  induction fuel with
  | zero =>
    refine ⟨?_, ?_, ?_, ?_⟩
    · intro s L jk _ _ r hr
      exact absurd (show (none : Option Store) = some r from hr) (by simp)
    · intro s L jk n _ _ _ r hr
      exact absurd (show (none : Option Store) = some r from hr) (by simp)
    · intro s L jk n _ _ _ _ r hr
      exact absurd (show (none : Option Store) = some r from hr) (by simp)
    · intro s L jk n _ _ _ _ r hr
      exact absurd (show (none : Option Store) = some r from hr) (by simp)
  | succ fuel ih =>
    obtain ⟨ihU, ihR, ihD, ihBD⟩ := ih
    refine ⟨?_, ?_, ?_, ?_⟩
    -- update: compute the chunk parent and hand it to replace
    · intro s L jk hyp h1L r hr
      cases L with
      | zero => exact absurd h1L (by omega)
      | succ L2 =>
        obtain ⟨hwf, hhw, hlow, hhyb, hF1, hcolB, hLTA, hbelow⟩ := hyp
        rw [show update H Q (fuel + 1) s (L2 + 1) (some jk) =
          replace H Q fuel s (getNode s (L2 + 1) (some jk))
            ⟨L2 + 1, some jk, getHash H Q s (L2 + 1) (some jk), none⟩ from rfl] at hr
        obtain ⟨colB, hcolBm, hcolBk⟩ := hcolB
        obtain ⟨c', hc', hck', hcbd'⟩ := canonLevel_col_chain H Q μ L2 colB hcolBm
          (by rw [hcolBk]; simp)
        have hck2 : c'.key = some jk := by rw [hck', hcolBk]
        obtain ⟨aB, restB, memB, SB, hlvB, hakB, hchB, hfB, hmemB, hSB⟩ :=
          canonLevel_chunk_at_bd H Q μ hμ L2 hc' hck2 hcbd'
        have hdec : levelNodes s L2 =
            (canonLevel H Q μ L2).filter (fun c => keyLt c.key (some jk)) ++
              ((c' :: memB) ++ SB) := by
          rw [hlow L2 (by omega)]
          conv_lhs => rw [level_col_decomp (canonLevel_pairwise H Q μ hμ L2) hc' hck2]
          rw [hfB, List.cons_append]
        have hgh : getHash H Q s (L2 + 1) (some jk) =
            H (((c' :: memB).map Node.hash).flatten) := by
          rw [← hck2]
          exact getHash_of_decomp H Q s L2 hq hwf hhw _ c' memB SB hdec hmemB hSB
        have hnode : (⟨L2 + 1, some jk, getHash H Q s (L2 + 1) (some jk), none⟩ : Node) =
            chunkParent H L2 (c', memB) := by
          rw [hgh]
          show (⟨L2 + 1, some jk, H (((c' :: memB).map Node.hash).flatten), none⟩ : Node) =
            ⟨L2 + 1, c'.key, H (((c' :: memB).map Node.hash).flatten), none⟩
          rw [hck2]
        rw [hnode] at hr
        have hpar := canonLevel_parent_of_chunk H Q μ L2 hlvB hchB
        exact ihR s (L2 + 1) jk (chunkParent H L2 (c', memB))
          ⟨hwf, hhw, hlow, hhyb, hF1, ⟨colB, hcolBm, hcolBk⟩, hLTA, hbelow⟩ hpar
          (show (chunkParent H L2 (c', memB)).key = some jk from hck2) r hr
    -- replace: dispatch on the stored column at the key
    · intro s L jk n hyp hnB hnk r hr
      obtain ⟨hwf, hhw, hlow, hhyb, hF1, hcolB, hLTA, hbelow⟩ := hyp
      have hpwA := canonLevel_pairwise H Q m hm L
      by_cases hcA : ∃ cA ∈ canonLevel H Q m L, cA.key = some jk
      · obtain ⟨cA, hcAm, hcAk⟩ := hcA
        have hlevL : levelNodes s L =
            (canonLevel H Q m L).filter (fun c => keyLt c.key (some jk)) ++
              cA :: (canonLevel H Q μ L).filter (fun c => keyLt (some jk) c.key) := by
          have h0 := hhyb L (le_refl L)
          rw [if_pos hLTA, filter_le_of_col hpwA hcAm hcAk,
            List.append_assoc, List.singleton_append] at h0
          exact h0
        have hget : getNode s L (some jk) = some cA :=
          getNode_level_some hlevL
            (fun x hx => keyLt_ne (List.mem_filter.mp hx).2) hcAk
        rw [hget] at hr
        have hr2 : (if isBoundary Q cA then replaceBoundary H Q fuel s n
            else replaceDefault H Q fuel s n) = some r := hr
        cases hbd : isBoundary Q cA with
        | true =>
          rw [hbd] at hr2
          have hr3 : replaceBoundary H Q fuel s n = some r := hr2
          exact ihBD s L jk n ⟨hwf, hhw, hlow, hhyb, hF1, hcolB, hLTA, hbelow⟩ hnB hnk
            ⟨cA, hcAm, hcAk, hbd⟩ r hr3
        | false =>
          rw [hbd] at hr2
          have hr3 : replaceDefault H Q fuel s n = some r := hr2
          refine ihD s L jk n ⟨hwf, hhw, hlow, hhyb, hF1, hcolB, hLTA, hbelow⟩ hnB hnk
            ?_ r hr3
          intro c hc hck
          rw [show c = cA from level_col_unique hpwA hc hcAm (by rw [hck, hcAk])]
          exact hbd
      · have hget : getNode s L (some jk) = none := by
          apply getNode_level_none
          intro x hx
          have h0 := hhyb L (le_refl L)
          rw [if_pos hLTA] at h0
          rw [h0] at hx
          rcases List.mem_append.mp hx with hx1 | hx2
          · intro hxk
            exact hcA ⟨x, (List.mem_filter.mp hx1).1, hxk⟩
          · intro hxk
            have h9 : keyLt (some jk) x.key = true := (List.mem_filter.mp hx2).2
            rw [hxk, keyLt_irrefl] at h9
            exact Bool.false_ne_true h9
        rw [hget] at hr
        have hr3 : replaceDefault H Q fuel s n = some r := hr
        exact ihD s L jk n ⟨hwf, hhw, hlow, hhyb, hF1, hcolB, hLTA, hbelow⟩ hnB hnk
          (fun c hc hck => absurd ⟨c, hc, hck⟩ hcA) r hr3
    -- replaceDefault: the previous column was absent or not a boundary
    · intro s L jk n hyp hnB hnk hAnb r hr
      obtain ⟨hwf, hhw, hlow, hhyb, hF1, hcolB, hLTA, hbelow⟩ := hyp
      have hpwA := canonLevel_pairwise H Q m hm L
      have hpwB := canonLevel_pairwise H Q μ hμ L
      have hnlev : n.level = L := canonLevel_levels H Q μ L n hnB
      have hlevL : levelNodes s L =
          (canonLevel H Q m L).filter (fun c => keyLe c.key (some jk)) ++
            (canonLevel H Q μ L).filter (fun c => keyLt (some jk) c.key) := by
        have h0 := hhyb L (le_refl L)
        rw [if_pos hLTA] at h0
        exact h0
      obtain ⟨am, restA, hlvA, hakA⟩ := canonLevel_head_anchor H Q m L
      have hlevL2 : levelNodes s n.level = am ::
          (restA.filter (fun c => keyLe c.key (some jk)) ++
            (canonLevel H Q μ L).filter (fun c => keyLt (some jk) c.key)) := by
        rw [hnlev, hlevL, hlvA, List.filter_cons,
          if_pos (show ((fun c => keyLe c.key (some jk)) am) = true from by
            show keyLe am.key (some jk) = true
            rw [hakA]
            exact keyLe_none_left _), List.cons_append]
      obtain ⟨fsn, hfs, hfsmem, hfsle, hfsbd, hfsmax⟩ :=
        fs_char Q hq hwf hhw hnk hlevL2 hakA
      have hbody : replaceDefault H Q (fuel + 1) s n =
          (match getFirstSibling Q s n with
           | none => none
           | some fs =>
             match (if isBoundary Q n then
                 createParents H Q fuel (setNode s n) n.level n.key
               else some (setNode s n)) with
             | none => none
             | some s2 =>
               match fs.key with
               | none => updateAnchor H Q fuel s2 (n.level + 1)
               | some k => update H Q fuel s2 (n.level + 1) (some k)) := rfl
      rw [hnlev, hnk] at hbody
      rw [hbody, hfs] at hr
      have hr2 : (match (if isBoundary Q n then
            createParents H Q fuel (setNode s n) L (some jk)
          else some (setNode s n)) with
        | none => none
        | some s2 =>
          match fsn.key with
          | none => updateAnchor H Q fuel s2 (L + 1)
          | some k => update H Q fuel s2 (L + 1) (some k)) = some r := hr
      clear hr hbody
      -- the first sibling lies in the old tree strictly below the key
      have hfsA : fsn ∈ canonLevel H Q m L := by
        rw [hnlev, hlevL] at hfsmem
        rcases List.mem_append.mp hfsmem with h1 | h2
        · exact (List.mem_filter.mp h1).1
        · exfalso
          have hgt : keyLt (some jk) fsn.key = true := (List.mem_filter.mp h2).2
          rw [keyLe_eq_false_of_lt hgt] at hfsle
          exact Bool.false_ne_true hfsle
      have hfsne : fsn.key ≠ some jk := by
        intro he
        have hbd := hfsbd jk he
        rw [hAnb fsn hfsA he] at hbd
        exact Bool.false_ne_true hbd
      have hj : keyLt fsn.key (some jk) = true := keyLt_of_le_of_ne hfsle hfsne
      have hgapA : ∀ c ∈ canonLevel H Q m L, keyLt fsn.key c.key = true →
          keyLt c.key (some jk) = true → isBoundary Q c = false := by
        intro c hc h1 h2
        apply hfsmax c ?_ h1 (keyLe_of_lt h2)
        rw [hnlev, hlevL]
        exact List.mem_append.mpr (Or.inl (List.mem_filter.mpr ⟨hc, keyLe_of_lt h2⟩))
      have hgapB : ∀ c ∈ canonLevel H Q μ L, keyLt fsn.key c.key = true →
          keyLt c.key (some jk) = true → isBoundary Q c = false := by
        intro c hc h1 h2
        have hcB : c ∈ (canonLevel H Q μ L).filter (fun x => keyLt x.key (some jk)) :=
          List.mem_filter.mpr ⟨hc, h2⟩
        rw [← hF1] at hcB
        exact hgapA c (List.mem_filter.mp hcB).1 h1 h2
      have hgapsA := canonLevel_no_cols_between' H Q m L fsn.key (some jk) hgapA
      have hgapsB := canonLevel_no_cols_between' H Q μ L fsn.key (some jk) hgapB
      have hatA := canonLevel_no_col_above H Q m L jk hAnb
      have hs1wf : StoreWF (setNode s n) := setNode_wf hwf n
      have hs1hw : ∀ c ∈ setNode s n, ByteString c.hash ∧ 4 ≤ c.hash.length := by
        intro c hc
        rcases setNode_mem s n c hc with rfl | hc2
        · exact canonLevel_hash_wf H Q μ hH L c hnB
        · exact hhw c hc2
      have hs1ne : ∀ l, l ≠ L → levelNodes (setNode s n) l = levelNodes s l := by
        intro l hl
        rw [setNode_levelNodes hwf n l, if_neg (by rw [hnlev]; exact hl)]
      have hs1L : levelNodes (setNode s n) L = canonLevel H Q μ L :=
        hybrid_setNode_level H Q m μ hμ hwf hlevL hF1 hnB hnk hnlev
      have hagree2 : (canonLevel H Q m L).filter (fun c => keyLt c.key fsn.key) =
          (canonLevel H Q μ L).filter (fun c => keyLt c.key fsn.key) := by
        have himp : ∀ c : Node, (fun c : Node => keyLt c.key fsn.key) c = true →
            (fun c : Node => keyLt c.key (some jk)) c = true := by
          intro c h
          exact keyLt_of_lt_of_le h (keyLe_of_lt hj)
        rw [← filter_sub himp (canonLevel H Q m L),
          ← filter_sub himp (canonLevel H Q μ L), hF1]
      have hbj2 : fsn.key = none ∨
          ((∃ bx ∈ canonLevel H Q m L, bx.key = fsn.key ∧ isBoundary Q bx = true) ∧
           (∃ bz ∈ canonLevel H Q μ L, bz.key = fsn.key ∧ isBoundary Q bz = true)) := by
        cases hfk : fsn.key with
        | none => exact Or.inl rfl
        | some b =>
          have hbdf := hfsbd b hfk
          have hfsnB : fsn ∈ canonLevel H Q μ L := by
            have h1 : fsn ∈ (canonLevel H Q m L).filter
                (fun c => keyLt c.key (some jk)) := List.mem_filter.mpr ⟨hfsA, hj⟩
            rw [hF1] at h1
            exact (List.mem_filter.mp h1).1
          exact Or.inr ⟨⟨fsn, hfsA, hfk, hbdf⟩, ⟨fsn, hfsnB, hfk, hbdf⟩⟩
      have hbelow2 : ∀ l, 1 ≤ l → l ≤ L → ¬ KeyedFree H Q μ l := by
        intro l h1 h2
        rcases Nat.lt_or_ge l L with h | h
        · exact hbelow l h1 h
        · have he : l = L := by omega
          rw [he]
          exact not_keyedFree_of_mem H Q μ hnB hnk
      cases hbdn : isBoundary Q n with
      | true =>
        rw [hbdn] at hr2
        have hr3 : (match createParents H Q fuel (setNode s n) L (some jk) with
          | none => none
          | some s2 =>
            match fsn.key with
            | none => updateAnchor H Q fuel s2 (L + 1)
            | some k => update H Q fuel s2 (L + 1) (some k)) = some r := hr2
        cases hcp : createParents H Q fuel (setNode s n) L (some jk) with
        | none =>
          rw [hcp] at hr3
          exact Option.noConfusion hr3
        | some s2 =>
          rw [hcp] at hr3
          have hr4 : (match fsn.key with
            | none => updateAnchor H Q fuel s2 (L + 1)
            | some k => update H Q fuel s2 (L + 1) (some k)) = some r := hr3
          have hWatL : levelNodes (setNode s n) L =
              (if L = L then
                  (canonLevel H Q μ L).filter (fun c => keyLt c.key (some jk))
                else (if L ≤ TA then canonLevel H Q m L else []).filter
                  (fun c => keyLt c.key (some jk))) ++
                (canonLevel H Q μ L).filter (fun c => keyLe (some jk) c.key) := by
            rw [if_pos rfl, hs1L, filter_ge_of_col hpwB hnB hnk]
            conv_lhs => rw [level_col_decomp hpwB hnB hnk]
          have hWhigh : ∀ l, L < l → levelNodes (setNode s n) l =
              (if l = L then
                  (canonLevel H Q μ L).filter (fun c => keyLt c.key (some jk))
                else (if l ≤ TA then canonLevel H Q m l else []).filter
                  (fun c => keyLt c.key (some jk))) ++
                (canonLevel H Q μ l).filter (fun c => keyLt (some jk) c.key) := by
            intro l hl
            rw [if_neg (show ¬ l = L by omega), hs1ne l (by omega), hhyb l (by omega)]
            have hAf : (if l ≤ TA then canonLevel H Q m l else []).filter
                (fun c => keyLe c.key (some jk)) =
                (if l ≤ TA then canonLevel H Q m l else []).filter
                (fun c => keyLt c.key (some jk)) := by
              by_cases hlTA : l ≤ TA
              · rw [if_pos hlTA]
                exact filter_le_eq_lt_of_no_col (hatA l hl)
              · rw [if_neg hlTA]
                rfl
            rw [hAf]
          have hWlt : ∀ l, L ≤ l →
              ∀ w ∈ (if l = L then
                  (canonLevel H Q μ L).filter (fun c => keyLt c.key (some jk))
                else (if l ≤ TA then canonLevel H Q m l else []).filter
                  (fun c => keyLt c.key (some jk))), keyLt w.key (some jk) = true := by
            intro l _ w hw
            by_cases hlL : l = L
            · rw [if_pos hlL] at hw
              exact (List.mem_filter.mp hw).2
            · rw [if_neg hlL] at hw
              exact (List.mem_filter.mp hw).2
          obtain ⟨hwf2, hhw2, hlowS, hhighS⟩ :=
            createParents_master H Q μ hq hH hμ jk fuel (setNode s n) L
              (fun l => if l = L then
                  (canonLevel H Q μ L).filter (fun c => keyLt c.key (some jk))
                else (if l ≤ TA then canonLevel H Q m l else []).filter
                  (fun c => keyLt c.key (some jk)))
              hs1wf hs1hw hWatL hWhigh hWlt ⟨n, hnB, hnk, hbdn⟩ s2 hcp
          have hlow2 : ∀ l, l ≤ L → levelNodes s2 l = canonLevel H Q μ l := by
            intro l hl
            rw [hlowS l hl]
            rcases Nat.lt_or_ge l L with h | h
            · rw [hs1ne l (by omega)]
              exact hlow l h
            · have he : l = L := by omega
              rw [he]
              exact hs1L
          have hhyb2 : ∀ l, L < l → levelNodes s2 l =
              (if l ≤ TA then canonLevel H Q m l else []).filter
                (fun c => keyLe c.key fsn.key) ++
                (canonLevel H Q μ l).filter (fun c => keyLt fsn.key c.key) := by
            intro l hl
            have h5 : levelNodes s2 l =
                (if l = L then
                    (canonLevel H Q μ L).filter (fun c => keyLt c.key (some jk))
                  else (if l ≤ TA then canonLevel H Q m l else []).filter
                    (fun c => keyLt c.key (some jk))) ++
                  (canonLevel H Q μ l).filter (fun c => keyLe (some jk) c.key) :=
              hhighS l hl
            rw [if_neg (show ¬ l = L by omega)] at h5
            rw [h5, filter_ge_shrink hj (hgapsB l hl)]
            have hAf2 : (if l ≤ TA then canonLevel H Q m l else []).filter
                (fun c => keyLt c.key (some jk)) =
                (if l ≤ TA then canonLevel H Q m l else []).filter
                (fun c => keyLe c.key fsn.key) := by
              by_cases hlTA : l ≤ TA
              · rw [if_pos hlTA]
                exact filter_lt_shrink hj (hgapsA l hl)
              · rw [if_neg hlTA]
                rfl
            rw [hAf2]
          exact ascend_step H Q m μ hq hH hm hμ TA hTAkf fuel ihU s2 L fsn.key
            hwf2 hhw2 hlow2 hhyb2 hagree2 hbj2 hbelow2 r hr4
      | false =>
        rw [hbdn] at hr2
        have hr3 : (match fsn.key with
            | none => updateAnchor H Q fuel (setNode s n) (L + 1)
            | some k => update H Q fuel (setNode s n) (L + 1) (some k)) = some r := hr2
        have hatB := canonLevel_col_stop' H Q μ hμ L hnB hnk hbdn
        have hlow2 : ∀ l, l ≤ L → levelNodes (setNode s n) l = canonLevel H Q μ l := by
          intro l hl
          rcases Nat.lt_or_ge l L with h | h
          · rw [hs1ne l (by omega)]
            exact hlow l h
          · have he : l = L := by omega
            rw [he]
            exact hs1L
        have hhyb2 : ∀ l, L < l → levelNodes (setNode s n) l =
            (if l ≤ TA then canonLevel H Q m l else []).filter
              (fun c => keyLe c.key fsn.key) ++
              (canonLevel H Q μ l).filter (fun c => keyLt fsn.key c.key) := by
          intro l hl
          rw [hs1ne l (by omega), hhyb l (by omega),
            filter_gt_shrink hj (hgapsB l hl) (hatB l hl)]
          have hAf2 : (if l ≤ TA then canonLevel H Q m l else []).filter
              (fun c => keyLe c.key (some jk)) =
              (if l ≤ TA then canonLevel H Q m l else []).filter
              (fun c => keyLe c.key fsn.key) := by
            by_cases hlTA : l ≤ TA
            · rw [if_pos hlTA]
              exact filter_le_shrink hj (hgapsA l hl) (hatA l hl)
            · rw [if_neg hlTA]
              rfl
          rw [hAf2]
        exact ascend_step H Q m μ hq hH hm hμ TA hTAkf fuel ihU (setNode s n) L fsn.key
          hs1wf hs1hw hlow2 hhyb2 hagree2 hbj2 hbelow2 r hr3
    -- replaceBoundary: the previous column was a boundary
    · intro s L jk n hyp hnB hnk hAbd r hr
      obtain ⟨hwf, hhw, hlow, hhyb, hF1, hcolB, hLTA, hbelow⟩ := hyp
      obtain ⟨cA, hcAm, hcAk, hcAbd⟩ := hAbd
      have hpwA := canonLevel_pairwise H Q m hm L
      have hpwB := canonLevel_pairwise H Q μ hμ L
      have hnlev : n.level = L := canonLevel_levels H Q μ L n hnB
      have hlevL : levelNodes s L =
          (canonLevel H Q m L).filter (fun c => keyLe c.key (some jk)) ++
            (canonLevel H Q μ L).filter (fun c => keyLt (some jk) c.key) := by
        have h0 := hhyb L (le_refl L)
        rw [if_pos hLTA] at h0
        exact h0
      have hs1wf : StoreWF (setNode s n) := setNode_wf hwf n
      have hs1hw : ∀ c ∈ setNode s n, ByteString c.hash ∧ 4 ≤ c.hash.length := by
        intro c hc
        rcases setNode_mem s n c hc with rfl | hc2
        · exact canonLevel_hash_wf H Q μ hH L c hnB
        · exact hhw c hc2
      have hs1ne : ∀ l, l ≠ L → levelNodes (setNode s n) l = levelNodes s l := by
        intro l hl
        rw [setNode_levelNodes hwf n l, if_neg (by rw [hnlev]; exact hl)]
      have hs1L : levelNodes (setNode s n) L = canonLevel H Q μ L :=
        hybrid_setNode_level H Q m μ hμ hwf hlevL hF1 hnB hnk hnlev
      have hbody : replaceBoundary H Q (fuel + 1) s n =
          (if isBoundary Q n then
            update H Q fuel (setNode s n) (n.level + 1) n.key
          else
            match deleteParents fuel (setNode s n) n.level n.key with
            | none => none
            | some s2 =>
              match getFirstSibling Q s2 n with
              | none => none
              | some fs =>
                match fs.key with
                | none => updateAnchor H Q fuel s2 (n.level + 1)
                | some k => update H Q fuel s2 (n.level + 1) (some k)) := rfl
      rw [hnlev, hnk] at hbody
      rw [hbody] at hr
      clear hbody
      cases hbdn : isBoundary Q n with
      | true =>
        rw [hbdn] at hr
        have hr3 : update H Q fuel (setNode s n) (L + 1) (some jk) = some r := hr
        obtain ⟨aB2, restB2, memB2, SB2, hlvB2, hakB2, hchB2, hfB2, hmemB2, hSB2⟩ :=
          canonLevel_chunk_at_bd H Q μ hμ L hnB hnk hbdn
        have hparB2 := canonLevel_parent_of_chunk H Q μ L hlvB2 hchB2
        obtain ⟨aA2, restA2, memA2, SA2, hlvA2, hakA2, hchA2, hfA2, hmemA2, hSA2⟩ :=
          canonLevel_chunk_at_bd H Q m hm L hcAm hcAk hcAbd
        have hparA2 := canonLevel_parent_of_chunk H Q m L hlvA2 hchA2
        have hLTA2 : L + 1 ≤ TA :=
          le_TA_of_keyed H Q m hTAkf (not_keyedFree_of_mem H Q m hparA2
            (show (chunkParent H L (cA, memA2)).key = some jk from hcAk))
        refine ihU (setNode s n) (L + 1) jk ⟨hs1wf, hs1hw, ?_, ?_,
          canonLevel_agree_below_step H Q m μ hm hμ L (some jk) hF1
            (Or.inr ⟨⟨cA, hcAm, hcAk, hcAbd⟩, ⟨n, hnB, hnk, hbdn⟩⟩),
          ⟨chunkParent H L (n, memB2), hparB2,
            (show (chunkParent H L (n, memB2)).key = some jk from hnk)⟩,
          hLTA2, ?_⟩ (by omega) r hr3
        · intro l hl
          rcases Nat.lt_or_ge l L with h | h
          · rw [hs1ne l (by omega)]
            exact hlow l h
          · have he : l = L := by omega
            rw [he]
            exact hs1L
        · intro l hl
          rw [hs1ne l (by omega)]
          exact hhyb l (by omega)
        · intro l h1 h2
          rcases Nat.lt_or_ge l L with h | h
          · exact hbelow l h1 h
          · have he : l = L := by omega
            rw [he]
            exact not_keyedFree_of_mem H Q μ hnB hnk
      | false =>
        rw [hbdn] at hr
        have hr3 : (match deleteParents fuel (setNode s n) L (some jk) with
          | none => none
          | some s2 =>
            match getFirstSibling Q s2 n with
            | none => none
            | some fs =>
              match fs.key with
              | none => updateAnchor H Q fuel s2 (L + 1)
              | some k => update H Q fuel s2 (L + 1) (some k)) = some r := hr
        cases hdp : deleteParents fuel (setNode s n) L (some jk) with
        | none =>
          rw [hdp] at hr3
          exact Option.noConfusion hr3
        | some s2 =>
          rw [hdp] at hr3
          have hr4 : (match getFirstSibling Q s2 n with
            | none => none
            | some fs =>
              match fs.key with
              | none => updateAnchor H Q fuel s2 (L + 1)
              | some k => update H Q fuel s2 (L + 1) (some k)) = some r := hr3
          have hdc : ∀ l, L < l → getNode (setNode s n) (l + 1) (some jk) ≠ none →
              getNode (setNode s n) l (some jk) ≠ none := by
            intro l hl hne
            obtain ⟨nd, hnd⟩ : ∃ nd, getNode (setNode s n) (l + 1) (some jk) = some nd := by
              cases hg : getNode (setNode s n) (l + 1) (some jk) with
              | none => exact absurd hg hne
              | some nd => exact ⟨nd, rfl⟩
            obtain ⟨hndmem, hndlev, hndkey⟩ := getNode_mem hnd
            have hndlv : nd ∈ levelNodes (setNode s n) (l + 1) :=
              mem_levelNodes.mpr ⟨hndmem, hndlev⟩
            rw [hs1ne (l + 1) (by omega), hhyb (l + 1) (by omega)] at hndlv
            rcases List.mem_append.mp hndlv with h1 | h2
            · by_cases hlTA : l + 1 ≤ TA
              · rw [if_pos hlTA] at h1
                have hndA : nd ∈ canonLevel H Q m (l + 1) := (List.mem_filter.mp h1).1
                obtain ⟨c2, hc2m, hc2k, hc2bd⟩ := canonLevel_col_chain H Q m l nd hndA
                  (by rw [hndkey]; simp)
                have hc2k2 : c2.key = some jk := by rw [hc2k, hndkey]
                have hlv1 : levelNodes (setNode s n) l =
                    (canonLevel H Q m l).filter (fun c => keyLt c.key (some jk)) ++
                      c2 :: (canonLevel H Q μ l).filter
                        (fun c => keyLt (some jk) c.key) := by
                  rw [hs1ne l (by omega), hhyb l (by omega),
                    if_pos (show l ≤ TA by omega),
                    filter_le_of_col (canonLevel_pairwise H Q m hm l) hc2m hc2k2,
                    List.append_assoc, List.singleton_append]
                rw [getNode_level_some hlv1
                  (fun x hx => keyLt_ne (List.mem_filter.mp hx).2) hc2k2]
                simp
              · rw [if_neg hlTA] at h1
                exact absurd (List.mem_filter.mp h1).1 (List.not_mem_nil nd)
            · have h9 : keyLt (some jk) nd.key = true := (List.mem_filter.mp h2).2
              rw [hndkey, keyLt_irrefl] at h9
              exact absurd h9 Bool.false_ne_true
          have hdels := deleteParents_levels fuel (setNode s n) L (some jk) s2 hdp hdc
          have hwf2 : StoreWF s2 := deleteParents_wf fuel (setNode s n) L (some jk) s2 hdp hs1wf
          have hhw2 : ∀ c ∈ s2, ByteString c.hash ∧ 4 ≤ c.hash.length := by
            intro c hc
            have hcl : c ∈ levelNodes s2 c.level := mem_levelNodes.mpr ⟨hc, rfl⟩
            rw [hdels c.level] at hcl
            by_cases hcond : L < c.level ∧ getNode (setNode s n) c.level (some jk) ≠ none
            · rw [if_pos hcond] at hcl
              have hc1 : c ∈ levelNodes (setNode s n) c.level := by
                unfold keyDelete at hcl
                exact (List.mem_filter.mp hcl).1
              exact hs1hw c (mem_levelNodes.mp hc1).1
            · rw [if_neg hcond] at hcl
              exact hs1hw c (mem_levelNodes.mp hcl).1
          have hlow2 : ∀ l, l ≤ L → levelNodes s2 l = canonLevel H Q μ l := by
            intro l hl
            rw [hdels l, if_neg (fun hc => absurd hc.1 (by omega))]
            rcases Nat.lt_or_ge l L with h | h
            · rw [hs1ne l (by omega)]
              exact hlow l h
            · have he : l = L := by omega
              rw [he]
              exact hs1L
          have hint : ∀ l, L < l → levelNodes s2 l =
              (if l ≤ TA then canonLevel H Q m l else []).filter
                (fun c => keyLt c.key (some jk)) ++
                (canonLevel H Q μ l).filter (fun c => keyLt (some jk) c.key) := by
            intro l hl
            by_cases hcA2 : (∃ c2 ∈ canonLevel H Q m l, c2.key = some jk) ∧ l ≤ TA
            · obtain ⟨⟨c2, hc2m, hc2k⟩, hlTA⟩ := hcA2
              rw [if_pos hlTA]
              have hlv1 : levelNodes (setNode s n) l =
                  (canonLevel H Q m l).filter (fun c => keyLt c.key (some jk)) ++
                    c2 :: (canonLevel H Q μ l).filter
                      (fun c => keyLt (some jk) c.key) := by
                rw [hs1ne l (by omega), hhyb l (by omega), if_pos hlTA,
                  filter_le_of_col (canonLevel_pairwise H Q m hm l) hc2m hc2k,
                  List.append_assoc, List.singleton_append]
              have hget2 : getNode (setNode s n) l (some jk) = some c2 :=
                getNode_level_some hlv1
                  (fun x hx => keyLt_ne (List.mem_filter.mp hx).2) hc2k
              rw [hdels l, if_pos ⟨by omega, by rw [hget2]; simp⟩,
                keyDelete_sorted (some jk) _ (levelNodes_pairwise hs1wf l), hlv1,
                filter_lt_around hc2k _ _
                  (fun x hx => (List.mem_filter.mp hx).2)
                  (fun y hy => (List.mem_filter.mp hy).2),
                filter_gt_around hc2k _ _
                  (fun x hx => (List.mem_filter.mp hx).2)
                  (fun y hy => (List.mem_filter.mp hy).2)]
            · have hnocol : ∀ x ∈ levelNodes (setNode s n) l, x.key ≠ some jk := by
                intro x hx
                rw [hs1ne l (by omega), hhyb l (by omega)] at hx
                rcases List.mem_append.mp hx with hx1 | hx2
                · intro hxk
                  by_cases hlTA : l ≤ TA
                  · rw [if_pos hlTA] at hx1
                    exact hcA2 ⟨⟨x, (List.mem_filter.mp hx1).1, hxk⟩, hlTA⟩
                  · rw [if_neg hlTA] at hx1
                    exact absurd (List.mem_filter.mp hx1).1 (List.not_mem_nil x)
                · intro hxk
                  have h9 : keyLt (some jk) x.key = true := (List.mem_filter.mp hx2).2
                  rw [hxk, keyLt_irrefl] at h9
                  exact Bool.false_ne_true h9
              have hget2 : getNode (setNode s n) l (some jk) = none :=
                getNode_level_none hnocol
              rw [hdels l, if_neg (fun hc => hc.2 hget2), hs1ne l (by omega),
                hhyb l (by omega)]
              have hAf : (if l ≤ TA then canonLevel H Q m l else []).filter
                  (fun c => keyLe c.key (some jk)) =
                  (if l ≤ TA then canonLevel H Q m l else []).filter
                  (fun c => keyLt c.key (some jk)) := by
                by_cases hlTA : l ≤ TA
                · rw [if_pos hlTA]
                  apply filter_le_eq_lt_of_no_col
                  intro c hc hck
                  exact hcA2 ⟨⟨c, hc, hck⟩, hlTA⟩
                · rw [if_neg hlTA]
                  rfl
              rw [hAf]
          obtain ⟨aB3, restB3, hlvB3, hakB3⟩ := canonLevel_head_anchor H Q μ L
          have hlev3 : levelNodes s2 n.level = aB3 :: restB3 := by
            rw [hnlev, hlow2 L (le_refl L), hlvB3]
          obtain ⟨fsn, hfs, hfsmem, hfsle, hfsbd, hfsmax⟩ :=
            fs_char Q hq hwf2 hhw2 hnk hlev3 hakB3
          rw [hfs] at hr4
          have hr5 : (match fsn.key with
            | none => updateAnchor H Q fuel s2 (L + 1)
            | some k => update H Q fuel s2 (L + 1) (some k)) = some r := hr4
          have hfsB : fsn ∈ canonLevel H Q μ L := by
            rw [hnlev, hlow2 L (le_refl L)] at hfsmem
            exact hfsmem
          have hfsne : fsn.key ≠ some jk := by
            intro he
            have hbd2 := hfsbd jk he
            rw [show fsn = n from level_col_unique hpwB hfsB hnB (by rw [he, hnk]),
              hbdn] at hbd2
            exact Bool.false_ne_true hbd2
          have hj : keyLt fsn.key (some jk) = true := keyLt_of_le_of_ne hfsle hfsne
          have hgapB : ∀ c ∈ canonLevel H Q μ L, keyLt fsn.key c.key = true →
              keyLt c.key (some jk) = true → isBoundary Q c = false := by
            intro c hc h1 h2
            apply hfsmax c ?_ h1 (keyLe_of_lt h2)
            rw [hnlev, hlow2 L (le_refl L)]
            exact hc
          have hgapA : ∀ c ∈ canonLevel H Q m L, keyLt fsn.key c.key = true →
              keyLt c.key (some jk) = true → isBoundary Q c = false := by
            intro c hc h1 h2
            have hcA3 : c ∈ (canonLevel H Q m L).filter
                (fun x => keyLt x.key (some jk)) := List.mem_filter.mpr ⟨hc, h2⟩
            rw [hF1] at hcA3
            exact hgapB c (List.mem_filter.mp hcA3).1 h1 h2
          have hgapsA := canonLevel_no_cols_between' H Q m L fsn.key (some jk) hgapA
          have hgapsB := canonLevel_no_cols_between' H Q μ L fsn.key (some jk) hgapB
          have hatB := canonLevel_col_stop' H Q μ hμ L hnB hnk hbdn
          have hhyb2 : ∀ l, L < l → levelNodes s2 l =
              (if l ≤ TA then canonLevel H Q m l else []).filter
                (fun c => keyLe c.key fsn.key) ++
                (canonLevel H Q μ l).filter (fun c => keyLt fsn.key c.key) := by
            intro l hl
            rw [hint l hl, filter_gt_shrink hj (hgapsB l hl) (hatB l hl)]
            have hAf2 : (if l ≤ TA then canonLevel H Q m l else []).filter
                (fun c => keyLt c.key (some jk)) =
                (if l ≤ TA then canonLevel H Q m l else []).filter
                (fun c => keyLe c.key fsn.key) := by
              by_cases hlTA : l ≤ TA
              · rw [if_pos hlTA]
                exact filter_lt_shrink hj (hgapsA l hl)
              · rw [if_neg hlTA]
                rfl
            rw [hAf2]
          have hagree2 : (canonLevel H Q m L).filter (fun c => keyLt c.key fsn.key) =
              (canonLevel H Q μ L).filter (fun c => keyLt c.key fsn.key) := by
            have himp : ∀ c : Node, (fun c : Node => keyLt c.key fsn.key) c = true →
                (fun c : Node => keyLt c.key (some jk)) c = true := by
              intro c h
              exact keyLt_of_lt_of_le h (keyLe_of_lt hj)
            rw [← filter_sub himp (canonLevel H Q m L),
              ← filter_sub himp (canonLevel H Q μ L), hF1]
          have hbj2 : fsn.key = none ∨
              ((∃ bx ∈ canonLevel H Q m L, bx.key = fsn.key ∧ isBoundary Q bx = true) ∧
               (∃ bz ∈ canonLevel H Q μ L, bz.key = fsn.key ∧ isBoundary Q bz = true)) := by
            cases hfk : fsn.key with
            | none => exact Or.inl rfl
            | some b =>
              have hbdf := hfsbd b hfk
              have hfsnA : fsn ∈ canonLevel H Q m L := by
                have h1 : fsn ∈ (canonLevel H Q μ L).filter
                    (fun c => keyLt c.key (some jk)) := List.mem_filter.mpr ⟨hfsB, hj⟩
                rw [← hF1] at h1
                exact (List.mem_filter.mp h1).1
              exact Or.inr ⟨⟨fsn, hfsnA, hfk, hbdf⟩, ⟨fsn, hfsB, hfk, hbdf⟩⟩
          have hbelow2 : ∀ l, 1 ≤ l → l ≤ L → ¬ KeyedFree H Q μ l := by
            intro l h1 h2
            rcases Nat.lt_or_ge l L with h | h
            · exact hbelow l h1 h
            · have he : l = L := by omega
              rw [he]
              exact not_keyedFree_of_mem H Q μ hnB hnk
          exact ascend_step H Q m μ hq hH hm hμ TA hTAkf fuel ihU s2 L fsn.key
            hwf2 hhw2 hlow2 hhyb2 hagree2 hbj2 hbelow2 r hr5

/-! ## The set and delete operations preserve canonicity -/

theorem canonStore_hash_wf (H : Bytes → Bytes) (Q : Nat) (m : List (Bytes × Bytes))
    (hH : ∀ b, ByteString (H b) ∧ 4 ≤ (H b).length) (T : Nat) :
    ∀ c ∈ canonStore H Q m T, ByteString c.hash ∧ 4 ≤ c.hash.length := by
  intro c hc
  unfold canonStore at hc
  obtain ⟨l, hl, hcl⟩ := List.mem_flatten.mp hc
  obtain ⟨L, -, rfl⟩ := List.mem_map.mp hl
  exact canonLevel_hash_wf H Q m hH L c hcl

theorem keyedFree_nil_zero (H : Bytes → Bytes) (Q : Nat) : KeyedFree H Q [] 0 := by
  intro c hc
  rcases List.mem_cons.mp hc with rfl | h
  · rfl
  · exact absurd h (List.not_mem_nil c)

/-- A keyed-free level has nothing strictly above any key. -/
theorem keyedFree_filter_gt_any (H : Bytes → Bytes) (Q : Nat) (m : List (Bytes × Bytes))
    {l : Nat} (hkf : KeyedFree H Q m l) (κ : NodeKey) :
    (canonLevel H Q m l).filter (fun c => keyLt κ c.key) = [] := by
  rw [List.filter_eq_nil_iff]
  intro c hc hpred
  have h1 : keyLt κ c.key = true := hpred
  rw [hkf c hc, keyLt_none_right] at h1
  exact Bool.false_ne_true h1

/-- A valid tree state for the entry map `m`: a canonical store topped at
the canonical top, or the freshly initialized store of the empty map. -/
def StateOK (H : Bytes → Bytes) (Q : Nat) (m : List (Bytes × Bytes)) (s : Store) : Prop :=
  ∃ T, s = canonStore H Q m T ∧ (CTop H Q m T ∨ (T = 0 ∧ m = []))

theorem stateOK_keyedFree (H : Bytes → Bytes) (Q : Nat) (m : List (Bytes × Bytes))
    {TA : Nat} (htop : CTop H Q m TA ∨ (TA = 0 ∧ m = [])) : KeyedFree H Q m TA := by
  rcases htop with h | ⟨h0, hnil⟩
  · exact h.2.1
  · rw [h0, hnil]
    exact keyedFree_nil_zero H Q

/-- `Tree.set` moves any valid state to a valid state of the upserted
entry map. -/
theorem set_canon (H : Bytes → Bytes) (Q : Nat) (hq : 2 ≤ Q)
    (hH : ∀ b, ByteString (H b) ∧ 4 ≤ (H b).length)
    (m : List (Bytes × Bytes)) (hm : EntriesWF m) (k v : Bytes)
    {s : Store} (hs : StateOK H Q m s)
    (fuel : Nat) (r : Store) (hr : set H Q fuel s k v = some r) :
    StateOK H Q (entriesUpsert m k v) r := by
  obtain ⟨TA, rfl, htop⟩ := hs
  have hμ := entriesUpsert_wf k v m hm
  have hTAkf : KeyedFree H Q m TA := stateOK_keyedFree H Q m htop
  have hr2 : replace H Q fuel (canonStore H Q m TA)
      (getNode (canonStore H Q m TA) 0 (some k)) (leafOf H (k, v)) = some r := hr
  have hhyp : UpdHyp H Q m (entriesUpsert m k v) TA (canonStore H Q m TA) 0 k := by
    refine ⟨canonStore_wf H Q m hm TA, canonStore_hash_wf H Q m hH TA, ?_, ?_, ?_, ?_,
      Nat.zero_le TA, ?_⟩
    · intro l hl
      exact absurd hl (by omega)
    · intro l _
      rw [canonStore_levelNodes]
      by_cases hlTA : l ≤ TA
      · rw [if_pos hlTA]
        conv_lhs => rw [sorted_split_le (some k) (canonLevel H Q m l)
          (canonLevel_pairwise H Q m hm l)]
        rw [upsert_agree_above H Q k v m hm l]
      · rw [if_neg hlTA]
        have hkfl : KeyedFree H Q m l := KeyedFree_mono H Q m (by omega) hTAkf
        rw [← upsert_agree_above H Q k v m hm l, keyedFree_filter_gt_any H Q m hkfl (some k)]
        rfl
    · exact upsert_seed_below H Q k v m hm
    · exact ⟨leafOf H (k, v), upsert_leaf_mem H Q k v m hm, rfl⟩
    · intro l h1 h2
      exact absurd h2 (by omega)
  obtain ⟨T, hT, hCT⟩ := (mutation_master H Q m (entriesUpsert m k v) hq hH hm hμ TA
    hTAkf fuel).2.1 (canonStore H Q m TA) 0 k (leafOf H (k, v)) hhyp
    (upsert_leaf_mem H Q k v m hm) rfl r hr2
  exact ⟨T, hT, Or.inl hCT⟩

/-- The common tail of `Tree.delete` after the leaf's parent chain is gone:
deleting the leaf and re-aggregating from the first sibling lands in a
canonical store of the shrunken entry map. -/
theorem delete_tail (H : Bytes → Bytes) (Q : Nat) (hq : 2 ≤ Q)
    (hH : ∀ b, ByteString (H b) ∧ 4 ≤ (H b).length)
    (m : List (Bytes × Bytes)) (hm : EntriesWF m) (k : Bytes) (TA : Nat)
    (hTAkf : KeyedFree H Q m TA) (fuel : Nat) (nd : Node)
    (hndk : nd.key = some k) (hndlev : nd.level = 0)
    (s1 : Store) (hP1 : StoreWF s1)
    (hP2 : ∀ c ∈ s1, ByteString c.hash ∧ 4 ≤ c.hash.length)
    (hP3 : levelNodes s1 0 = canonLevel H Q m 0)
    (hP4 : ∀ l, 0 < l → levelNodes s1 l =
      (if l ≤ TA then canonLevel H Q m l else []).filter (fun c => keyLt c.key (some k)) ++
        (if l ≤ TA then canonLevel H Q m l else []).filter (fun c => keyLt (some k) c.key))
    (r : Store)
    (hr : (match getFirstSibling Q (deleteNode s1 0 (some k)) nd with
      | none => none
      | some fs =>
        match fs.key with
        | none => updateAnchor H Q fuel (deleteNode s1 0 (some k)) 1
        | some j => update H Q fuel (deleteNode s1 0 (some k)) 1 (some j)) = some r) :
    CanonOut H Q (entriesRemove m k) r := by
  have hμ := entriesRemove_wf m k hm
  obtain ⟨s2, hs2⟩ : ∃ s2, deleteNode s1 0 (some k) = s2 := ⟨_, rfl⟩
  rw [hs2] at hr
  have hs2wf : StoreWF s2 := by
    rw [← hs2]
    exact deleteNode_wf hP1 0 (some k)
  have hs2hw : ∀ c ∈ s2, ByteString c.hash ∧ 4 ≤ c.hash.length := by
    intro c hc
    rw [← hs2] at hc
    unfold deleteNode at hc
    exact hP2 c (List.mem_filter.mp hc).1
  have hs2lev : ∀ l, levelNodes s2 l =
      if l = 0 then keyDelete (levelNodes s1 l) (some k) else levelNodes s1 l := by
    intro l
    rw [← hs2]
    exact deleteNode_levelNodes s1 0 (some k) l
  have hs2lev0 : levelNodes s2 0 = canonLevel H Q (entriesRemove m k) 0 := by
    rw [hs2lev 0, if_pos rfl, hP3,
      keyDelete_sorted (some k) _ (canonLevel_pairwise H Q m hm 0),
      ← leaf0_remove_decomp H Q k m hm]
  have hk0B : ∀ c ∈ canonLevel H Q (entriesRemove m k) 0, c.key ≠ some k :=
    remove_no_col H Q k m hm
  have hatB : ∀ l, 0 < l → ∀ c ∈ canonLevel H Q (entriesRemove m k) l, c.key ≠ some k :=
    canonLevel_no_col_above H Q (entriesRemove m k) 0 k
      (fun c hc hck => absurd hck (hk0B c hc))
  obtain ⟨aB, restB, hlvB, hakB⟩ := canonLevel_head_anchor H Q (entriesRemove m k) 0
  have hlev2 : levelNodes s2 nd.level = aB :: restB := by
    rw [hndlev, hs2lev0, hlvB]
  obtain ⟨fsn, hfs, hfsmem, hfsle, hfsbd, hfsmax⟩ :=
    fs_char Q hq hs2wf hs2hw hndk hlev2 hakB
  rw [hfs] at hr
  have hr3 : (match fsn.key with
    | none => updateAnchor H Q fuel s2 1
    | some j => update H Q fuel s2 1 (some j)) = some r := hr
  have hfsB : fsn ∈ canonLevel H Q (entriesRemove m k) 0 := by
    rw [hndlev, hs2lev0] at hfsmem
    exact hfsmem
  have hfsne : fsn.key ≠ some k := hk0B fsn hfsB
  have hj : keyLt fsn.key (some k) = true := keyLt_of_le_of_ne hfsle hfsne
  have hgapB : ∀ c ∈ canonLevel H Q (entriesRemove m k) 0, keyLt fsn.key c.key = true →
      keyLt c.key (some k) = true → isBoundary Q c = false := by
    intro c hc h1 h2
    apply hfsmax c ?_ h1 (keyLe_of_lt h2)
    rw [hndlev, hs2lev0]
    exact hc
  have hF10 : (canonLevel H Q m 0).filter (fun c => keyLt c.key (some k)) =
      (canonLevel H Q (entriesRemove m k) 0).filter (fun c => keyLt c.key (some k)) :=
    remove_seed_below H Q k m hm
  have hgapA : ∀ c ∈ canonLevel H Q m 0, keyLt fsn.key c.key = true →
      keyLt c.key (some k) = true → isBoundary Q c = false := by
    intro c hc h1 h2
    have hcB : c ∈ (canonLevel H Q m 0).filter (fun x => keyLt x.key (some k)) :=
      List.mem_filter.mpr ⟨hc, h2⟩
    rw [hF10] at hcB
    exact hgapB c (List.mem_filter.mp hcB).1 h1 h2
  have hgapsA := canonLevel_no_cols_between' H Q m 0 fsn.key (some k) hgapA
  have hgapsB := canonLevel_no_cols_between' H Q (entriesRemove m k) 0 fsn.key
    (some k) hgapB
  have hBnil : ∀ l, TA < l →
      (canonLevel H Q (entriesRemove m k) l).filter (fun c => keyLt fsn.key c.key) = [] := by
    intro l hTAl
    rw [List.filter_eq_nil_iff]
    intro c hc hpred
    have h1 : keyLt fsn.key c.key = true := hpred
    cases hck : c.key with
    | none =>
      rw [hck, keyLt_none_right] at h1
      exact Bool.false_ne_true h1
    | some b =>
      by_cases hbk : b = k
      · exact hatB l (by omega) c hc (by rw [hck, hbk])
      · rcases byteaLt_total hbk with hlt | hgt2
        · exact hgapsB l (by omega) c hc h1 (by rw [hck]; exact hlt)
        · have hcgt : c ∈ (canonLevel H Q (entriesRemove m k) l).filter
              (fun x => keyLt (some k) x.key) :=
            List.mem_filter.mpr ⟨hc, by rw [hck]; exact hgt2⟩
          rw [← remove_agree_above H Q k m hm l] at hcgt
          have hkfl : KeyedFree H Q m l := KeyedFree_mono H Q m (by omega) hTAkf
          have h2 := (List.mem_filter.mp hcgt).2
          rw [hkfl c (List.mem_filter.mp hcgt).1, keyLt_none_right] at h2
          exact Bool.false_ne_true h2
  have hlow2 : ∀ l, l ≤ 0 → levelNodes s2 l = canonLevel H Q (entriesRemove m k) l := by
    intro l hl
    have he : l = 0 := by omega
    rw [he]
    exact hs2lev0
  have hhyb2 : ∀ l, 0 < l → levelNodes s2 l =
      (if l ≤ TA then canonLevel H Q m l else []).filter
        (fun c => keyLe c.key fsn.key) ++
        (canonLevel H Q (entriesRemove m k) l).filter
          (fun c => keyLt fsn.key c.key) := by
    intro l hl
    rw [hs2lev l, if_neg (by omega), hP4 l hl]
    by_cases hlTA : l ≤ TA
    · rw [if_pos hlTA, filter_lt_shrink hj (hgapsA l hl),
        remove_agree_above H Q k m hm l,
        filter_gt_shrink hj (hgapsB l hl) (hatB l hl)]
    · rw [if_neg hlTA, hBnil l (by omega)]
      rfl
  have hagree2 : (canonLevel H Q m 0).filter (fun c => keyLt c.key fsn.key) =
      (canonLevel H Q (entriesRemove m k) 0).filter (fun c => keyLt c.key fsn.key) := by
    have himp : ∀ c : Node, (fun c : Node => keyLt c.key fsn.key) c = true →
        (fun c : Node => keyLt c.key (some k)) c = true := by
      intro c h
      exact keyLt_of_lt_of_le h (keyLe_of_lt hj)
    rw [← filter_sub himp (canonLevel H Q m 0),
      ← filter_sub himp (canonLevel H Q (entriesRemove m k) 0), hF10]
  have hbj2 : fsn.key = none ∨
      ((∃ bx ∈ canonLevel H Q m 0, bx.key = fsn.key ∧ isBoundary Q bx = true) ∧
       (∃ bz ∈ canonLevel H Q (entriesRemove m k) 0,
          bz.key = fsn.key ∧ isBoundary Q bz = true)) := by
    cases hfk : fsn.key with
    | none => exact Or.inl rfl
    | some b =>
      have hbdf := hfsbd b hfk
      have hfsnA : fsn ∈ canonLevel H Q m 0 := by
        have h1 : fsn ∈ (canonLevel H Q (entriesRemove m k) 0).filter
            (fun c => keyLt c.key (some k)) := List.mem_filter.mpr ⟨hfsB, hj⟩
        rw [← hF10] at h1
        exact (List.mem_filter.mp h1).1
      exact Or.inr ⟨⟨fsn, hfsnA, hfk, hbdf⟩, ⟨fsn, hfsB, hfk, hbdf⟩⟩
  have hbelow2 : ∀ l, 1 ≤ l → l ≤ 0 → ¬ KeyedFree H Q (entriesRemove m k) l := by
    intro l h1 h2
    exact absurd h1 (by omega)
  exact ascend_step H Q m (entriesRemove m k) hq hH hm hμ TA hTAkf fuel
    (mutation_master H Q m (entriesRemove m k) hq hH hm hμ TA hTAkf fuel).1
    s2 0 fsn.key hs2wf hs2hw hlow2 hhyb2 hagree2 hbj2 hbelow2 r hr3

/-- `Tree.delete` moves any valid state to a valid state of the shrunken
entry map. -/
theorem delete_canon (H : Bytes → Bytes) (Q : Nat) (hq : 2 ≤ Q)
    (hH : ∀ b, ByteString (H b) ∧ 4 ≤ (H b).length)
    (m : List (Bytes × Bytes)) (hm : EntriesWF m) (k : Bytes)
    {s : Store} (hs : StateOK H Q m s)
    (fuel : Nat) (r : Store) (hr : delete H Q fuel s k = some r) :
    ∃ T, r = canonStore H Q (entriesRemove m k) T ∧
      (CTop H Q (entriesRemove m k) T ∨ (T = 0 ∧ entriesRemove m k = [])) ∧
      ((∃ kv ∈ m, kv.1 = k) → CTop H Q (entriesRemove m k) T) := by
  obtain ⟨TA, rfl, htop⟩ := hs
  have hTAkf : KeyedFree H Q m TA := stateOK_keyedFree H Q m htop
  have hwf1 : StoreWF (canonStore H Q m TA) := canonStore_wf H Q m hm TA
  have hlev0 : levelNodes (canonStore H Q m TA) 0 = canonLevel H Q m 0 := by
    rw [canonStore_levelNodes, if_pos (Nat.zero_le TA)]
  have hbody : delete H Q fuel (canonStore H Q m TA) k =
      (match getNode (canonStore H Q m TA) 0 (some k) with
       | none => some (canonStore H Q m TA)
       | some node =>
         match (if node.key != none && isBoundary Q node
               then deleteParents fuel (canonStore H Q m TA) 0 (some k)
               else some (canonStore H Q m TA)) with
         | none => none
         | some s1 =>
           match getFirstSibling Q (deleteNode s1 0 (some k)) node with
           | none => none
           | some fs =>
             match fs.key with
             | none => updateAnchor H Q fuel (deleteNode s1 0 (some k)) 1
             | some j => update H Q fuel (deleteNode s1 0 (some k)) 1 (some j)) := rfl
  rw [hbody] at hr
  cases hg : getNode (canonStore H Q m TA) 0 (some k) with
  | none =>
    rw [hg] at hr
    obtain rfl : canonStore H Q m TA = r := Option.some.inj hr
    have habs : ∀ kv ∈ m, kv.1 ≠ k := by
      intro kv hkv he
      have hmem : leafOf H kv ∈ canonLevel H Q m 0 := by
        rw [show canonLevel H Q m 0 = leafNodes H m from rfl, leafNodes_eq_map]
        exact List.mem_cons_of_mem _ (List.mem_map.mpr ⟨kv, hkv, rfl⟩)
      have hkey : (leafOf H kv).key = some k := by
        show some kv.1 = some k
        rw [he]
      have hlv := level_col_decomp (canonLevel_pairwise H Q m hm 0) hmem hkey
      have hne : getNode (canonStore H Q m TA) 0 (some k) ≠ none := by
        rw [getNode_level_some (by rw [hlev0]; exact hlv)
          (fun x hx => keyLt_ne (List.mem_filter.mp hx).2) hkey]
        simp
      exact hne hg
    have hrm : entriesRemove m k = m := by
      unfold entriesRemove
      rw [List.filter_eq_self]
      intro kv hkv
      show (!(kv.1 == k)) = true
      rw [beq_eq_false_iff_ne.mpr (habs kv hkv)]
      rfl
    rw [hrm]
    refine ⟨TA, rfl, htop, fun hpres => ?_⟩
    obtain ⟨kv, hkv, he⟩ := hpres
    exact absurd he (habs kv hkv)
  | some nd =>
    rw [hg] at hr
    obtain ⟨hndmem0, hndlev, hndkey⟩ := getNode_mem hg
    have hndc : nd ∈ canonLevel H Q m 0 := by
      have h1 : nd ∈ levelNodes (canonStore H Q m TA) 0 :=
        mem_levelNodes.mpr ⟨hndmem0, hndlev⟩
      rw [hlev0] at h1
      exact h1
    have hcond : (nd.key != none && isBoundary Q nd) = isBoundary Q nd := by
      rw [hndkey]
      rfl
    have hrx : (match (if nd.key != none && isBoundary Q nd
          then deleteParents fuel (canonStore H Q m TA) 0 (some k)
          else some (canonStore H Q m TA)) with
      | none => none
      | some s1 =>
        match getFirstSibling Q (deleteNode s1 0 (some k)) nd with
        | none => none
        | some fs =>
          match fs.key with
          | none => updateAnchor H Q fuel (deleteNode s1 0 (some k)) 1
          | some j => update H Q fuel (deleteNode s1 0 (some k)) 1 (some j)) = some r := hr
    rw [hcond] at hrx
    cases hbdn : isBoundary Q nd with
    | false =>
      rw [hbdn] at hrx
      have hr2 : (match getFirstSibling Q
            (deleteNode (canonStore H Q m TA) 0 (some k)) nd with
        | none => none
        | some fs =>
          match fs.key with
          | none => updateAnchor H Q fuel (deleteNode (canonStore H Q m TA) 0 (some k)) 1
          | some j => update H Q fuel
              (deleteNode (canonStore H Q m TA) 0 (some k)) 1 (some j)) = some r := hrx
      have hatA : ∀ l, 0 < l → ∀ c ∈ canonLevel H Q m l, c.key ≠ some k :=
        canonLevel_no_col_above H Q m 0 k (fun c hc hck => by
          rw [show c = nd from level_col_unique (canonLevel_pairwise H Q m hm 0) hc hndc
            (by rw [hck, hndkey])]
          exact hbdn)
      have hP4nb : ∀ l, 0 < l → levelNodes (canonStore H Q m TA) l =
          (if l ≤ TA then canonLevel H Q m l else []).filter
            (fun c => keyLt c.key (some k)) ++
            (if l ≤ TA then canonLevel H Q m l else []).filter
              (fun c => keyLt (some k) c.key) := by
        intro l hl
        rw [canonStore_levelNodes]
        by_cases hlTA : l ≤ TA
        · rw [if_pos hlTA]
          conv_lhs => rw [sorted_split_le (some k) (canonLevel H Q m l)
            (canonLevel_pairwise H Q m hm l)]
          rw [filter_le_eq_lt_of_no_col (hatA l hl)]
        · rw [if_neg hlTA]
          rfl
      obtain ⟨T, hT, hCT⟩ := delete_tail H Q hq hH m hm k TA hTAkf fuel nd hndkey hndlev
        (canonStore H Q m TA) hwf1 (canonStore_hash_wf H Q m hH TA) hlev0 hP4nb r hr2
      exact ⟨T, hT, Or.inl hCT, fun _ => hCT⟩
    | true =>
      rw [hbdn] at hrx
      have hr2 : (match deleteParents fuel (canonStore H Q m TA) 0 (some k) with
        | none => none
        | some s1 =>
          match getFirstSibling Q (deleteNode s1 0 (some k)) nd with
          | none => none
          | some fs =>
            match fs.key with
            | none => updateAnchor H Q fuel (deleteNode s1 0 (some k)) 1
            | some j => update H Q fuel (deleteNode s1 0 (some k)) 1 (some j)) = some r := hrx
      cases hdp : deleteParents fuel (canonStore H Q m TA) 0 (some k) with
      | none =>
        rw [hdp] at hr2
        exact Option.noConfusion hr2
      | some s1 =>
        rw [hdp] at hr2
        have hr3 : (match getFirstSibling Q (deleteNode s1 0 (some k)) nd with
          | none => none
          | some fs =>
            match fs.key with
            | none => updateAnchor H Q fuel (deleteNode s1 0 (some k)) 1
            | some j => update H Q fuel (deleteNode s1 0 (some k)) 1 (some j)) = some r := hr2
        have hdcst : ∀ l, 0 < l → getNode (canonStore H Q m TA) (l + 1) (some k) ≠ none →
            getNode (canonStore H Q m TA) l (some k) ≠ none := by
          intro l hl hne
          obtain ⟨nd2, hnd2⟩ : ∃ x, getNode (canonStore H Q m TA) (l + 1) (some k) = some x := by
            cases hgx : getNode (canonStore H Q m TA) (l + 1) (some k) with
            | none => exact absurd hgx hne
            | some x => exact ⟨x, rfl⟩
          obtain ⟨hmem2, hlev2x, hkey2⟩ := getNode_mem hnd2
          have h1 : nd2 ∈ levelNodes (canonStore H Q m TA) (l + 1) :=
            mem_levelNodes.mpr ⟨hmem2, hlev2x⟩
          rw [canonStore_levelNodes] at h1
          by_cases hTAl : l + 1 ≤ TA
          · rw [if_pos hTAl] at h1
            obtain ⟨c2, hc2m, hc2k, -⟩ := canonLevel_col_chain H Q m l nd2 h1
              (by rw [hkey2]; simp)
            have hc2k2 : c2.key = some k := by rw [hc2k, hkey2]
            have hlv1 : levelNodes (canonStore H Q m TA) l =
                (canonLevel H Q m l).filter (fun x => keyLt x.key (some k)) ++
                  c2 :: (canonLevel H Q m l).filter (fun x => keyLt (some k) x.key) := by
              rw [canonStore_levelNodes, if_pos (by omega)]
              exact level_col_decomp (canonLevel_pairwise H Q m hm l) hc2m hc2k2
            rw [getNode_level_some hlv1
              (fun x hx => keyLt_ne (List.mem_filter.mp hx).2) hc2k2]
            simp
          · rw [if_neg hTAl] at h1
            exact absurd h1 (List.not_mem_nil nd2)
        have hdels := deleteParents_levels fuel (canonStore H Q m TA) 0 (some k) s1 hdp hdcst
        have hs1wf : StoreWF s1 :=
          deleteParents_wf fuel (canonStore H Q m TA) 0 (some k) s1 hdp hwf1
        have hs1hw : ∀ c ∈ s1, ByteString c.hash ∧ 4 ≤ c.hash.length := by
          intro c hc
          have hcl : c ∈ levelNodes s1 c.level := mem_levelNodes.mpr ⟨hc, rfl⟩
          rw [hdels c.level] at hcl
          by_cases hcond2 : 0 < c.level ∧
              getNode (canonStore H Q m TA) c.level (some k) ≠ none
          · rw [if_pos hcond2] at hcl
            have hc1 : c ∈ levelNodes (canonStore H Q m TA) c.level := by
              unfold keyDelete at hcl
              exact (List.mem_filter.mp hcl).1
            exact canonStore_hash_wf H Q m hH TA c (mem_levelNodes.mp hc1).1
          · rw [if_neg hcond2] at hcl
            exact canonStore_hash_wf H Q m hH TA c (mem_levelNodes.mp hcl).1
        have hs1lev0 : levelNodes s1 0 = canonLevel H Q m 0 := by
          rw [hdels 0, if_neg (fun hc => absurd hc.1 (by omega))]
          exact hlev0
        have hP4bd : ∀ l, 0 < l → levelNodes s1 l =
            (if l ≤ TA then canonLevel H Q m l else []).filter
              (fun c => keyLt c.key (some k)) ++
              (if l ≤ TA then canonLevel H Q m l else []).filter
                (fun c => keyLt (some k) c.key) := by
          intro l hl
          by_cases hcA2 : (∃ c2 ∈ canonLevel H Q m l, c2.key = some k) ∧ l ≤ TA
          · obtain ⟨⟨c2, hc2m, hc2k⟩, hlTA⟩ := hcA2
            have hlv1 : levelNodes (canonStore H Q m TA) l =
                (canonLevel H Q m l).filter (fun x => keyLt x.key (some k)) ++
                  c2 :: (canonLevel H Q m l).filter (fun x => keyLt (some k) x.key) := by
              rw [canonStore_levelNodes, if_pos hlTA]
              exact level_col_decomp (canonLevel_pairwise H Q m hm l) hc2m hc2k
            have hget2 : getNode (canonStore H Q m TA) l (some k) = some c2 :=
              getNode_level_some hlv1
                (fun x hx => keyLt_ne (List.mem_filter.mp hx).2) hc2k
            rw [hdels l, if_pos ⟨by omega, by rw [hget2]; simp⟩,
              keyDelete_sorted (some k) _ (levelNodes_pairwise hwf1 l), hlv1,
              filter_lt_around hc2k _ _
                (fun x hx => (List.mem_filter.mp hx).2)
                (fun y hy => (List.mem_filter.mp hy).2),
              filter_gt_around hc2k _ _
                (fun x hx => (List.mem_filter.mp hx).2)
                (fun y hy => (List.mem_filter.mp hy).2),
              if_pos hlTA]
          · have hnocol : ∀ x ∈ levelNodes (canonStore H Q m TA) l, x.key ≠ some k := by
              intro x hx
              rw [canonStore_levelNodes] at hx
              by_cases hlTA : l ≤ TA
              · rw [if_pos hlTA] at hx
                exact fun hxk => hcA2 ⟨⟨x, hx, hxk⟩, hlTA⟩
              · rw [if_neg hlTA] at hx
                exact absurd hx (List.not_mem_nil x)
            have hget2 : getNode (canonStore H Q m TA) l (some k) = none :=
              getNode_level_none hnocol
            rw [hdels l, if_neg (fun hc => hc.2 hget2), canonStore_levelNodes]
            by_cases hlTA : l ≤ TA
            · rw [if_pos hlTA]
              conv_lhs => rw [sorted_split_le (some k) (canonLevel H Q m l)
                (canonLevel_pairwise H Q m hm l)]
              rw [filter_le_eq_lt_of_no_col (fun c hc hck => hcA2 ⟨⟨c, hc, hck⟩, hlTA⟩)]
            · rw [if_neg hlTA]
              rfl
        obtain ⟨T, hT, hCT⟩ := delete_tail H Q hq hH m hm k TA hTAkf fuel nd hndkey hndlev
          s1 hs1wf hs1hw hs1lev0 hP4bd r hr3
        exact ⟨T, hT, Or.inl hCT, fun _ => hCT⟩

/-! ## Folding operation sequences, and the entry-map algebra -/

theorem byteaLt_asymm {a b : Bytes} (h : byteaLt a b = true) : byteaLt b a = false :=
  keyLt_asymm (a := some a) (b := some b) h

/-- The concrete hasher always emits well-formed four-byte digests. -/
theorem mixHash_wf : ∀ b, ByteString (mixHash b) ∧ 4 ≤ (mixHash b).length := by
  intro b
  constructor
  · intro x hx
    simp only [mixHash, List.mem_cons, List.not_mem_nil, or_false] at hx
    rcases hx with rfl | rfl | rfl | rfl
    · exact Nat.mod_lt _ (by omega)
    · exact Nat.mod_lt _ (by omega)
    · exact Nat.mod_lt _ (by omega)
    · exact Nat.mod_lt _ (by omega)
  · rfl

/-- The canonical store of the empty map is one anchor per level. -/
theorem canonStore_nil_length (H : Bytes → Bytes) (Q : Nat) :
    ∀ T, (canonStore H Q ([] : List (Bytes × Bytes)) T).length = T + 1 := by
  intro T
  induction T with
  | zero => rfl
  | succ T ih =>
    rw [canonStore_succ, List.length_append, ih,
      (keyedFree_iff_len H Q [] List.Pairwise.nil (T + 1)).mp
        (KeyedFree_mono H Q [] (Nat.zero_le _) (keyedFree_nil_zero H Q))]

/-- On a nonempty map, a Builder-style top is the canonical top. -/
theorem topOK_CTop (H : Bytes → Bytes) (Q : Nat) (m : List (Bytes × Bytes))
    (hm : EntriesWF m) (hmn : m ≠ []) {T : Nat} (h : TopOK H Q m T) : CTop H Q m T := by
  have hT1 : 1 ≤ T := by
    by_contra h0
    have hT0 : T = 0 := by omega
    have h2p : (canonLevel H Q m T).length = 1 := h.2
    rw [hT0] at h2p
    have h2 : (leafNodes H m).length = 1 := h2p
    rw [leafNodes_length] at h2
    exact hmn (List.length_eq_zero.mp (by omega))
  refine ⟨hT1, (keyedFree_iff_len H Q m hm T).mpr h.2, ?_⟩
  intro l h1 h2 hkf
  have hl1 := (keyedFree_iff_len H Q m hm l).mp hkf
  have h22 := h.1 l h1 h2
  omega

/-- Two sorted duplicate-free entry lists with the same members are equal. -/
theorem entries_sorted_perm_eq : ∀ (l1 l2 : List (Bytes × Bytes)),
    EntriesWF l1 → EntriesWF l2 → l1.Perm l2 → l1 = l2 := by
  intro l1
  induction l1 with
  | nil =>
    intro l2 _ _ hp
    exact hp.nil_eq
  | cons a t1 ih =>
    intro l2 h1 h2 hp
    cases l2 with
    | nil => exact absurd hp.symm.nil_eq (by simp)
    | cons b t2 =>
      by_cases hab : a = b
      · subst hab
        rw [ih t2 (List.pairwise_cons.mp h1).2 (List.pairwise_cons.mp h2).2 hp.cons_inv]
      · exfalso
        have ha2 : a ∈ t2 := by
          have hm2 := hp.mem_iff.mp (List.mem_cons_self a t1)
          rcases List.mem_cons.mp hm2 with he | h
          · exact absurd he hab
          · exact h
        have hb1 : b ∈ t1 := by
          have hm1 := hp.mem_iff.mpr (List.mem_cons_self b t2)
          rcases List.mem_cons.mp hm1 with he | h
          · exact absurd he.symm hab
          · exact h
        have hr1 : byteaLt a.1 b.1 = true := (List.pairwise_cons.mp h1).1 b hb1
        have hr2 : byteaLt b.1 a.1 = true := (List.pairwise_cons.mp h2).1 a ha2
        rw [byteaLt_asymm hr1] at hr2
        exact Bool.false_ne_true hr2

/-- Upserting an absent key just adds the pair, up to order. -/
theorem entriesUpsert_perm_absent : ∀ (acc : List (Bytes × Bytes)) (k v : Bytes),
    (∀ kv ∈ acc, kv.1 ≠ k) → (entriesUpsert acc k v).Perm ((k, v) :: acc) := by
  intro acc
  induction acc with
  | nil =>
    intro k v _
    exact List.Perm.refl _
  | cons kv0 rest ih =>
    intro k v habs
    obtain ⟨k0, v0⟩ := kv0
    have hk0 : k0 ≠ k := habs (k0, v0) (List.mem_cons_self _ _)
    have hbeq : (k0 == k) = false := beq_eq_false_iff_ne.mpr hk0
    rw [show entriesUpsert ((k0, v0) :: rest) k v = (if k0 == k then (k, v) :: rest
      else if byteaLt k k0 then (k, v) :: (k0, v0) :: rest
      else (k0, v0) :: entriesUpsert rest k v) from rfl, hbeq, if_neg (by simp)]
    by_cases hblt : byteaLt k k0 = true
    · rw [hblt, if_pos rfl]
    · have hbf : byteaLt k k0 = false := by
        cases h : byteaLt k k0
        · rfl
        · exact absurd h hblt
      rw [hbf, if_neg (by simp)]
      have ihp := ih k v (fun kv2 h2 => habs kv2 (List.mem_cons_of_mem _ h2))
      exact (List.Perm.cons _ ihp).trans (List.Perm.swap (k, v) (k0, v0) rest)

/-- The entry map produced by a sequence of upserts. -/
def entriesFold (m : List (Bytes × Bytes)) (ps : List (Bytes × Bytes)) :
    List (Bytes × Bytes) :=
  ps.foldl (fun acc kv => entriesUpsert acc kv.1 kv.2) m

theorem entriesFold_wf : ∀ (ps m : List (Bytes × Bytes)), EntriesWF m →
    EntriesWF (entriesFold m ps) := by
  intro ps
  induction ps with
  | nil =>
    intro m hm
    exact hm
  | cons kv rest ih =>
    intro m hm
    exact ih (entriesUpsert m kv.1 kv.2) (entriesUpsert_wf kv.1 kv.2 m hm)

/-- Upserting pairwise-distinct keys accumulates exactly those pairs. -/
theorem entriesFold_perm : ∀ (ps acc : List (Bytes × Bytes)),
    List.Pairwise (fun x y : Bytes × Bytes => x.1 ≠ y.1) ps →
    (∀ kv ∈ ps, ∀ kv2 ∈ acc, kv.1 ≠ kv2.1) →
    (entriesFold acc ps).Perm (acc ++ ps) := by
  intro ps
  induction ps with
  | nil =>
    intro acc _ _
    rw [show entriesFold acc [] = acc from rfl, List.append_nil]
  | cons kv rest ih =>
    intro acc hpw hdisj
    have hup := entriesUpsert_perm_absent acc kv.1 kv.2
      (fun kv2 h2 => (hdisj kv (List.mem_cons_self _ _) kv2 h2).symm)
    have hdisj2 : ∀ x ∈ rest, ∀ y ∈ entriesUpsert acc kv.1 kv.2, x.1 ≠ y.1 := by
      intro x hx y hy
      have hy2 := hup.mem_iff.mp hy
      rcases List.mem_cons.mp hy2 with rfl | hy3
      · exact fun he => ((List.pairwise_cons.mp hpw).1 x hx) (by rw [he])
      · exact hdisj x (List.mem_cons_of_mem _ hx) y hy3
    have ihp := ih (entriesUpsert acc kv.1 kv.2) (List.pairwise_cons.mp hpw).2 hdisj2
    exact ihp.trans ((hup.append_right rest).trans List.perm_middle.symm)

/-- Folding `Tree.set` over a list of pairs. -/
def setFold (H : Bytes → Bytes) (Q fuel : Nat) : Store → List (Bytes × Bytes) → Option Store
  | s, [] => some s
  | s, kv :: rest =>
    match set H Q fuel s kv.1 kv.2 with
    | none => none
    | some s2 => setFold H Q fuel s2 rest

theorem setFold_canon (H : Bytes → Bytes) (Q : Nat) (hq : 2 ≤ Q)
    (hH : ∀ b, ByteString (H b) ∧ 4 ≤ (H b).length) :
    ∀ (ps : List (Bytes × Bytes)) (m : List (Bytes × Bytes)), EntriesWF m →
    ∀ (s : Store), StateOK H Q m s → ∀ (fuel : Nat) (r : Store),
    setFold H Q fuel s ps = some r → StateOK H Q (entriesFold m ps) r := by
  intro ps
  induction ps with
  | nil =>
    intro m hm s hs fuel r hr
    obtain rfl : s = r := Option.some_inj.mp hr
    exact hs
  | cons kv rest ih =>
    intro m hm s hs fuel r hr
    have hr2 : (match set H Q fuel s kv.1 kv.2 with
      | none => none
      | some s2 => setFold H Q fuel s2 rest) = some r := hr
    cases hset : set H Q fuel s kv.1 kv.2 with
    | none =>
      rw [hset] at hr2
      exact Option.noConfusion hr2
    | some s2 =>
      rw [hset] at hr2
      exact ih (entriesUpsert m kv.1 kv.2) (entriesUpsert_wf kv.1 kv.2 m hm) s2
        (set_canon H Q hq hH m hm kv.1 kv.2 hs fuel s2 hset) fuel r hr2

/-- One mutation: a `set` of a pair, or a `delete` of a key. -/
def opApply (H : Bytes → Bytes) (Q fuel : Nat) (s : Store) :
    (Bytes × Bytes) ⊕ Bytes → Option Store
  | Sum.inl kv => set H Q fuel s kv.1 kv.2
  | Sum.inr k => delete H Q fuel s k

/-- Folding a sequence of `set` / `delete` operations. -/
def opFold (H : Bytes → Bytes) (Q fuel : Nat) :
    Store → List ((Bytes × Bytes) ⊕ Bytes) → Option Store
  | s, [] => some s
  | s, op :: rest =>
    match opApply H Q fuel s op with
    | none => none
    | some s2 => opFold H Q fuel s2 rest

theorem opFold_canon (H : Bytes → Bytes) (Q : Nat) (hq : 2 ≤ Q)
    (hH : ∀ b, ByteString (H b) ∧ 4 ≤ (H b).length) :
    ∀ (ops : List ((Bytes × Bytes) ⊕ Bytes)) (m : List (Bytes × Bytes)), EntriesWF m →
    ∀ (s : Store), StateOK H Q m s → ∀ (fuel : Nat) (r : Store),
    opFold H Q fuel s ops = some r →
    ∃ m2, EntriesWF m2 ∧ StateOK H Q m2 r := by
  intro ops
  induction ops with
  | nil =>
    intro m hm s hs fuel r hr
    obtain rfl : s = r := Option.some_inj.mp hr
    exact ⟨m, hm, hs⟩
  | cons op rest ih =>
    intro m hm s hs fuel r hr
    have hr2 : (match opApply H Q fuel s op with
      | none => none
      | some s2 => opFold H Q fuel s2 rest) = some r := hr
    cases hop : opApply H Q fuel s op with
    | none =>
      rw [hop] at hr2
      exact Option.noConfusion hr2
    | some s2 =>
      rw [hop] at hr2
      cases op with
      | inl kv =>
        have hset : set H Q fuel s kv.1 kv.2 = some s2 := hop
        exact ih (entriesUpsert m kv.1 kv.2) (entriesUpsert_wf kv.1 kv.2 m hm) s2
          (set_canon H Q hq hH m hm kv.1 kv.2 hs fuel s2 hset) fuel r hr2
      | inr k =>
        have hdel : delete H Q fuel s k = some s2 := hop
        obtain ⟨T, hT, hdisj, -⟩ := delete_canon H Q hq hH m hm k hs fuel s2 hdel
        exact ih (entriesRemove m k) (entriesRemove_wf m k hm) s2 ⟨T, hT, hdisj⟩
          fuel r hr2

/-- Upserting always leaves the key present. -/
theorem entriesUpsert_key_present (k v : Bytes) : ∀ (m : List (Bytes × Bytes)),
    ∃ kv ∈ entriesUpsert m k v, kv.1 = k := by
  intro m
  induction m with
  | nil => exact ⟨(k, v), List.mem_cons_self _ _, rfl⟩
  | cons kv0 rest ih =>
    obtain ⟨k0, v0⟩ := kv0
    rw [show entriesUpsert ((k0, v0) :: rest) k v = (if k0 == k then (k, v) :: rest
      else if byteaLt k k0 then (k, v) :: (k0, v0) :: rest
      else (k0, v0) :: entriesUpsert rest k v) from rfl]
    by_cases h1 : (k0 == k) = true
    · rw [if_pos h1]
      exact ⟨(k, v), List.mem_cons_self _ _, rfl⟩
    · rw [if_neg h1]
      by_cases h2 : byteaLt k k0 = true
      · rw [if_pos h2]
        exact ⟨(k, v), List.mem_cons_self _ _, rfl⟩
      · rw [if_neg h2]
        obtain ⟨kv2, hkv2, hk2⟩ := ih
        exact ⟨kv2, List.mem_cons_of_mem _ hkv2, hk2⟩

/-- Removing a freshly upserted absent key is the identity. -/
theorem remove_upsert_absent (k v : Bytes) : ∀ (m : List (Bytes × Bytes)),
    (∀ kv ∈ m, kv.1 ≠ k) →
    entriesRemove (entriesUpsert m k v) k = m := by
  intro m
  induction m with
  | nil =>
    intro _
    show List.filter _ [(k, v)] = []
    rw [List.filter_cons, if_neg (by simp)]
    rfl
  | cons kv0 rest ih =>
    intro habs
    obtain ⟨k0, v0⟩ := kv0
    have hk0 : k0 ≠ k := habs (k0, v0) (List.mem_cons_self _ _)
    have hbeq : (k0 == k) = false := beq_eq_false_iff_ne.mpr hk0
    rw [show entriesUpsert ((k0, v0) :: rest) k v = (if k0 == k then (k, v) :: rest
      else if byteaLt k k0 then (k, v) :: (k0, v0) :: rest
      else (k0, v0) :: entriesUpsert rest k v) from rfl, hbeq, if_neg (by simp)]
    have hkeep : ∀ (t : List (Bytes × Bytes)), entriesRemove ((k0, v0) :: t) k =
        (k0, v0) :: entriesRemove t k := by
      intro t
      show List.filter _ _ = _
      rw [List.filter_cons, if_pos (show (!((k0, v0).1 == k)) = true by
        rw [hbeq]
        rfl)]
      rfl
    have hdrop : ∀ (t : List (Bytes × Bytes)), (∀ kv ∈ t, kv.1 ≠ k) →
        entriesRemove ((k, v) :: t) k = t := by
      intro t ht
      show List.filter _ _ = _
      rw [List.filter_cons, if_neg (by simp)]
      rw [List.filter_eq_self]
      intro kv hkv
      show (!(kv.1 == k)) = true
      rw [beq_eq_false_iff_ne.mpr (ht kv hkv)]
      rfl
    by_cases h2 : byteaLt k k0 = true
    · rw [h2, if_pos rfl]
      exact hdrop ((k0, v0) :: rest) habs
    · have hbf : byteaLt k k0 = false := by
        cases h : byteaLt k k0
        · rfl
        · exact absurd h h2
      rw [hbf, if_neg (by simp), hkeep,
        ih (fun kv2 h3 => habs kv2 (List.mem_cons_of_mem _ h3))]

/-- Every stored node of a canonical store lies on its canonical level. -/
theorem canonStore_mem_canonLevel {H : Bytes → Bytes} {Q : Nat}
    {m : List (Bytes × Bytes)} {T : Nat} {n : Node} (hn : n ∈ canonStore H Q m T) :
    n ∈ canonLevel H Q m n.level := by
  unfold canonStore at hn
  obtain ⟨l, hl, hnl⟩ := List.mem_flatten.mp hn
  obtain ⟨L, -, rfl⟩ := List.mem_map.mp hl
  rw [canonLevel_levels H Q m L n hnl]
  exact hnl

/-! ## C1: order independence of incremental insertion versus the Builder -/

/-- **C1** For every finite set of pairs with distinct keys, applying
`Tree.set` for each pair in any permutation, starting from a freshly
initialized empty tree, yields the same final root (`getRoot`) as writing
the same pairs in ascending key order through `Builder.set` and calling
`Builder.finalize`. -/
theorem C1_set_order_independence (H : Bytes → Bytes) (Q : Nat) (hq : 2 ≤ Q)
    (hH : ∀ b, ByteString (H b) ∧ 4 ≤ (H b).length)
    (m ps : List (Bytes × Bytes)) (hm : EntriesWF m) (hperm : ps.Perm m)
    (fuel bfuel : Nat) (r : Store) (root : Node)
    (htree : setFold H Q fuel (initTree H) ps = some r)
    (hbuild : finalize H Q bfuel
      (m.foldl (fun st kv => builderSet H st kv.1 kv.2) (builderInit H)) = some root) :
    getRoot r = some root := by
  have hinit : StateOK H Q [] (initTree H) :=
    ⟨0, by rw [canonStore_zero]; rfl, Or.inr ⟨rfl, rfl⟩⟩
  have hsok := setFold_canon H Q hq hH ps [] List.Pairwise.nil (initTree H) hinit fuel r htree
  have hmne : List.Pairwise (fun x y : Bytes × Bytes => x.1 ≠ y.1) m := by
    apply List.Pairwise.imp ?_ hm
    intro a b hab he
    rw [he, byteaLt_irrefl] at hab
    exact Bool.false_ne_true hab
  have hpsne : List.Pairwise (fun x y : Bytes × Bytes => x.1 ≠ y.1) ps :=
    (List.Perm.pairwise_iff (by intro a b h; exact h.symm) hperm).mpr hmne
  have hfperm : (entriesFold [] ps).Perm m :=
    (entriesFold_perm ps [] hpsne
      (fun kv _ kv2 h2 => absurd h2 (List.not_mem_nil kv2))).trans hperm
  have hEq : entriesFold [] ps = m :=
    entries_sorted_perm_eq _ m (entriesFold_wf ps [] List.Pairwise.nil) hm hfperm
  rw [hEq] at hsok
  obtain ⟨Tt, rfl, htopT⟩ := hsok
  have hbfold : m.foldl (fun st kv => builderSet H st kv.1 kv.2) (builderInit H) =
      ⟨leafNodes H m, 1 + m.length⟩ := by
    have hb := builder_fold_leaves H m [] (by rw [List.nil_append]; exact hm)
    exact hb
  rw [hbfold] at hbuild
  unfold finalize at hbuild
  cases hloop : finalizeLoop H Q bfuel (leafNodes H m) 0 (1 + m.length) with
  | none =>
    rw [hloop] at hbuild
    exact absurd hbuild (by simp)
  | some res =>
    obtain ⟨s', lv⟩ := res
    rw [hloop] at hbuild
    have hbuild2 : getNode s' lv none = some root := hbuild
    have hloop2 : finalizeLoop H Q bfuel (canonStore H Q m 0) 0
        (canonLevel H Q m 0).length = some (s', lv) := by
      rw [canonStore_zero,
        (show (canonLevel H Q m 0).length = 1 + m.length from leafNodes_length H m)]
      exact hloop
    obtain ⟨Tb, -, hres, hTopB⟩ := finalizeLoop_canon H Q m hm bfuel 0 _ rfl
      (fun L h1 h2 => absurd h2 (by omega)) (s', lv) hloop2
    have hs' : s' = canonStore H Q m Tb := congrArg Prod.fst hres
    have hlv : lv = Tb := congrArg Prod.snd hres
    rw [hs', hlv] at hbuild2 hloop2
    obtain ⟨ab, restb, hlvb, hakb, hgetb⟩ := canonStore_getNode_top H Q m Tb
    rw [hgetb] at hbuild2
    have hab : ab = root := Option.some_inj.mp hbuild2
    obtain ⟨at2, restt, hlvt, hakt, hgett⟩ := canonStore_getRoot H Q m Tt
    rw [hgett]
    suffices hTT : Tt = Tb by
      rw [hTT] at hlvt
      rw [(List.cons_eq_cons.mp (hlvt.symm.trans hlvb)).1, hab]
    by_cases hmn : m = []
    · subst hmn
      have hTb0 : Tb = 0 := by
        cases bfuel with
        | zero =>
          exact absurd (show (none : Option (Store × Nat)) =
            some (canonStore H Q [] Tb, Tb) from hloop2) (by simp)
        | succ B =>
          have hc1 : (canonLevel H Q ([] : List (Bytes × Bytes)) 0).length = 1 := rfl
          rw [hc1] at hloop2
          have hstep : finalizeLoop H Q (B + 1)
              (canonStore H Q ([] : List (Bytes × Bytes)) 0) 0 1 =
              some (canonStore H Q ([] : List (Bytes × Bytes)) 0, 0) := by
            rw [show finalizeLoop H Q (B + 1)
                (canonStore H Q ([] : List (Bytes × Bytes)) 0) 0 1 =
              (if 1 > 1 then
                (match buildLevel H Q (canonStore H Q ([] : List (Bytes × Bytes)) 0) 0 with
                  | none => none
                  | some (s2, c2) => finalizeLoop H Q B s2 1 c2)
              else some (canonStore H Q ([] : List (Bytes × Bytes)) 0, 0)) from rfl,
              if_neg (by omega)]
          have h9 := hstep.symm.trans hloop2
          exact (congrArg Prod.snd (Option.some_inj.mp h9)).symm
      have hTt0 : Tt = 0 := by
        have hps : ps = [] := hperm.eq_nil
        subst hps
        have h9 : initTree H = canonStore H Q ([] : List (Bytes × Bytes)) Tt :=
          Option.some_inj.mp (show some (initTree H) =
            some (canonStore H Q ([] : List (Bytes × Bytes)) Tt) from htree)
        have hlen := congrArg List.length h9
        rw [canonStore_nil_length] at hlen
        have hlen2 : 1 = Tt + 1 := hlen
        omega
      rw [hTt0, hTb0]
    · have hTtC : CTop H Q m Tt := by
        rcases htopT with h | ⟨-, hnil⟩
        · exact h
        · exact absurd hnil hmn
      exact CTop_unique H Q m hTtC (topOK_CTop H Q m hm hmn hTopB)

/-- The final store of the C1 witness run. -/
def C1r : Store :=
  [⟨0, none, [5, 92, 202, 206], none⟩,
   ⟨0, some [1], [236, 205, 15, 140], some [7]⟩,
   ⟨0, some [2], [47, 204, 208, 51], some [9]⟩,
   ⟨1, none, [62, 49, 177, 217], none⟩,
   ⟨1, some [2], [29, 172, 155, 58], none⟩,
   ⟨2, none, [184, 30, 240, 33], none⟩,
   ⟨2, some [2], [216, 239, 62, 161], none⟩,
   ⟨3, none, [116, 132, 88, 88], none⟩]

/-- The Builder root of the C1 witness run. -/
def C1root : Node := ⟨3, none, [116, 132, 88, 88], none⟩

set_option maxRecDepth 40000 in
/-- Witness for C1: inserting `{1 ↦ 7, 2 ↦ 9}` in reversed order through
`Tree.set` reaches the same root as the sorted `Builder` run. -/
theorem C1_set_order_independence_witness :
    EntriesWF [([1], [7]), ([2], [9])] ∧
    List.Perm [([2], [9]), ([1], [7])] [([1], [7]), ([2], [9])] ∧
    setFold mixHash 2 20 (initTree mixHash) [([2], [9]), ([1], [7])] = some C1r ∧
    finalize mixHash 2 10 (List.foldl (fun st kv => builderSet mixHash st kv.1 kv.2)
      (builderInit mixHash) [([1], [7]), ([2], [9])]) = some C1root ∧
    getRoot C1r = some C1root :=
  ⟨by decide, by decide, by decide, by decide,
    C1_set_order_independence mixHash 2 (by decide) mixHash_wf
      [([1], [7]), ([2], [9])] [([2], [9]), ([1], [7])] (by decide) (by decide)
      20 10 C1r C1root (by decide) (by decide)⟩

/-! ## C3: structural invariants of every reachable state -/

/-- **C3** After any finite sequence of `Tree.set` and `Tree.delete`
operations applied to a freshly initialized tree, every nonempty level of
the node store contains exactly one anchor, and every keyed node at a
level above zero has a same-keyed node one level below that is the anchor
or a boundary. -/
theorem C3_structural_invariants (H : Bytes → Bytes) (Q : Nat) (hq : 2 ≤ Q)
    (hH : ∀ b, ByteString (H b) ∧ 4 ≤ (H b).length)
    (fuel : Nat) (ops : List ((Bytes × Bytes) ⊕ Bytes)) (r : Store)
    (hr : opFold H Q fuel (initTree H) ops = some r) :
    (∀ l, levelNodes r l ≠ [] →
      ((levelNodes r l).filter (fun c => c.key == none)).length = 1) ∧
    (∀ n ∈ r, 0 < n.level → n.key ≠ none →
      ∃ c ∈ r, c.level = n.level - 1 ∧ c.key = n.key ∧
        (c.key = none ∨ isBoundary Q c = true)) := by
  have hinit : StateOK H Q [] (initTree H) :=
    ⟨0, by rw [canonStore_zero]; rfl, Or.inr ⟨rfl, rfl⟩⟩
  obtain ⟨m2, hm2, T, rfl, -⟩ := opFold_canon H Q hq hH ops [] List.Pairwise.nil
    (initTree H) hinit fuel r hr
  constructor
  · intro l hne
    rw [canonStore_levelNodes] at hne ⊢
    by_cases hlT : l ≤ T
    · rw [if_pos hlT]
      obtain ⟨a, rest, hlv, hak⟩ := canonLevel_head_anchor H Q m2 l
      have hpw := canonLevel_pairwise H Q m2 hm2 l
      rw [hlv] at hpw ⊢
      rw [List.filter_cons, if_pos (show ((fun c => c.key == none) a) = true from by
        show (a.key == none) = true
        rw [hak]
        rfl)]
      have hrest : rest.filter (fun c => c.key == none) = [] := by
        rw [List.filter_eq_nil_iff]
        intro x hx hpred
        have h1 := (List.pairwise_cons.mp hpw).1 x hx
        have h2 : x.key = none := beq_iff_eq.mp hpred
        rw [hak, h2, keyLt_none_right] at h1
        exact Bool.false_ne_true h1
      rw [hrest]
      rfl
    · rw [if_neg hlT] at hne
      exact absurd rfl hne
  · intro n hn hlev hkey
    have hnT := canonStore_mem_level hn
    have hnc := canonStore_mem_canonLevel hn
    have hmem2 : n ∈ canonLevel H Q m2 (n.level - 1 + 1) := by
      rw [show n.level - 1 + 1 = n.level by omega]
      exact hnc
    obtain ⟨c, hc, hck, hcbd⟩ := canonLevel_col_chain H Q m2 (n.level - 1) n hmem2 hkey
    have hclev : c.level = n.level - 1 := canonLevel_levels H Q m2 (n.level - 1) c hc
    have hcr : c ∈ canonStore H Q m2 T := by
      have h1 : c ∈ levelNodes (canonStore H Q m2 T) (n.level - 1) := by
        rw [canonStore_levelNodes, if_pos (by omega)]
        exact hc
      exact (mem_levelNodes.mp h1).1
    exact ⟨c, hcr, hclev, hck, Or.inr hcbd⟩

/-- The final store of the C3 witness run. -/
def C3r : Store :=
  [⟨0, none, [5, 92, 202, 206], none⟩,
   ⟨0, some [2], [229, 84, 49, 76], some [6]⟩,
   ⟨1, none, [11, 239, 159, 223], none⟩]

set_option maxRecDepth 40000 in
/-- Witness for C3: two sets and a delete from the fresh tree, with both
invariant clauses of the resulting store. -/
theorem C3_structural_invariants_witness :
    opFold mixHash 2 20 (initTree mixHash)
      [Sum.inl ([1], [5]), Sum.inl ([2], [6]), Sum.inr [1]] = some C3r ∧
    ((∀ l, levelNodes C3r l ≠ [] →
        ((levelNodes C3r l).filter (fun c => c.key == none)).length = 1) ∧
     (∀ n ∈ C3r, 0 < n.level → n.key ≠ none →
        ∃ c ∈ C3r, c.level = n.level - 1 ∧ c.key = n.key ∧
          (c.key = none ∨ isBoundary 2 c = true))) :=
  ⟨by decide, C3_structural_invariants mixHash 2 (by decide) mixHash_wf 20
    [Sum.inl ([1], [5]), Sum.inl ([2], [6]), Sum.inr [1]] C3r (by decide)⟩

/-! ## C5: set followed by delete -/

/-- The store after `set [3] [9]` on the fresh tree. -/
def C5s1 : Store :=
  [⟨0, none, [5, 92, 202, 206], none⟩,
   ⟨0, some [3], [148, 77, 195, 219], some [9]⟩,
   ⟨1, none, [116, 166, 164, 68], none⟩]

/-- The store after deleting that key again: one anchor level taller than
the fresh tree. -/
def C5s2 : Store :=
  [⟨0, none, [5, 92, 202, 206], none⟩,
   ⟨1, none, [135, 111, 20, 72], none⟩]

set_option maxRecDepth 40000 in
/-- Counterexample to C5 as stated: on the freshly initialized tree,
`set [3] [9]` followed by `delete [3]` leaves a tree with an extra anchor
level, whose root hash differs from the fresh tree's root hash. -/
theorem C5_counterexample :
    set mixHash 2 20 (initTree mixHash) [3] [9] = some C5s1 ∧
    delete mixHash 2 20 C5s1 [3] = some C5s2 ∧
    getRoot (initTree mixHash) = some ⟨0, none, [5, 92, 202, 206], none⟩ ∧
    getRoot C5s2 = some ⟨1, none, [135, 111, 20, 72], none⟩ ∧
    ([135, 111, 20, 72] : Bytes) ≠ [5, 92, 202, 206] :=
  ⟨by decide, by decide, by decide, by decide, by decide⟩

/-- **C5** (amended) For a valid non-fresh tree state — a canonical store
with a canonical top — and a key `k` not in the map, `set(k, v)` followed
by `delete(k)` restores the exact store, and with it the root hash. -/
theorem C5_set_delete_inverse (H : Bytes → Bytes) (Q : Nat) (hq : 2 ≤ Q)
    (hH : ∀ b, ByteString (H b) ∧ 4 ≤ (H b).length)
    (m : List (Bytes × Bytes)) (hm : EntriesWF m) (k v : Bytes)
    (hkabs : ∀ kv ∈ m, kv.1 ≠ k)
    {s : Store} {TA : Nat} (hsT : s = canonStore H Q m TA) (htop : CTop H Q m TA)
    (fuel1 fuel2 : Nat) (r1 r2 : Store)
    (h1 : set H Q fuel1 s k v = some r1)
    (h2 : delete H Q fuel2 r1 k = some r2) :
    r2 = s ∧ getRoot r2 = getRoot s := by
  subst hsT
  have hs0 : StateOK H Q m (canonStore H Q m TA) := ⟨TA, rfl, Or.inl htop⟩
  have h1ok := set_canon H Q hq hH m hm k v hs0 fuel1 r1 h1
  have hμwf := entriesUpsert_wf k v m hm
  obtain ⟨T2, rfl, -, hpres⟩ :=
    delete_canon H Q hq hH (entriesUpsert m k v) hμwf k h1ok fuel2 r2 h2
  have hCT2 := hpres (entriesUpsert_key_present k v m)
  rw [remove_upsert_absent k v m hkabs] at hCT2 ⊢
  rw [CTop_unique H Q m hCT2 htop]
  exact ⟨rfl, rfl⟩

set_option maxRecDepth 40000 in
/-- Witness for the amended C5: on the emptied one-level tree, setting and
deleting key `[3]` restores the store and the root. -/
theorem C5_set_delete_inverse_witness :
    EntriesWF ([] : List (Bytes × Bytes)) ∧
    (∀ kv ∈ ([] : List (Bytes × Bytes)), kv.1 ≠ [3]) ∧
    CTop mixHash 2 [] 1 ∧
    set mixHash 2 20 (canonStore mixHash 2 [] 1) [3] [9] = some C5s1 ∧
    delete mixHash 2 20 C5s1 [3] = some (canonStore mixHash 2 [] 1) ∧
    (canonStore mixHash 2 [] 1 = canonStore mixHash 2 [] 1 ∧
      getRoot (canonStore mixHash 2 [] 1) = getRoot (canonStore mixHash 2 [] 1)) :=
  ⟨by decide, by decide,
    ⟨le_refl 1, (by decide : ∀ c ∈ canonLevel mixHash 2 [] 1, c.key = none),
      fun l h1 h2 => absurd h1 (by omega)⟩,
    by decide, by decide,
    C5_set_delete_inverse mixHash 2 (by decide) mixHash_wf [] (by decide) [3] [9]
      (by decide) rfl
      ⟨le_refl 1, (by decide : ∀ c ∈ canonLevel mixHash 2 [] 1, c.key = none),
        fun l h1 h2 => absurd h1 (by omega)⟩
      20 20 C5s1 (canonStore mixHash 2 [] 1) (by decide) (by decide)⟩

end Okra
